import Mathlib

/-!
# TermUtils: the block editor (`src/editor.c`) and the REPL (`src/repl.c`)

Shallow embedding of the C sources.

* A C `int` is an `Int`; arithmetic overflow is outside the model, except in `wrapInt` and the
  definitions `Int32.…`, where `int` arithmetic wraps to 32 bits.
* A `char` is a `Nat` byte value; `'\0'` is `0`, `'\n'` is `10`, `' '` is `32`.  A plain `char`
  passed to a function taking an `int` is converted by `charToInt`.
* A heap block is the `List` of its cells; `NULL` is the empty block.  A read or write outside
  a block, an array index outside its array, or a failed `assert` makes the operation return
  `none`.  Cells handed out by `realloc`/`malloc` are indeterminate in C; here they read `0`.
* The editor is embedded twice.  In `Editor` a line holds its block by value, so two array
  slots that share one heap block after a struct copy are two equal blocks; this is what the
  code does as long as the rows in use have blocks of their own.  In `Mem.Editor` a line holds
  the pointer `data` and the blocks live in a heap, so writes and frees through one row reach
  every row that shares the block.
* The escape sequences the editor prints are not part of the state and are left out.
-/

namespace TermUtils

/-! ## Memory primitives -/

/-- Read of `xs[i]`. -/
def getAt {α : Type} (xs : List α) (i : Int) : Option α :=
  if 0 ≤ i then xs[i.toNat]? else none

/-- Write `xs[i] = v`. -/
def setAt {α : Type} (xs : List α) (i : Int) (v : α) : Option (List α) :=
  if 0 ≤ i ∧ i < xs.length then some (xs.set i.toNat v) else none

/-- The call `memcpy(dst + d, src + s, n)`: the `n` cells of `src` from `s` on replace the `n`
cells of `dst` from `d` on.  A call with `n = 0` touches nothing. -/
def memcpy {α : Type} (dst : List α) (d : Int) (src : List α) (s : Int) (n : Int) :
    Option (List α) :=
  if n = 0 then some dst
  else if 0 < n ∧ 0 ≤ d ∧ 0 ≤ s ∧ s + n ≤ src.length ∧ d + n ≤ dst.length then
    some (dst.take d.toNat ++ ((src.drop s.toNat).take n.toNat ++ dst.drop (d.toNat + n.toNat)))
  else none

/-- The call `memmove(buf + d, buf + s, n)`: source and destination lie in one block. -/
def memmove {α : Type} (buf : List α) (d s n : Int) : Option (List α) :=
  memcpy buf d buf s n

/-- The call `realloc(data, n)`: the old cells are kept (or cut to `n`), new ones read `0`. -/
def realloc (data : List Nat) (n : Int) : List Nat :=
  data.take n.toNat ++ List.replicate (n.toNat - data.length) 0

/-- The characters of a C string held in a block: the cells before the first `'\0'`. -/
def cstr (buf : List Nat) : List Nat :=
  buf.takeWhile (fun c => c ≠ 0)

/-! ## Block editor: data model -/

/-- The struct `EditorLine`. -/
structure EditorLine where
  count : Int
  capacity : Int
  data : List Nat
deriving DecidableEq, Repr

/-- The struct `Coords`. -/
structure Coords where
  x : Int
  y : Int
deriving DecidableEq, Repr

/-- The struct `Editor`; `lines` is the array of `TERM_EDITOR_MAX_LINES` lines. -/
structure Editor where
  cursor : Coords
  offset : Coords
  prompt : List Nat
  promptLength : Int
  lineCount : Int
  lines : List EditorLine
deriving DecidableEq, Repr

/-- The bytes a line holds: the first `count` cells of its block. -/
def EditorLine.content (l : EditorLine) : List Nat :=
  l.data.take l.count.toNat

/-- The value `editorInitLine` gives a slot. -/
def emptyLine : EditorLine :=
  { count := 0, capacity := 0, data := [] }

/-- The function `editorInitLine`. -/
def editorInitLine (e : Editor) (i : Int) : Option Editor := do
  let ls ← setAt e.lines i emptyLine
  some { e with lines := ls }

/-- The function `editorDeinitLine`: the block is freed, then the slot is reset. -/
def editorDeinitLine (e : Editor) (i : Int) : Option Editor := do
  let _ ← getAt e.lines i
  editorInitLine e i

/-- The loop `while(count > capacity) capacity = capacity ? capacity * 2 : 32`, run for at most
`fuel` rounds; `none` when the rounds do not suffice.  The product is that of unbounded
integers: it is the product the code computes as long as `count ≤ 2^30`
(`Int32.growCapacity` wraps it to 32 bits). -/
def growCapacity : Nat → Int → Int → Option Int
  | 0, capacity, count => if count > capacity then none else some capacity
  | fuel + 1, capacity, count =>
    if count > capacity then
      growCapacity fuel (if capacity ≠ 0 then capacity * 2 else 32) count
    else some capacity

/-- The function `editorEnsureLine`. -/
def editorEnsureLine (line : EditorLine) (count : Int) : Option EditorLine :=
  if line.capacity > count then some line
  else do
    let capacity ← growCapacity count.toNat line.capacity count
    some { line with capacity := capacity, data := realloc line.data capacity }

/-- The function `editorInsert`. -/
def editorInsert (e : Editor) (c : Nat) : Option Editor := do
  let x := e.offset.x + e.cursor.x
  let y := e.offset.y + e.cursor.y
  let e := { e with cursor := { e.cursor with x := e.cursor.x + 1 } }
  let line ← getAt e.lines y
  let line ← editorEnsureLine line (line.count + 2)
  let data ←
    (if e.cursor.x ≠ line.count then memmove line.data (x + 1) x (line.count - x)
     else some line.data)
  let line := { line with count := line.count + 1, data := data }
  let data ← setAt line.data x c
  let data ← setAt data line.count 0
  let ls ← setAt e.lines y { line with data := data }
  some { e with lines := ls }

/-- The loop `for(i = y; i < lineCount; ++i) lines[i] = lines[i-1]` of `editorBackspace`,
with `n` rounds left to run from index `i`.  The line is copied with its block; in the code
the copy shares the block with its source (`Mem.backspaceShift` copies the pointer). -/
def backspaceShift : Nat → Int → List EditorLine → Option (List EditorLine)
  | 0, _, ls => some ls
  | n + 1, i, ls => do
    let src ← getAt ls (i - 1)
    let ls ← setAt ls i src
    backspaceShift n (i + 1) ls

/-- The function `editorBackspace`. -/
def editorBackspace (e : Editor) : Option Editor := do
  let x := e.offset.x + e.cursor.x
  let y := e.offset.y + e.cursor.y
  if x > 0 then
    let line ← getAt e.lines y
    let data ← memmove line.data (x - 1) x (line.count - x)
    let line := { line with count := line.count - 1, data := data }
    let data ← setAt line.data line.count 0
    let ls ← setAt e.lines y { line with data := data }
    some { e with lines := ls, cursor := { e.cursor with x := e.cursor.x - 1 } }
  else if y = 0 then some e
  else
    let line ← getAt e.lines y
    let above ← getAt e.lines (y - 1)
    let dx := above.count
    let above ← editorEnsureLine above (above.count + line.count + 1)
    let data ← memcpy above.data above.count line.data 0 line.count
    let above := { above with count := above.count + line.count, data := data }
    let data ← setAt above.data above.count 0
    let ls ← setAt e.lines (y - 1) { above with data := data }
    let e ← editorDeinitLine { e with lines := ls } y
    let e := { e with lineCount := e.lineCount - 1 }
    let ls ← backspaceShift (e.lineCount - y).toNat y e.lines
    let e ← editorInitLine { e with lines := ls } e.lineCount
    some { e with cursor := { x := e.cursor.x + dx, y := e.cursor.y - 1 } }

/-- The loop `for(i = lineCount; i > y; --i) lines[i] = lines[i-1]` of `editorNewline`,
with `n` rounds left to run from index `i`. -/
def newlineShift : Nat → Int → List EditorLine → Option (List EditorLine)
  | 0, _, ls => some ls
  | n + 1, i, ls => do
    let src ← getAt ls (i - 1)
    let ls ← setAt ls i src
    newlineShift n (i - 1) ls

/-- The function `editorNewline`; `maxLines` is `TERM_EDITOR_MAX_LINES`. -/
def editorNewline (maxLines : Nat) (e : Editor) : Option Editor :=
  if ¬ (e.lineCount < (maxLines : Int)) then none
  else do
    let x := e.offset.x + e.cursor.x
    let y := e.offset.y + e.cursor.y
    let e := { e with cursor := { x := 0, y := e.cursor.y + 1 },
                      offset := { e.offset with x := 0 } }
    let e ← editorDeinitLine e e.lineCount
    let ls ← newlineShift (e.lineCount - y).toNat e.lineCount e.lines
    let e := { e with lines := ls, lineCount := e.lineCount + 1 }
    let e ← editorInitLine e (y + 1)
    let currentLine ← getAt e.lines y
    let newLine ← getAt e.lines (y + 1)
    let remaining := currentLine.count - x
    let newLine ←
      (if remaining ≠ 0 then do
         let newLine ← editorEnsureLine newLine (remaining + 1)
         let data ← memcpy newLine.data 0 currentLine.data x remaining
         let data ← setAt data remaining 0
         some { newLine with data := data, count := remaining }
       else some newLine)
    let ls ← setAt e.lines (y + 1) newLine
    let currentLine := { currentLine with count := x }
    let data ←
      (if currentLine.capacity ≠ 0 then setAt currentLine.data x 0
       else some currentLine.data)
    let ls ← setAt ls y { currentLine with data := data }
    some { e with lines := ls }

/-- The loop of `byteSize`, over the `n` lines from index `i` on. -/
def byteSizeLoop : Nat → Int → List EditorLine → Int → Option Int
  | 0, _, _, size => some size
  | n + 1, i, ls, size => do
    let line ← getAt ls i
    byteSizeLoop n (i + 1) ls (size + (line.count + 1))

/-- The function `byteSize`. -/
def byteSize (e : Editor) : Option Int :=
  byteSizeLoop e.lineCount.toNat 0 e.lines 0

/-- The function `termEditorInit`; `maxLines` is `TERM_EDITOR_MAX_LINES`. -/
def termEditorInit (maxLines : Nat) (prompt : List Nat) : Editor :=
  { cursor := { x := 0, y := 0 }
    offset := { x := 0, y := 0 }
    prompt := prompt
    promptLength := (prompt.length : Int) + 3
    lineCount := 1
    lines := List.replicate maxLines emptyLine }

/-- The loop of `termEditorFlush`, over the `n` lines from index `i` on: `string` is the output
block and `index` the write position. -/
def flushLoop : Nat → Int → List EditorLine → List Nat → Int → Option (List Nat)
  | 0, _, _, string, _ => some string
  | n + 1, i, ls, string, index => do
    let line ← getAt ls i
    let string ←
      (if line.count ≠ 0 then memcpy string index line.data 0 line.count
       else some string)
    let index := if line.count ≠ 0 then index + line.count else index
    let string ← setAt string index 10
    flushLoop n (i + 1) ls string (index + 1)

/-- The function `termEditorFlush`: the editor it leaves and the block it returns (of
`bytes + 1` cells, the last one the terminator). -/
def termEditorFlush (e : Editor) : Option (Editor × List Nat) := do
  let bytes ← byteSize e
  let string ← (if bytes + 1 < 0 then none else some (List.replicate (bytes + 1).toNat 0))
  let string ← flushLoop e.lineCount.toNat 0 e.lines string 0
  let string ← setAt string bytes 0
  some (e, string)

/-- The loop `while(dist < over) dist += 20`, run for at most `fuel` rounds. -/
def scrollDist : Nat → Int → Int → Int
  | 0, dist, _ => dist
  | fuel + 1, dist, over => if dist < over then scrollDist fuel (dist + 20) over else dist

/-- The function `scrollLeft`. -/
def scrollLeft (e : Editor) (over : Int) : Editor :=
  let dist := scrollDist over.toNat 0 over
  let dist := min dist e.offset.x
  { e with offset := { e.offset with x := e.offset.x - dist },
           cursor := { e.cursor with x := e.cursor.x + dist } }

/-- The function `scrollRight`. -/
def scrollRight (e : Editor) (over : Int) : Editor :=
  let dist := scrollDist over.toNat 0 over
  { e with offset := { e.offset with x := e.offset.x + dist },
           cursor := { e.cursor with x := e.cursor.x - dist } }

/-- The function `keepInViewX`; `tcols` is the value the call `tcols()` returns. -/
def keepInViewX (tcols : Int) (e : Editor) : Editor :=
  let minX : Int := 2
  let maxX := tcols - (e.promptLength + 2)
  if e.cursor.x > maxX then scrollRight e (e.cursor.x - maxX)
  else if e.offset.x ≠ 0 ∧ e.cursor.x < minX then scrollLeft e (minX - e.cursor.x)
  else e

/-- The function `termEditorLeft`. -/
def termEditorLeft (e : Editor) : Editor :=
  if e.cursor.x ≤ 0 then e
  else { e with cursor := { e.cursor with x := e.cursor.x - 1 } }

/-- The function `termEditorRight`. -/
def termEditorRight (e : Editor) : Option Editor := do
  let line ← getAt e.lines e.cursor.y
  if e.cursor.x + e.offset.x ≥ line.count then some e
  else some { e with cursor := { e.cursor with x := e.cursor.x + 1 } }

/-- The function `termEditorUp`. -/
def termEditorUp (e : Editor) : Option Editor := do
  if e.cursor.y ≤ 0 then some e
  else
    let e := { e with cursor := { e.cursor with y := e.cursor.y - 1 } }
    let line ← getAt e.lines e.cursor.y
    let max := line.count
    if e.cursor.x ≤ max then some e
    else some { e with cursor := { e.cursor with x := max } }

/-- The function `termEditorDown`. -/
def termEditorDown (e : Editor) : Option Editor := do
  if e.cursor.y ≥ e.lineCount - 1 then some e
  else
    let e := { e with cursor := { e.cursor with y := e.cursor.y + 1 } }
    let line ← getAt e.lines e.cursor.y
    let max := line.count
    if e.cursor.x ≤ max then some e
    else some { e with cursor := { e.cursor with x := max } }

/-- The function `getch` over the keys still to come; at the end of input it returns `EOF`. -/
def getch : List Int → Int × List Int
  | [] => (-1, [])
  | k :: rest => (k, rest)

/-- The function `processEscape`. -/
def processEscape (e : Editor) (input : List Int) : Option (Editor × List Int) :=
  let (k, input) := getch input
  if k ≠ 91 then some (e, input)
  else
    let (k, input) := getch input
    if k = 65 then (termEditorUp e).map (fun e => (e, input))
    else if k = 66 then (termEditorDown e).map (fun e => (e, input))
    else if k = 67 then (termEditorRight e).map (fun e => (e, input))
    else if k = 68 then some (termEditorLeft e, input)
    else some (e, input)

/-- The conversion of an `int` key to the `char` that `editorInsert` receives. -/
def toChar (c : Int) : Nat :=
  (c % 256).toNat

/-- The function `termEditorUpdate`; it reads its keys from `input`, and `tcols` is the value
`tcols()` returns during the call. -/
def termEditorUpdate (maxLines : Nat) (tcols : Int) (e : Editor) (input : List Int) :
    Option (Editor × Bool × List Int) :=
  let (c, input) := getch input
  if c = 10 then
    (editorNewline maxLines e).map (fun e => (keepInViewX tcols e, true, input))
  else if c = 127 then
    (editorBackspace e).map (fun e => (keepInViewX tcols e, true, input))
  else if c = 4 then some (e, false, input)
  else if c = 27 then
    (processEscape e input).map (fun r => (keepInViewX tcols r.1, true, r.2))
  else
    (editorInsert e (toChar c)).map (fun e => (keepInViewX tcols e, true, input))

/-- The caller's loop `while(termEditorUpdate(e))` over the keys of `keys`, each paired with
the terminal width at the moment it is read; the loop stops at the first `false`. -/
def typeKeys (maxLines : Nat) : Editor → List (Int × Int) → Option Editor
  | e, [] => some e
  | e, (c, tcols) :: rest => do
    let r ← termEditorUpdate maxLines tcols e [c]
    if r.2.1 then typeKeys maxLines r.1 rest else some r.1

/-! ## Block editor: well-formed states -/

/-- A line as the editor keeps it: the block has `capacity` cells, and either the line is the
empty slot or its `count` bytes and their terminator fit in the block. -/
def EditorLine.valid (l : EditorLine) : Prop :=
  0 ≤ l.count ∧ (l.data.length : Int) = l.capacity ∧
    (l.count < l.capacity ∨ (l.capacity = 0 ∧ l.count = 0))

instance (l : EditorLine) : Decidable l.valid := by
  unfold EditorLine.valid; infer_instance

/-- An editor as the code keeps it: an array of `maxLines` valid lines, of which
`1 ≤ lineCount ≤ maxLines` are in use, and the cursor on one of them. -/
def Editor.valid (maxLines : Nat) (e : Editor) : Prop :=
  e.lines.length = maxLines ∧ 1 ≤ e.lineCount ∧ e.lineCount ≤ (maxLines : Int) ∧
    0 ≤ e.offset.y + e.cursor.y ∧ e.offset.y + e.cursor.y < e.lineCount ∧
    ∀ l ∈ e.lines, l.valid

instance (maxLines : Nat) (e : Editor) : Decidable (e.valid maxLines) := by
  unfold Editor.valid; infer_instance

/-! ## REPL history (`src/repl.c`) -/

/-- The struct `TermREPL` as `repl.c` uses it: `history` is the array of `TERM_MAX_HISTORY`
pointers, a `NULL` pointer being `none` and a heap block `some` of its cells. -/
structure TermREPL where
  historyCount : Int
  history : List (Option (List Nat))
deriving DecidableEq, Repr

/-- The function `termREPLInit`; `maxHistory` is `TERM_MAX_HISTORY`, the number of slots of
the array, all of which the loop sets to `NULL`. -/
def termREPLInit (maxHistory : Nat) (repl : TermREPL) : TermREPL :=
  { repl with historyCount := 0, history := List.replicate maxHistory none }

/-- The loop `while(*end) end += 1`, run for at most `fuel` rounds from index `i`: the index
of the first `'\0'` at or after `i`.  A read past the block gives `none`. -/
def scanNul : Nat → List Nat → Int → Option Int
  | 0, _, _ => none
  | fuel + 1, data, i => do
    let c ← getAt data i
    if c ≠ 0 then scanNul fuel data (i + 1) else some i

/-- The library function `strlen`. -/
def strlen (s : List Nat) : Option Int :=
  scanNul (s.length + 1) s 0

/-- The loop `for(; end > data; --end) if(end[-1] != '\n' && end[-1] != ' ') break;` of
`strip`, run for at most `fuel` rounds. -/
def stripBack : Nat → List Nat → Int → Option Int
  | 0, _, i => if i > 0 then none else some i
  | fuel + 1, data, i =>
    if i > 0 then do
      let c ← getAt data (i - 1)
      if c ≠ 10 ∧ c ≠ 32 then some i else stripBack fuel data (i - 1)
    else some i

/-- The function `strip`, on the block `data` points to; it returns the block as it leaves
it. -/
def strip (data : List Nat) : Option (List Nat) := do
  let i ← scanNul (data.length + 1) data 0
  let c ← getAt data i
  if c ≠ 10 ∧ c ≠ 32 ∧ c ≠ 0 then some data
  else do
    let i ← stripBack i.toNat data i
    setAt data i 0

/-- The block `termREPLRecord` stores at `history[0]`: a fresh block of `1 + length` cells that
receives the entry's characters and a terminator and is then passed to `strip`. -/
def recordBlock (entry : List Nat) : Option (List Nat) := do
  let length ← strlen entry
  let block := List.replicate (1 + length).toNat 0
  let block ← memcpy block 0 entry 0 length
  let block ← setAt block length 0
  strip block

/-- The function `termREPLRecord`; `entry` is the block the argument points to. -/
def termREPLRecord (maxHistory : Nat) (repl : TermREPL) (entry : List Nat) :
    Option TermREPL := do
  let history ← memmove repl.history 1 0 ((maxHistory : Int) - 1)
  let block ← recordBlock entry
  let history ← setAt history 0 (some block)
  let historyCount := repl.historyCount + 1
  some { historyCount := if historyCount > (maxHistory : Int) then (maxHistory : Int)
                         else historyCount,
         history := history }

/-- Record the entries of a list one after the other, the first one first. -/
def recordAll (maxHistory : Nat) : TermREPL → List (List Nat) → Option TermREPL
  | repl, [] => some repl
  | repl, entry :: rest => do
    let repl ← termREPLRecord maxHistory repl entry
    recordAll maxHistory repl rest

/-! ## REPL session (`src/repl.c`) -/

/-- The enum `REPLAction`. -/
inductive REPLAction where
  | REPL_SUBMIT
  | REPL_DONE
  | REPL_CLEAR
  | REPL_DONOTHING
deriving DecidableEq, Repr

/-- Modelled from the spec: the struct `String` of `string.h`, which is not in `src/`.  It is
the spec's growable line buffer `{ content, length, capacity }`; `repl.c` reads and writes its
fields `data`, `count` and `capacity`. -/
structure String where
  count : Int
  capacity : Int
  data : List Nat
deriving DecidableEq

/-- Modelled from the spec: `stringInit` of `string.c`, which is not in `src/`: "a LineBuffer
is created empty". -/
def stringInit : String :=
  { count := 0, capacity := 0, data := [] }

/-- Modelled from the spec: the buffer's `ensureCapacity(n)` of `string.c`, which is not in
`src/`: it "guarantees capacity ≥ n by doubling from current capacity (or a minimum default)
until satisfied, reallocating storage".  The minimum default is taken to be the 32 of
`editorEnsureLine`. -/
def stringReserve (s : String) (n : Int) : Option String :=
  if s.capacity ≥ n then some s
  else do
    let capacity ← growCapacity n.toNat s.capacity n
    some { s with capacity := capacity, data := realloc s.data capacity }

/-- Modelled from the spec: `stringSet` of `string.c`, which is not in `src/`: history
navigation "replaces the buffer content with the selected entry".  The buffer receives the
characters of the C string `str` and a terminator. -/
def stringSet (s : String) (str : List Nat) : Option String := do
  let n ← strlen str
  let s ← stringReserve s (n + 1)
  let data ← memcpy s.data 0 str 0 n
  let data ← setAt data n 0
  some { s with count := n, data := data }

/-- Modelled from the spec: `stringTake` of `string.c`, which is not in `src/`: on submit the
buffer content is handed "to the caller as the result"; the buffer is left empty. -/
def stringTake (s : String) : String × List Nat :=
  (stringInit, s.data)

/-- The global struct `Line`: the session state of one `termREPL` call. -/
structure Line where
  historyIndex : Int
  history : TermREPL
  prompt : List Nat
  cursor : Int
  buffer : String
deriving DecidableEq

/-- The bytes the session buffer holds: the first `count` cells of its block. -/
def Line.content (line : Line) : List Nat :=
  line.buffer.data.take line.buffer.count.toNat

/-- The function `startREPL`. -/
def startREPL (prompt : List Nat) (history : TermREPL) : Line :=
  { cursor := 0, historyIndex := -1, history := history, prompt := prompt,
    buffer := stringInit }

/-- The function `replace`. -/
def replace (line : Line) (str : List Nat) : Option Line := do
  let buffer ← stringSet line.buffer str
  some { line with buffer := buffer, cursor := buffer.count }

/-- The function `replFlush`. -/
def replFlush (_key : Int) (line : Line) : Option (Line × REPLAction) :=
  some (line, REPLAction.REPL_CLEAR)

/-- The function `replHistoryPrev`; reading a `NULL` slot of the history gives `none`. -/
def replHistoryPrev (_key : Int) (line : Line) : Option (Line × REPLAction) :=
  if line.historyIndex ≥ line.history.historyCount - 1 then
    some (line, REPLAction.REPL_DONOTHING)
  else do
    let line := { line with historyIndex := line.historyIndex + 1 }
    let slot ← getAt line.history.history line.historyIndex
    let str ← slot
    let line ← replace line str
    some (line, REPLAction.REPL_DONOTHING)

/-- The function `replHistoryNext`. -/
def replHistoryNext (key : Int) (line : Line) : Option (Line × REPLAction) :=
  if line.historyIndex ≤ 0 then
    replFlush key { line with historyIndex := -1 }
  else do
    let line := { line with historyIndex := line.historyIndex - 1 }
    let slot ← getAt line.history.history line.historyIndex
    let str ← slot
    let line ← replace line str
    some (line, REPLAction.REPL_DONOTHING)

/-- Where one round of the `for(;;)` loop of `termREPL` leads: the loop goes on with the
session state, or it ends with `result` (`none` being `NULL`). -/
inductive Round where
  | next (line : Line)
  | done (line : Line) (result : Option (List Nat))
deriving DecidableEq

/-- The `switch(action)` in the loop of `termREPL`. -/
def termREPLSwitch (line : Line) : REPLAction → Option Round
  | REPLAction.REPL_SUBMIT =>
    some (Round.done { line with buffer := (stringTake line.buffer).1 }
      (some (stringTake line.buffer).2))
  | REPLAction.REPL_DONE => some (Round.done line none)
  | REPLAction.REPL_CLEAR => do
    let buffer : String := { line.buffer with count := 0 }
    let data ← (if buffer.capacity ≠ 0 then setAt buffer.data 0 0 else some buffer.data)
    some (Round.next { line with cursor := 0, buffer := { buffer with data := data } })
  | REPLAction.REPL_DONOTHING => some (Round.next line)

/-- Run `n` rounds of the loop of `termREPL` in which the key read is `key` and the command
found for it is `command`; `none` when a round fails or ends the loop. -/
def rounds (command : Int → Line → Option (Line × REPLAction)) (key : Int) :
    Nat → Line → Option Line
  | 0, line => some line
  | n + 1, line => do
    let r ← command key line
    let round ← termREPLSwitch r.1 r.2
    match round with
    | Round.next line => rounds command key n line
    | Round.done _ _ => none

/-! ## REPL commands (`src/repl.c`) -/

/-- The macro `IS_CTL(c)`, that is `((c) && (c) < ' ')`. -/
def IS_CTL (c : Int) : Bool :=
  c ≠ 0 && c < 32

/-- The value `replShow` returns: the number of terminal columns the character takes. -/
def replShow (c : Int) : Int :=
  if IS_CTL c then 2 else 1

/-- The `int` that a plain `char` holding the byte `b` converts to when it is passed to a
function taking an `int`.  Plain `char` is signed here, as it is on x86 and most other
targets: the bytes from 128 on are the negative values `b - 256`. -/
def charToInt (b : Nat) : Int :=
  if b < 128 then (b : Int) else (b : Int) - 256

/-- The loop of `replShows`, reading the block `data` from index `i` on, for at most `fuel`
rounds; each `char` read is converted to `int` for the call `replShow(*str++)`. -/
def replShowsLoop : Nat → List Nat → Int → Int → Option Int
  | 0, _, _, _ => none
  | fuel + 1, data, i, total => do
    let c ← getAt data i
    if c ≠ 0 then replShowsLoop fuel data (i + 1) (total + replShow (charToInt c))
    else some total

/-- The value `replShows(data + i)` returns. -/
def replShows (data : List Nat) (i : Int) : Option Int :=
  replShowsLoop (data.length + 1) data i 0

/-- The key codes `KEY_BACKSPACE`, `KEY_DELETE` and `KEY_ARROW_…` of `term/hexes.h`, which is not
in `src/`; they are parameters of the dispatch table. -/
structure KeyCodes where
  KEY_BACKSPACE : Int
  KEY_DELETE : Int
  KEY_ARROW_LEFT : Int
  KEY_ARROW_RIGHT : Int
  KEY_ARROW_UP : Int
  KEY_ARROW_DOWN : Int
deriving DecidableEq, Repr

/-- Modelled from the spec: `stringInsert` of `string.c`, which is not in `src/`:
"`insertAt(offset, byte)` requires `0 <= offset <= length`, shifts bytes at/after offset right
by one, increments length", after growing the buffer as `ensureCapacity` does.  The buffer
keeps a terminator after its content. -/
def stringInsert (s : String) (offset : Int) (c : Nat) : Option String :=
  if offset < 0 ∨ offset > s.count then none
  else do
    let s ← stringReserve s (s.count + 2)
    let data ← memmove s.data (offset + 1) offset (s.count - offset)
    let data ← setAt data offset c
    let data ← setAt data (s.count + 1) 0
    some { s with count := s.count + 1, data := data }

/-- Modelled from the spec: `stringAppend` of `string.c`, which is not in `src/`: on submit the
engine must "append a line terminator to the buffer"; the byte is inserted at the end. -/
def stringAppend (s : String) (c : Nat) : Option String :=
  stringInsert s s.count c

/-- Modelled from the spec: `stringErase` of `string.c`, which is not in `src/`:
"`eraseAt(offset, count)` requires `offset+count <= length`, shifts bytes left, decrements
length".  The buffer keeps a terminator after its content. -/
def stringErase (s : String) (offset : Int) (count : Int) : Option String :=
  if offset < 0 ∨ count < 0 ∨ offset + count > s.count then none
  else do
    let data ← memmove s.data offset (offset + count) (s.count - (offset + count))
    let data ← (if s.capacity ≠ 0 then setAt data (s.count - count) 0 else some data)
    some { s with count := s.count - count, data := data }

/-- The function `replLeft`. -/
def replLeft (_key : Int) (line : Line) : Option (Line × REPLAction) :=
  if line.cursor = 0 then some (line, REPLAction.REPL_DONOTHING)
  else do
    let _ ← getAt line.buffer.data (line.cursor - 1)
    some ({ line with cursor := line.cursor - 1 }, REPLAction.REPL_DONOTHING)

/-- The function `replRight`. -/
def replRight (_key : Int) (line : Line) : Option (Line × REPLAction) :=
  if line.cursor ≥ line.buffer.count then some (line, REPLAction.REPL_DONOTHING)
  else do
    let _ ← getAt line.buffer.data line.cursor
    some ({ line with cursor := line.cursor + 1 }, REPLAction.REPL_DONOTHING)

/-- The function `lineCap`: it only prints, but reads the buffer from the cursor up to the
terminator. -/
def lineCap (line : Line) : Option Line := do
  let _ ← replShows line.buffer.data line.cursor
  some line

/-- The function `replBackspace`. -/
def replBackspace (_key : Int) (line : Line) : Option (Line × REPLAction) :=
  if line.cursor = 0 then some (line, REPLAction.REPL_DONOTHING)
  else do
    let r ← replLeft 0 line
    let line := r.1
    let buffer ← stringErase line.buffer line.cursor 1
    let line ← lineCap { line with buffer := buffer }
    some (line, REPLAction.REPL_DONOTHING)

/-- The function `replDelete`. -/
def replDelete (_key : Int) (line : Line) : Option (Line × REPLAction) :=
  if line.cursor ≥ line.buffer.count then some (line, REPLAction.REPL_DONOTHING)
  else do
    let buffer ← stringErase line.buffer line.cursor 1
    let line ← lineCap { line with buffer := buffer }
    some (line, REPLAction.REPL_DONOTHING)

/-- The function `replCancel`. -/
def replCancel (_key : Int) (line : Line) : Option (Line × REPLAction) :=
  some (line, REPLAction.REPL_CLEAR)

/-- The function `replReturn`. -/
def replReturn (_key : Int) (line : Line) : Option (Line × REPLAction) := do
  let buffer ← stringAppend line.buffer 10
  some ({ line with buffer := buffer }, REPLAction.REPL_SUBMIT)

/-- The function `replEnd`. -/
def replEnd (_key : Int) (line : Line) : Option (Line × REPLAction) :=
  some (line, REPLAction.REPL_DONE)

/-- The function `defaultCMD`; the byte inserted is `key & 0x00ff`. -/
def defaultCMD (key : Int) (line : Line) : Option (Line × REPLAction) := do
  let buffer ← stringInsert line.buffer line.cursor (key % 256).toNat
  let line := { line with buffer := buffer, cursor := line.cursor + 1 }
  if line.cursor = line.buffer.count then some (line, REPLAction.REPL_DONOTHING)
  else do
    let _ ← replShows line.buffer.data line.cursor
    some (line, REPLAction.REPL_DONOTHING)

/-- The table `dispatch`, in its order; `CTL(c)` is `c & 037`. -/
def dispatch (keys : KeyCodes) : List (Int × (Int → Line → Option (Line × REPLAction))) :=
  [ (4, replEnd),
    (12, replFlush),
    (3, replCancel),
    (8, replBackspace),
    (13, replReturn),
    (keys.KEY_BACKSPACE, replBackspace),
    (keys.KEY_DELETE, replDelete),
    (2, replLeft),
    (keys.KEY_ARROW_LEFT, replLeft),
    (6, replRight),
    (keys.KEY_ARROW_RIGHT, replRight),
    (16, replHistoryPrev),
    (keys.KEY_ARROW_UP, replHistoryPrev),
    (14, replHistoryNext),
    (keys.KEY_ARROW_DOWN, replHistoryNext) ]

/-- The loop of `findCommand` over the entries of the table still to be looked at. -/
def findCommandIn : List (Int × (Int → Line → Option (Line × REPLAction))) → Int →
    Int → Line → Option (Line × REPLAction)
  | [], _ => defaultCMD
  | (key, function) :: rest, c => if key = c then function else findCommandIn rest c

/-- The function `findCommand`. -/
def findCommand (keys : KeyCodes) (c : Int) : Int → Line → Option (Line × REPLAction) :=
  findCommandIn (dispatch keys) c

/-- The `for(;;)` loop of `termREPL`, reading the keys of `input`; `none` when a round fails or
the input ends before the loop does. -/
def termREPLLoop (keys : KeyCodes) : Line → List Int → Option (Line × Option (List Nat))
  | _, [] => none
  | line, key :: input => do
    let r ← findCommand keys key key line
    let round ← termREPLSwitch r.1 r.2
    match round with
    | Round.next line => termREPLLoop keys line input
    | Round.done line result => some (line, result)

/-- The function `termREPL`: the value it returns (`none` inside being `NULL`) when the keys
read are those of `input`. -/
def termREPL (keys : KeyCodes) (repl : TermREPL) (prompt : List Nat) (input : List Int) :
    Option (Option (List Nat)) :=
  (termREPLLoop keys (startREPL prompt repl) input).map (fun r => r.2)

/-- A session buffer as the code keeps it: the block has `capacity` cells, and either the
buffer is empty and unallocated or its `count` bytes and their terminator fit in the block. -/
def String.valid (s : String) : Prop :=
  0 ≤ s.count ∧ (s.data.length : Int) = s.capacity ∧
    (s.count < s.capacity ∨ (s.capacity = 0 ∧ s.count = 0))

instance (s : String) : Decidable s.valid := by
  unfold String.valid; infer_instance

/-- Key codes used in the examples: values outside the byte range, all different. -/
def sampleKeys : KeyCodes :=
  { KEY_BACKSPACE := 127
    KEY_DELETE := 330
    KEY_ARROW_LEFT := 260
    KEY_ARROW_RIGHT := 261
    KEY_ARROW_UP := 259
    KEY_ARROW_DOWN := 258 }

/-! ## Block editor: reachable states and key actions -/

/-- The editor states reached from `termEditorInit` by `editorInsert`, `editorBackspace` and
`editorNewline`, each applied with the cursor's true offset inside the current line. -/
inductive EditReachable (maxLines : Nat) (prompt : List Nat) : Editor → Prop where
  | init : EditReachable maxLines prompt (termEditorInit maxLines prompt)
  | insert (e e' : Editor) (c : Nat) (line : EditorLine) :
      EditReachable maxLines prompt e →
      getAt e.lines (e.offset.y + e.cursor.y) = some line →
      0 ≤ e.offset.x + e.cursor.x → e.offset.x + e.cursor.x ≤ line.count →
      editorInsert e c = some e' → EditReachable maxLines prompt e'
  | backspace (e e' : Editor) (line : EditorLine) :
      EditReachable maxLines prompt e →
      getAt e.lines (e.offset.y + e.cursor.y) = some line →
      0 ≤ e.offset.x + e.cursor.x → e.offset.x + e.cursor.x ≤ line.count →
      editorBackspace e = some e' → EditReachable maxLines prompt e'
  | newline (e e' : Editor) (line : EditorLine) :
      EditReachable maxLines prompt e →
      getAt e.lines (e.offset.y + e.cursor.y) = some line →
      0 ≤ e.offset.x + e.cursor.x → e.offset.x + e.cursor.x ≤ line.count →
      editorNewline maxLines e = some e' → EditReachable maxLines prompt e'

/-- The key actions of the block editor: the functions `termEditorUpdate` and `processEscape`
call, and `keepInViewX` with the terminal width it reads. -/
inductive KeyAction where
  | insert (c : Nat)
  | backspace
  | newline
  | up
  | down
  | left
  | right
  | keepInView (tcols : Int)
deriving DecidableEq, Repr

/-- The effect of a key action on the editor. -/
def applyAction (maxLines : Nat) : KeyAction → Editor → Option Editor
  | KeyAction.insert c, e => editorInsert e c
  | KeyAction.backspace, e => editorBackspace e
  | KeyAction.newline, e => editorNewline maxLines e
  | KeyAction.up, e => termEditorUp e
  | KeyAction.down, e => termEditorDown e
  | KeyAction.left, e => some (termEditorLeft e)
  | KeyAction.right, e => termEditorRight e
  | KeyAction.keepInView tcols, e => some (keepInViewX tcols e)

/-- The row invariant: the array has `maxLines` slots, `1 ≤ lineCount ≤ maxLines`,
`offset.y = 0` and `0 ≤ cursor.y < lineCount`. -/
def Editor.rowsOk (maxLines : Nat) (e : Editor) : Prop :=
  e.lines.length = maxLines ∧ 1 ≤ e.lineCount ∧ e.lineCount ≤ (maxLines : Int) ∧
    e.offset.y = 0 ∧ 0 ≤ e.cursor.y ∧ e.cursor.y < e.lineCount

instance (maxLines : Nat) (e : Editor) : Decidable (e.rowsOk maxLines) := by
  unfold Editor.rowsOk; infer_instance

/-! ## REPL: reachable session states -/

/-- One round of the `for(;;)` loop of `termREPL` in which the key read is `key`: the command
found for the key runs, then the `switch` on the action it returns. -/
def termREPLRound (keys : KeyCodes) (key : Int) (line : Line) : Option Round := do
  let r ← findCommand keys key key line
  termREPLSwitch r.1 r.2

/-- The session state a round leaves. -/
def Round.line : Round → Line
  | Round.next line => line
  | Round.done line _ => line

/-- The session states at the head of the loop of `termREPL`: the state `startREPL` sets up,
and every state in which a round of the loop goes on, whatever key was read. -/
inductive REPLReachable (keys : KeyCodes) (prompt : List Nat) (history : TermREPL) :
    Line → Prop where
  | start : REPLReachable keys prompt history (startREPL prompt history)
  | round (line line' : Line) (key : Int) :
      REPLReachable keys prompt history line →
      termREPLRound keys key line = some (Round.next line') →
      REPLReachable keys prompt history line'

/-- Whether the slot read at an index of the history array is a recorded entry: inside the
array, not `NULL`, and a block that holds a terminator. -/
def slotRecorded : Option (Option (List Nat)) → Bool
  | some (some block) => decide (0 ∈ block)
  | _ => false

/-- A history as `termREPLInit` and `termREPLRecord` leave it: an array of `maxHistory` slots
of which the first `historyCount` are recorded entries. -/
def TermREPL.valid (maxHistory : Nat) (repl : TermREPL) : Prop :=
  repl.history.length = maxHistory ∧ 0 ≤ repl.historyCount ∧
    repl.historyCount ≤ (maxHistory : Int) ∧
    ∀ i ∈ List.range repl.historyCount.toNat, slotRecorded repl.history[i]? = true

instance (maxHistory : Nat) (repl : TermREPL) : Decidable (repl.valid maxHistory) := by
  unfold TermREPL.valid; infer_instance

/-- A session as the loop of `termREPL` keeps it: a well-formed history and buffer, the cursor
inside the buffer content, and the history index between `-1` and `historyCount - 1`. -/
def Line.valid (maxHistory : Nat) (line : Line) : Prop :=
  line.history.valid maxHistory ∧ line.buffer.valid ∧
    0 ≤ line.cursor ∧ line.cursor ≤ line.buffer.count ∧
    -1 ≤ line.historyIndex ∧ line.historyIndex ≤ line.history.historyCount - 1

instance (maxHistory : Nat) (line : Line) : Decidable (line.valid maxHistory) := by
  unfold Line.valid; infer_instance

/-! ## Line buffer growth in 32-bit `int` arithmetic (`src/editor.c`) -/

/-- The value a 32-bit `int` holds after an arithmetic operation whose mathematical result is
`x`: results outside `-2^31 .. 2^31 - 1` wrap around modulo `2^32`. -/
def wrapInt (x : Int) : Int :=
  (x + 2147483648) % 4294967296 - 2147483648

/-- The loop `while(count > capacity) capacity = capacity ? capacity * 2 : 32` of
`editorEnsureLine` with the product computed in 32-bit `int` arithmetic, run for at most `fuel`
rounds; `none` when the loop has not ended after these rounds. -/
def Int32.growCapacity : Nat → Int → Int → Option Int
  | 0, capacity, count => if count > capacity then none else some capacity
  | fuel + 1, capacity, count =>
    if count > capacity then
      Int32.growCapacity fuel (if capacity ≠ 0 then wrapInt (capacity * 2) else 32) count
    else some capacity

/-- The function `editorEnsureLine` with `capacity` a 32-bit `int`. -/
def Int32.editorEnsureLine (line : EditorLine) (count : Int) : Option EditorLine :=
  if line.capacity > count then some line
  else do
    let capacity ← Int32.growCapacity count.toNat line.capacity count
    some { line with capacity := capacity, data := realloc line.data capacity }

/-- The values `capacity` takes in the loop of `editorEnsureLine` once it has left 0 and the
requested size is above `2^30`: the powers of two from 32 to `2^30`, then `-2^31` and `0`. -/
def capacityCycle : List Int :=
  [0, 32, 64, 128, 256, 512, 1024, 2048, 4096, 8192, 16384, 32768, 65536, 131072, 262144,
    524288, 1048576, 2097152, 4194304, 8388608, 16777216, 33554432, 67108864, 134217728,
    268435456, 536870912, 1073741824, -2147483648]

/-! ## Block editor over a heap (`src/editor.c`) -/

/-- Read through a pointer: the cells of the heap block `ptr` points to.  `ptr` is `none` for
`NULL`; block `p` of the heap is `some cells` while it is allocated and `none` once it has been
freed.  Reading through `NULL` or a freed block gives `none`. -/
def heapLoad (heap : List (Option (List Nat))) (ptr : Option Nat) : Option (List Nat) := do
  let p ← ptr
  let block ← heap[p]?
  block

/-- Replace the cells of the allocated block `ptr` points to. -/
def heapStore (heap : List (Option (List Nat))) (ptr : Option Nat) (cells : List Nat) :
    Option (List (Option (List Nat))) := do
  let p ← ptr
  let _ ← heapLoad heap ptr
  some (heap.set p (some cells))

/-- The call `free(p)` for a pointer that is not `NULL`. -/
def heapFree (heap : List (Option (List Nat))) (p : Nat) : Option (List (Option (List Nat))) := do
  let _ ← heapLoad heap (some p)
  some (heap.set p none)

/-- The call `realloc(ptr, n)`: a new block of `n` cells that receives the old cells, the old
block being freed; `realloc(NULL, n)` only allocates.  It returns the heap and the new
pointer. -/
def heapRealloc (heap : List (Option (List Nat))) (ptr : Option Nat) (n : Int) :
    Option (List (Option (List Nat)) × Option Nat) :=
  match ptr with
  | none => some (heap ++ [some (realloc [] n)], some heap.length)
  | some p => do
    let cells ← heapLoad heap (some p)
    some (heap.set p none ++ [some (realloc cells n)], some heap.length)

/-- Write `ptr[i] = v`. -/
def heapWrite (heap : List (Option (List Nat))) (ptr : Option Nat) (i : Int) (v : Nat) :
    Option (List (Option (List Nat))) := do
  let cells ← heapLoad heap ptr
  let cells ← setAt cells i v
  heapStore heap ptr cells

/-- The call `memmove(dst + d, src + s, n)` on heap blocks; a call with `n = 0` touches
nothing. -/
def heapMemmove (heap : List (Option (List Nat))) (dst : Option Nat) (d : Int)
    (src : Option Nat) (s : Int) (n : Int) : Option (List (Option (List Nat))) :=
  if n = 0 then some heap
  else do
    let srcCells ← heapLoad heap src
    let dstCells ← heapLoad heap dst
    let cells ← memcpy dstCells d srcCells s n
    heapStore heap dst cells

/-- The call `memcpy(dst + d, src + s, n)` on heap blocks: as `memmove`, but undefined when
the two ranges overlap. -/
def heapMemcpy (heap : List (Option (List Nat))) (dst : Option Nat) (d : Int)
    (src : Option Nat) (s : Int) (n : Int) : Option (List (Option (List Nat))) :=
  if n ≠ 0 ∧ dst = src ∧ d < s + n ∧ s < d + n then none
  else heapMemmove heap dst d src s n

/-- The struct `EditorLine` with its field `data` as the pointer it is. -/
structure Mem.EditorLine where
  count : Int
  capacity : Int
  data : Option Nat
deriving DecidableEq, Repr

/-- The struct `Editor` together with the heap its lines point into. -/
structure Mem.Editor where
  cursor : Coords
  offset : Coords
  prompt : List Nat
  promptLength : Int
  lineCount : Int
  lines : List Mem.EditorLine
  heap : List (Option (List Nat))
deriving DecidableEq, Repr

/-- The bytes a line shows: the first `count` cells of the block `data` points to, nothing for
a `NULL` pointer, and `none` when the block has been freed. -/
def Mem.EditorLine.content (heap : List (Option (List Nat))) (l : Mem.EditorLine) :
    Option (List Nat) :=
  match l.data with
  | none => some []
  | some p => (heapLoad heap (some p)).map (fun cells => cells.take l.count.toNat)

/-- The bytes each slot of the line array shows. -/
def Mem.Editor.rows (e : Mem.Editor) : List (Option (List Nat)) :=
  e.lines.map (Mem.EditorLine.content e.heap)

/-- The function `editorInitLine`. -/
def Mem.editorInitLine (e : Mem.Editor) (i : Int) : Option Mem.Editor := do
  let ls ← setAt e.lines i { count := 0, capacity := 0, data := none }
  some { e with lines := ls }

/-- The function `editorDeinitLine`. -/
def Mem.editorDeinitLine (e : Mem.Editor) (i : Int) : Option Mem.Editor := do
  let line ← getAt e.lines i
  let heap ←
    (match line.data with
     | some p => heapFree e.heap p
     | none => some e.heap)
  Mem.editorInitLine { e with heap := heap } i

/-- The function `editorEnsureLine`: the heap and the line it leaves. -/
def Mem.editorEnsureLine (heap : List (Option (List Nat))) (line : Mem.EditorLine)
    (count : Int) : Option (List (Option (List Nat)) × Mem.EditorLine) :=
  if line.capacity > count then some (heap, line)
  else do
    let capacity ← Int32.growCapacity count.toNat line.capacity count
    let r ← heapRealloc heap line.data capacity
    some (r.1, { line with capacity := capacity, data := r.2 })

/-- The function `editorInsert`. -/
def Mem.editorInsert (e : Mem.Editor) (c : Nat) : Option Mem.Editor := do
  let x := e.offset.x + e.cursor.x
  let y := e.offset.y + e.cursor.y
  let e := { e with cursor := { e.cursor with x := e.cursor.x + 1 } }
  let line ← getAt e.lines y
  let r ← Mem.editorEnsureLine e.heap line (line.count + 2)
  let line := r.2
  let heap ←
    (if e.cursor.x ≠ line.count then
       heapMemmove r.1 line.data (x + 1) line.data x (line.count - x)
     else some r.1)
  let line := { line with count := line.count + 1 }
  let heap ← heapWrite heap line.data x c
  let heap ← heapWrite heap line.data line.count 0
  let ls ← setAt e.lines y line
  some { e with lines := ls, heap := heap }

/-- The loop `for(i = y; i < lineCount; ++i) lines[i] = lines[i-1]` of `editorBackspace`, with
`n` rounds left to run from index `i`: `count`, `capacity` and the pointer `data` are
copied. -/
def Mem.backspaceShift : Nat → Int → List Mem.EditorLine → Option (List Mem.EditorLine)
  | 0, _, ls => some ls
  | n + 1, i, ls => do
    let src ← getAt ls (i - 1)
    let ls ← setAt ls i src
    Mem.backspaceShift n (i + 1) ls

/-- The function `editorBackspace`. -/
def Mem.editorBackspace (e : Mem.Editor) : Option Mem.Editor := do
  let x := e.offset.x + e.cursor.x
  let y := e.offset.y + e.cursor.y
  if x > 0 then
    let line ← getAt e.lines y
    let heap ← heapMemmove e.heap line.data (x - 1) line.data x (line.count - x)
    let line := { line with count := line.count - 1 }
    let heap ← heapWrite heap line.data line.count 0
    let ls ← setAt e.lines y line
    some { e with lines := ls, heap := heap, cursor := { e.cursor with x := e.cursor.x - 1 } }
  else if y = 0 then some e
  else
    let line ← getAt e.lines y
    let above ← getAt e.lines (y - 1)
    let dx := above.count
    let r ← Mem.editorEnsureLine e.heap above (above.count + line.count + 1)
    let above := r.2
    let heap ← heapMemcpy r.1 above.data above.count line.data 0 line.count
    let above := { above with count := above.count + line.count }
    let heap ← heapWrite heap above.data above.count 0
    let ls ← setAt e.lines (y - 1) above
    let e ← Mem.editorDeinitLine { e with lines := ls, heap := heap } y
    let e := { e with lineCount := e.lineCount - 1 }
    let ls ← Mem.backspaceShift (e.lineCount - y).toNat y e.lines
    let e ← Mem.editorInitLine { e with lines := ls } e.lineCount
    some { e with cursor := { x := e.cursor.x + dx, y := e.cursor.y - 1 } }

/-- The loop `for(i = lineCount; i > y; --i) lines[i] = lines[i-1]` of `editorNewline`, with
`n` rounds left to run from index `i`. -/
def Mem.newlineShift : Nat → Int → List Mem.EditorLine → Option (List Mem.EditorLine)
  | 0, _, ls => some ls
  | n + 1, i, ls => do
    let src ← getAt ls (i - 1)
    let ls ← setAt ls i src
    Mem.newlineShift n (i - 1) ls

/-- The function `editorNewline`; `maxLines` is `TERM_EDITOR_MAX_LINES`. -/
def Mem.editorNewline (maxLines : Nat) (e : Mem.Editor) : Option Mem.Editor :=
  if ¬ (e.lineCount < (maxLines : Int)) then none
  else do
    let x := e.offset.x + e.cursor.x
    let y := e.offset.y + e.cursor.y
    let e := { e with cursor := { x := 0, y := e.cursor.y + 1 },
                      offset := { e.offset with x := 0 } }
    let e ← Mem.editorDeinitLine e e.lineCount
    let ls ← Mem.newlineShift (e.lineCount - y).toNat e.lineCount e.lines
    let e := { e with lines := ls, lineCount := e.lineCount + 1 }
    let e ← Mem.editorInitLine e (y + 1)
    let currentLine ← getAt e.lines y
    let newLine ← getAt e.lines (y + 1)
    let remaining := currentLine.count - x
    let r ←
      (if remaining ≠ 0 then do
         let r ← Mem.editorEnsureLine e.heap newLine (remaining + 1)
         let heap ← heapMemcpy r.1 r.2.data 0 currentLine.data x remaining
         let heap ← heapWrite heap r.2.data remaining 0
         some (heap, { r.2 with count := remaining })
       else some (e.heap, newLine))
    let ls ← setAt e.lines (y + 1) r.2
    let currentLine := { currentLine with count := x }
    let heap ←
      (if currentLine.capacity ≠ 0 then heapWrite r.1 currentLine.data x 0
       else some r.1)
    let ls ← setAt ls y currentLine
    some { e with lines := ls, heap := heap }

/-- The function `termEditorInit`; `maxLines` is `TERM_EDITOR_MAX_LINES`.  No block is
allocated yet. -/
def Mem.termEditorInit (maxLines : Nat) (prompt : List Nat) : Mem.Editor :=
  { cursor := { x := 0, y := 0 }
    offset := { x := 0, y := 0 }
    prompt := prompt
    promptLength := (prompt.length : Int) + 3
    lineCount := 1
    lines := List.replicate maxLines { count := 0, capacity := 0, data := none }
    heap := [] }

/-- The function `scrollLeft`. -/
def Mem.scrollLeft (e : Mem.Editor) (over : Int) : Mem.Editor :=
  let dist := scrollDist over.toNat 0 over
  let dist := min dist e.offset.x
  { e with offset := { e.offset with x := e.offset.x - dist },
           cursor := { e.cursor with x := e.cursor.x + dist } }

/-- The function `scrollRight`. -/
def Mem.scrollRight (e : Mem.Editor) (over : Int) : Mem.Editor :=
  let dist := scrollDist over.toNat 0 over
  { e with offset := { e.offset with x := e.offset.x + dist },
           cursor := { e.cursor with x := e.cursor.x - dist } }

/-- The function `keepInViewX`; `tcols` is the value the call `tcols()` returns. -/
def Mem.keepInViewX (tcols : Int) (e : Mem.Editor) : Mem.Editor :=
  let minX : Int := 2
  let maxX := tcols - (e.promptLength + 2)
  if e.cursor.x > maxX then Mem.scrollRight e (e.cursor.x - maxX)
  else if e.offset.x ≠ 0 ∧ e.cursor.x < minX then Mem.scrollLeft e (minX - e.cursor.x)
  else e

/-- The function `termEditorLeft`. -/
def Mem.termEditorLeft (e : Mem.Editor) : Mem.Editor :=
  if e.cursor.x ≤ 0 then e
  else { e with cursor := { e.cursor with x := e.cursor.x - 1 } }

/-- The function `termEditorRight`. -/
def Mem.termEditorRight (e : Mem.Editor) : Option Mem.Editor := do
  let line ← getAt e.lines e.cursor.y
  if e.cursor.x + e.offset.x ≥ line.count then some e
  else some { e with cursor := { e.cursor with x := e.cursor.x + 1 } }

/-- The function `termEditorUp`. -/
def Mem.termEditorUp (e : Mem.Editor) : Option Mem.Editor := do
  if e.cursor.y ≤ 0 then some e
  else
    let e := { e with cursor := { e.cursor with y := e.cursor.y - 1 } }
    let line ← getAt e.lines e.cursor.y
    let max := line.count
    if e.cursor.x ≤ max then some e
    else some { e with cursor := { e.cursor with x := max } }

/-- The function `termEditorDown`. -/
def Mem.termEditorDown (e : Mem.Editor) : Option Mem.Editor := do
  if e.cursor.y ≥ e.lineCount - 1 then some e
  else
    let e := { e with cursor := { e.cursor with y := e.cursor.y + 1 } }
    let line ← getAt e.lines e.cursor.y
    let max := line.count
    if e.cursor.x ≤ max then some e
    else some { e with cursor := { e.cursor with x := max } }

/-- The function `processEscape`. -/
def Mem.processEscape (e : Mem.Editor) (input : List Int) : Option (Mem.Editor × List Int) :=
  let (k, input) := getch input
  if k ≠ 91 then some (e, input)
  else
    let (k, input) := getch input
    if k = 65 then (Mem.termEditorUp e).map (fun e => (e, input))
    else if k = 66 then (Mem.termEditorDown e).map (fun e => (e, input))
    else if k = 67 then (Mem.termEditorRight e).map (fun e => (e, input))
    else if k = 68 then some (Mem.termEditorLeft e, input)
    else some (e, input)

/-- The function `termEditorUpdate`; it reads its keys from `input`, and `tcols` is the value
`tcols()` returns during the call. -/
def Mem.termEditorUpdate (maxLines : Nat) (tcols : Int) (e : Mem.Editor) (input : List Int) :
    Option (Mem.Editor × Bool × List Int) :=
  let (c, input) := getch input
  if c = 10 then
    (Mem.editorNewline maxLines e).map (fun e => (Mem.keepInViewX tcols e, true, input))
  else if c = 127 then
    (Mem.editorBackspace e).map (fun e => (Mem.keepInViewX tcols e, true, input))
  else if c = 4 then some (e, false, input)
  else if c = 27 then
    (Mem.processEscape e input).map (fun r => (Mem.keepInViewX tcols r.1, true, r.2))
  else
    (Mem.editorInsert e (toChar c)).map (fun e => (Mem.keepInViewX tcols e, true, input))

/-- The caller's loop `while(termEditorUpdate(e))` reading the keys of `input` on a terminal
`tcols` columns wide, for at most `fuel` calls; it stops at the first `false` and when the
input is used up. -/
def Mem.typeInputLoop (maxLines : Nat) (tcols : Int) :
    Nat → Mem.Editor → List Int → Option Mem.Editor
  | 0, e, _ => some e
  | _ + 1, e, [] => some e
  | fuel + 1, e, c :: input => do
    let r ← Mem.termEditorUpdate maxLines tcols e (c :: input)
    if r.2.1 then Mem.typeInputLoop maxLines tcols fuel r.1 r.2.2 else some r.1

/-- The editor after the keys of `input` have been read: every call of `termEditorUpdate`
reads at least one key, so as many calls as there are keys suffice. -/
def Mem.typeInput (maxLines : Nat) (tcols : Int) (e : Mem.Editor) (input : List Int) :
    Option Mem.Editor :=
  Mem.typeInputLoop maxLines tcols input.length e input

/-- The keys `a`, newline, `b`, newline, `c`, up arrow, left arrow, backspace: three lines
are typed and the second is joined to the first. -/
def joinSecondLine : List Int :=
  [97, 10, 98, 10, 99, 27, 91, 65, 27, 91, 68, 127]

/-! ## Example states -/

/-- The two lines `hello` and `world`, with the cursor at the start of the second line. -/
def helloWorld : Editor :=
  { cursor := { x := 0, y := 1 }
    offset := { x := 0, y := 0 }
    prompt := []
    promptLength := 3
    lineCount := 2
    lines := [⟨5, 6, [104, 101, 108, 108, 111, 0]⟩, ⟨5, 6, [119, 111, 114, 108, 100, 0]⟩] }

/-- The lines `hello` and `world` in a three-slot editor, with the cursor inside `hello` at
true offset 2. -/
def helloWorldRoom : Editor :=
  { cursor := { x := 2, y := 0 }
    offset := { x := 0, y := 0 }
    prompt := []
    promptLength := 3
    lineCount := 2
    lines := [⟨5, 6, [104, 101, 108, 108, 111, 0]⟩, ⟨5, 6, [119, 111, 114, 108, 100, 0]⟩,
      emptyLine] }

/-- The single line `hello` in a two-slot editor, with the cursor at true offset 2. -/
def helloOnly : Editor :=
  { cursor := { x := 2, y := 0 }
    offset := { x := 0, y := 0 }
    prompt := []
    promptLength := 3
    lineCount := 1
    lines := [⟨5, 6, [104, 101, 108, 108, 111, 0]⟩, emptyLine] }

/-- A fresh two-slot editor after `editorInsert` of `a`. -/
def typedA : Editor :=
  { cursor := { x := 1, y := 0 }
    offset := { x := 0, y := 0 }
    prompt := []
    promptLength := 3
    lineCount := 1
    lines := [⟨1, 32, 97 :: List.replicate 31 0⟩, emptyLine] }

/-- A session with the prompt `repl` and an empty history of two slots, whose buffer holds
`bytes` in a block of 32 cells and whose cursor is at `cursor`. -/
def typedSession (cursor : Int) (bytes : List Nat) : Line :=
  { historyIndex := -1
    history := ⟨0, [none, none]⟩
    prompt := [114, 101, 112, 108]
    cursor := cursor
    buffer := ⟨bytes.length, 32, bytes ++ List.replicate (32 - bytes.length) 0⟩ }

/-- The history of two slots after `termREPLRecord` of the entry `ls` with its newline. -/
def lsHistory : TermREPL :=
  ⟨1, [some [108, 115, 0, 0], none]⟩

/-- The session with the prompt `repl` and the history `lsHistory` after the up arrow: the
entry `ls` is in the buffer and the history index is 0. -/
def lsRecalled : Line :=
  { historyIndex := 0
    history := lsHistory
    prompt := [114, 101, 112, 108]
    cursor := 2
    buffer := ⟨2, 32, [108, 115, 0] ++ List.replicate 29 0⟩ }

/-! ## Lemmas: memory primitives and line blocks -/

@[simp] theorem getAt_natCast {α : Type} (xs : List α) (n : Nat) :
    getAt xs (n : Int) = xs[n]? := by
  simp [getAt]

@[simp] theorem setAt_natCast {α : Type} (xs : List α) (n : Nat) (v : α) :
    setAt xs (n : Int) v = if n < xs.length then some (xs.set n v) else none := by
  simp [setAt]

theorem memcpy_natCast {α : Type} (dst src : List α) (d s n : Nat)
    (hs : s + n ≤ src.length) (hd : d + n ≤ dst.length) :
    memcpy dst (d : Int) src (s : Int) (n : Int)
      = some (dst.take d ++ ((src.drop s).take n ++ dst.drop (d + n))) := by
  unfold memcpy
  by_cases hn : n = 0
  · subst hn; simp
  · have h1 : (n : Int) ≠ 0 := by exact_mod_cast hn
    have h2 : (0 : Int) < n := by omega
    have h3 : (s : Int) + n ≤ src.length := by exact_mod_cast hs
    have h4 : (d : Int) + n ≤ dst.length := by exact_mod_cast hd
    simp [h1, h2, h3, h4]

theorem growCapacity_pos (fuel : Nat) : ∀ (capacity count : Int), 0 < capacity →
    count - capacity ≤ fuel →
    ∃ c, growCapacity fuel capacity count = some c ∧ count ≤ c ∧ capacity ≤ c := by
  induction fuel with
  | zero =>
    intro capacity count hc hf
    refine ⟨capacity, ?_, ?_, le_refl _⟩
    · have : ¬ count > capacity := by simp at hf; omega
      simp [growCapacity, this]
    · simp at hf; omega
  | succ k ih =>
    intro capacity count hc hf
    by_cases h : count > capacity
    · have hne : capacity ≠ 0 := by omega
      obtain ⟨c, h1, h2, h3⟩ := ih (capacity * 2) count (by omega) (by push_cast at hf; omega)
      refine ⟨c, ?_, h2, by omega⟩
      simp [growCapacity, h, hne, h1]
    · exact ⟨capacity, by simp [growCapacity, h], by omega, le_refl _⟩

theorem growCapacity_spec (capacity count : Int) (hc : 0 ≤ capacity) :
    ∃ c, growCapacity count.toNat capacity count = some c ∧ count ≤ c ∧ capacity ≤ c := by
  rcases eq_or_lt_of_le hc with h0 | hpos
  · subst h0
    by_cases h : count > 0
    · obtain ⟨k, hk⟩ : ∃ k : Nat, count.toNat = k + 1 := ⟨count.toNat - 1, by omega⟩
      obtain ⟨c, h1, h2, h3⟩ := growCapacity_pos k 32 count (by norm_num) (by omega)
      refine ⟨c, ?_, h2, by omega⟩
      rw [hk]
      simp [growCapacity, h, h1]
    · have hk : count.toNat = 0 := by omega
      refine ⟨0, ?_, by omega, le_refl _⟩
      rw [hk]; simp [growCapacity, h]
  · exact growCapacity_pos _ _ _ hpos (by omega)

theorem editorEnsureLine_spec (l : EditorLine) (count : Int)
    (hlen : (l.data.length : Int) = l.capacity) :
    ∃ k : Nat, editorEnsureLine l count
        = some { count := l.count, capacity := l.capacity + k,
                 data := l.data ++ List.replicate k 0 } ∧
      count ≤ l.capacity + k := by
  obtain ⟨cnt, cap, data⟩ := l
  simp only at hlen ⊢
  by_cases h : cap > count
  · exact ⟨0, by simp [editorEnsureLine, h], by omega⟩
  · obtain ⟨c, h1, h2, h3⟩ := growCapacity_spec cap count (by omega)
    refine ⟨(c - cap).toNat, ?_, by omega⟩
    have e1 : c.toNat - data.length = (c - cap).toNat := by omega
    have e2 : data.length ≤ c.toNat := by omega
    have e3 : cap + ((c - cap).toNat : Int) = c := by omega
    simp only [editorEnsureLine, h, if_false, h1, realloc, List.take_of_length_le e2, e1, e3,
      Option.bind_eq_bind, Option.some_bind]

theorem getAt_some_iff {α : Type} (xs : List α) (i : Int) (v : α) :
    getAt xs i = some v ↔ ∃ n : Nat, i = n ∧ xs[n]? = some v := by
  unfold getAt
  constructor
  · intro h
    by_cases h0 : 0 ≤ i
    · rw [if_pos h0] at h
      exact ⟨i.toNat, by omega, h⟩
    · rw [if_neg h0] at h; cases h
  · rintro ⟨n, rfl, h⟩
    simpa using h

theorem setAt_of_getAt {α : Type} (xs : List α) (i : Int) (v w : α) (h : getAt xs i = some v) :
    setAt xs i w = some (xs.set i.toNat w) := by
  obtain ⟨n, rfl, hn⟩ := (getAt_some_iff xs i v).1 h
  have : n < xs.length := by
    by_contra hc
    rw [List.getElem?_eq_none (by omega)] at hn
    cases hn
  simp [this]


theorem insert_cells (pre post tail : List Nat) (c t0 t1 : Nat) :
    ((((pre ++ (post ++ t0 :: t1 :: tail)).take (pre.length + 1) ++
        (((pre ++ (post ++ t0 :: t1 :: tail)).drop pre.length).take post.length ++
          (pre ++ (post ++ t0 :: t1 :: tail)).drop (pre.length + 1 + post.length))).set
            pre.length c).set (pre.length + post.length + 1) 0)
      = pre ++ c :: (post ++ 0 :: tail) := by
  have h1 : (pre ++ (post ++ t0 :: t1 :: tail)).drop pre.length = post ++ t0 :: t1 :: tail :=
    List.drop_left' rfl
  have h2 : (pre ++ (post ++ t0 :: t1 :: tail)).drop (pre.length + 1 + post.length)
      = t1 :: tail := by
    rw [show pre.length + 1 + post.length = pre.length + (post.length + 1) by omega,
      ← List.drop_drop, h1, ← List.drop_drop, List.drop_left' rfl]
    rfl
  have h3 : ∃ h, (pre ++ (post ++ t0 :: t1 :: tail)).take (pre.length + 1) = pre ++ [h] := by
    rw [List.take_append_eq_append_take, List.take_of_length_le (by omega)]
    cases post with
    | nil => exact ⟨t0, by simp⟩
    | cons p ps => exact ⟨p, by simp⟩
  obtain ⟨h, h3⟩ := h3
  rw [h1, h2, h3, List.take_left' rfl]
  rw [List.append_assoc, List.set_append_right _ _ (le_refl _)]
  simp only [Nat.sub_self, List.singleton_append, List.set_cons_zero]
  rw [List.set_append_right _ _ (by omega)]
  rw [show pre.length + post.length + 1 - pre.length = post.length + 1 by omega]
  rw [List.set_cons_succ, List.set_append_right _ _ (le_refl _)]
  simp

theorem EditorLine.valid_split (l : EditorLine) (hv : l.valid) :
    ∃ (n : Nat) (rest : List Nat), l.count = n ∧ l.content.length = n ∧
      l.data = l.content ++ rest ∧ ((n + rest.length : Nat) : Int) = l.capacity := by
  obtain ⟨h0, hlen, hcap⟩ := hv
  refine ⟨l.count.toNat, l.data.drop l.count.toNat, by omega, ?_, ?_, ?_⟩
  · simp only [EditorLine.content, List.length_take]; omega
  · simp [EditorLine.content]
  · simp only [List.length_drop]; omega

theorem two_cells (rest : List Nat) (h : 2 ≤ rest.length) :
    ∃ t0 t1 tail, rest = t0 :: t1 :: tail := by
  match rest, h with
  | t0 :: t1 :: tail, _ => exact ⟨t0, t1, tail, rfl⟩

theorem editorInsert_spec (e : Editor) (c : Nat) (l : EditorLine)
    (hl : getAt e.lines (e.offset.y + e.cursor.y) = some l) (hv : l.valid)
    (x : Nat) (hx : e.offset.x + e.cursor.x = x) (hxc : (x : Int) ≤ l.count)
    (hskip : e.cursor.x + 1 ≠ l.count ∨ (x : Int) = l.count) :
    ∃ l', editorInsert e c
        = some { e with cursor := { e.cursor with x := e.cursor.x + 1 },
                        lines := e.lines.set (e.offset.y + e.cursor.y).toNat l' } ∧
      l'.valid ∧ l'.count = l.count + 1 ∧
      l'.content = l.content.take x ++ c :: l.content.drop x := by
  obtain ⟨n, rest, hn, hlen, hdata, hcap⟩ := l.valid_split hv
  obtain ⟨k, hens, hk⟩ := editorEnsureLine_spec l (l.count + 2) hv.2.1
  have hxn : x ≤ n := by omega
  obtain ⟨t0, t1, tail, htail⟩ := two_cells (rest ++ List.replicate k 0)
    (by simp only [List.length_append, List.length_replicate]; omega)
  have hD : l.data ++ List.replicate k 0
      = l.content.take x ++ (l.content.drop x ++ t0 :: t1 :: tail) := by
    rw [hdata, List.append_assoc, htail, ← List.append_assoc, List.take_append_drop]
  have hpre : (l.content.take x).length = x := by simp [hlen, hxn]
  have hpost : (l.content.drop x).length = n - x := by simp [hlen]
  have key := insert_cells (l.content.take x) (l.content.drop x) tail c t0 t1
  rw [hpre, hpost, ← hD] at key
  have hxn1 : x + (n - x) + 1 = n + 1 := by omega
  rw [hxn1] at key
  have hDlen : (l.data ++ List.replicate k 0).length = n + rest.length + k := by
    rw [hdata]; simp only [List.length_append, List.length_replicate, hlen]
  have hmove : (if e.cursor.x + 1 ≠ l.count then
        memmove (l.data ++ List.replicate k 0) ((x : Int) + 1) x (l.count - x)
      else some (l.data ++ List.replicate k 0))
      = some ((l.data ++ List.replicate k 0).take (x + 1) ++
          (((l.data ++ List.replicate k 0).drop x).take (n - x) ++
            (l.data ++ List.replicate k 0).drop (x + 1 + (n - x)))) := by
    split
    · rw [memmove, show ((x : Int) + 1) = ((x + 1 : Nat) : Int) by push_cast; rfl,
        show l.count - (x : Int) = ((n - x : Nat) : Int) by omega]
      exact memcpy_natCast _ _ _ _ _ (by omega) (by omega)
    · have hxe : x = n := by omega
      subst hxe
      simp
  have hMlen : ((l.data ++ List.replicate k 0).take (x + 1) ++
          (((l.data ++ List.replicate k 0).drop x).take (n - x) ++
            (l.data ++ List.replicate k 0).drop (x + 1 + (n - x)))).length
      = n + rest.length + k := by
    simp only [List.length_append, List.length_take, List.length_drop, hDlen]; omega
  refine ⟨{ count := l.count + 1, capacity := l.capacity + k,
            data := l.content.take x ++ c :: (l.content.drop x ++ 0 :: tail) }, ?_, ?_, rfl, ?_⟩
  · simp only [editorInsert, hl, Option.bind_eq_bind, Option.some_bind, hens, hx]
    rw [hmove, Option.some_bind,
      show l.count + 1 = ((n + 1 : Nat) : Int) by omega, setAt_natCast, if_pos (by omega),
      Option.some_bind, setAt_natCast,
      if_pos (by rw [List.length_set]; omega), Option.some_bind, key,
      setAt_of_getAt _ _ _ _ hl]
    rfl
  · have hlen2 := congrArg List.length key
    simp only [List.length_set, hMlen] at hlen2
    refine ⟨?_, ?_, Or.inl ?_⟩
    · show 0 ≤ l.count + 1
      omega
    · show ((l.content.take x ++ c :: (l.content.drop x ++ 0 :: tail)).length : Int)
        = l.capacity + k
      rw [← hlen2, ← hcap]; push_cast; ring
    · show l.count + 1 < l.capacity + k
      omega
  · rw [EditorLine.content]
    dsimp only
    rw [show (l.count + 1).toNat = (l.content.take x ++ c :: l.content.drop x).length by
      simp only [List.length_append, List.length_cons, hpre, hpost]; omega]
    rw [show l.content.take x ++ c :: (l.content.drop x ++ 0 :: tail)
      = (l.content.take x ++ c :: l.content.drop x) ++ 0 :: tail by simp]
    exact List.take_left' rfl

/-! ## Lemmas: flushing -/

theorem scrollDist_ge (over : Int) (fuel : Nat) :
    ∀ dist : Int, over - dist ≤ fuel → over ≤ scrollDist fuel dist over ∧
      (dist < over → scrollDist fuel dist over < over + 20) := by
  induction fuel with
  | zero =>
    intro dist h
    simp only [scrollDist]
    exact ⟨by simpa using h, fun hlt => by simp at h; omega⟩
  | succ fuel ih =>
    intro dist h
    by_cases hlt : dist < over
    · simp only [scrollDist, hlt, if_true]
      obtain ⟨h1, h2⟩ := ih (dist + 20) (by push_cast at h; omega)
      refine ⟨h1, fun _ => ?_⟩
      by_cases hlt2 : dist + 20 < over
      · exact h2 hlt2
      · have : scrollDist fuel (dist + 20) over = dist + 20 := by
          cases fuel with
          | zero => rfl
          | succ f => simp only [scrollDist, hlt2, if_false]
        omega
    · simp only [scrollDist, hlt, if_false]
      exact ⟨by omega, fun hf => hf.elim⟩

theorem keepInViewX_cases (tcols : Int) (e : Editor) :
    (∃ over, keepInViewX tcols e = scrollRight e over) ∨
    (∃ over, keepInViewX tcols e = scrollLeft e over) ∨ keepInViewX tcols e = e := by
  unfold keepInViewX
  dsimp only
  split_ifs
  · exact Or.inl ⟨_, rfl⟩
  · exact Or.inr (Or.inl ⟨_, rfl⟩)
  · exact Or.inr (Or.inr rfl)

theorem keepInViewX_fields (tcols : Int) (e : Editor) :
    (keepInViewX tcols e).lines = e.lines ∧ (keepInViewX tcols e).lineCount = e.lineCount ∧
    (keepInViewX tcols e).cursor.y = e.cursor.y ∧ (keepInViewX tcols e).offset.y = e.offset.y ∧
    (keepInViewX tcols e).offset.x + (keepInViewX tcols e).cursor.x
      = e.offset.x + e.cursor.x ∧
    (keepInViewX tcols e).prompt = e.prompt ∧
    (keepInViewX tcols e).promptLength = e.promptLength := by
  rcases keepInViewX_cases tcols e with ⟨over, h⟩ | ⟨over, h⟩ | h <;> rw [h]
  · refine ⟨rfl, rfl, rfl, rfl, ?_, rfl, rfl⟩
    simp only [scrollRight]; ring
  · refine ⟨rfl, rfl, rfl, rfl, ?_, rfl, rfl⟩
    simp only [scrollLeft]; ring
  · exact ⟨rfl, rfl, rfl, rfl, rfl, rfl, rfl⟩

/-! ## Typing into a fresh editor -/

theorem cstr_append_zero (s t : List Nat) (h : ∀ c ∈ s, c ≠ 0) : cstr (s ++ 0 :: t) = s := by
  induction s with
  | nil => simp [cstr]
  | cons a s ih =>
    have ha : a ≠ 0 := h a (List.mem_cons_self _ _)
    have := ih (fun c hc => h c (List.mem_cons_of_mem _ hc))
    simp only [cstr] at this ⊢
    rw [List.cons_append, List.takeWhile_cons, this]
    simp [ha]

/-- C2 (the code departs from the claim): after typing `ab` and moving the cursor left once,
the line holds `ab` and the cursor's true offset is 1; `editorInsert` of `X` then leaves the
line holding `a`, `X`, `'\0'` instead of `a`, `X`, `b`: the shift is skipped and the last
byte is lost. -/
theorem editorInsert_before_last_byte :
    ∃ e, (typeKeys 2 (termEditorInit 2 []) [(97, 80), (98, 80)]).map termEditorLeft = some e ∧
      e.valid 2 ∧ e.offset.x + e.cursor.x = 1 ∧ e.offset.y + e.cursor.y = 0 ∧
      e.lines.map EditorLine.content = [[97, 98], []] ∧
      (editorInsert e 88).map (fun e' => e'.lines.map EditorLine.content)
        = some [[97, 88, 0], []] ∧
      (editorInsert e 88).map (fun e' => e'.lines.map EditorLine.content)
        ≠ some [[97, 88, 98], []] :=
  ⟨_, rfl, by decide, by decide, by decide, by decide, by decide, by decide⟩

theorem newlineShift_spec (n : Nat) : ∀ (i : Nat) (ls : List EditorLine),
    n ≤ i → i < ls.length →
    ∃ r, newlineShift n (i : Int) ls = some r ∧ r.length = ls.length ∧
      ∀ j, r[j]? = if i - n < j ∧ j ≤ i then ls[j - 1]? else ls[j]? := by
  induction n with
  | zero =>
    intro i ls _ _
    refine ⟨ls, rfl, rfl, fun j => ?_⟩
    rw [if_neg (by omega)]
  | succ n ih =>
    intro i ls hn hi
    obtain ⟨m, rfl⟩ : ∃ m, i = m + 1 := ⟨i - 1, by omega⟩
    have hsrc : ls[m]? = some ls[m] := List.getElem?_eq_getElem (by omega)
    obtain ⟨r, hr, hlen, hget⟩ := ih m (ls.set (m + 1) ls[m]) (by omega)
      (by rw [List.length_set]; omega)
    refine ⟨r, ?_, by rw [hlen, List.length_set], fun j => ?_⟩
    · simp only [newlineShift, Option.bind_eq_bind]
      rw [show ((m + 1 : Nat) : Int) - 1 = (m : Int) by push_cast; ring, getAt_natCast, hsrc,
        Option.some_bind, setAt_natCast, if_pos hi, Option.some_bind, hr]
    · rw [hget j]
      by_cases hj : j = m + 1
      · subst hj
        rw [if_neg (by omega), if_pos (by omega), List.getElem?_set, if_pos rfl, if_pos hi]
        simp [hsrc]
      · by_cases hr1 : m - n < j ∧ j ≤ m
        · rw [if_pos hr1, if_pos (by omega), List.getElem?_set, if_neg (by omega)]
        · rw [if_neg hr1, if_neg (by omega), List.getElem?_set, if_neg (by omega)]

theorem backspaceShift_spec (n : Nat) : ∀ (i : Nat) (ls : List EditorLine),
    1 ≤ i → i + n ≤ ls.length →
    ∃ r, backspaceShift n (i : Int) ls = some r ∧ r.length = ls.length ∧
      ∀ j, r[j]? = if i ≤ j ∧ j < i + n then ls[i - 1]? else ls[j]? := by
  induction n with
  | zero =>
    intro i ls _ _
    refine ⟨ls, rfl, rfl, fun j => ?_⟩
    rw [if_neg (by omega)]
  | succ n ih =>
    intro i ls h1 hi
    obtain ⟨m, rfl⟩ : ∃ m, i = m + 1 := ⟨i - 1, by omega⟩
    have hsrc : ls[m]? = some ls[m] := List.getElem?_eq_getElem (by omega)
    obtain ⟨r, hr, hlen, hget⟩ := ih (m + 1 + 1) (ls.set (m + 1) ls[m]) (by omega)
      (by rw [List.length_set]; omega)
    refine ⟨r, ?_, by rw [hlen, List.length_set], fun j => ?_⟩
    · simp only [backspaceShift, Option.bind_eq_bind]
      rw [show ((m + 1 : Nat) : Int) - 1 = (m : Int) by push_cast; ring, getAt_natCast, hsrc,
        Option.some_bind, setAt_natCast, if_pos (by omega), Option.some_bind,
        show ((m + 1 : Nat) : Int) + 1 = ((m + 1 + 1 : Nat) : Int) by push_cast; ring, hr]
    · rw [hget j]
      simp only [Nat.add_sub_cancel]
      by_cases hj : j = m + 1
      · subst hj
        rw [if_neg (by omega), if_pos (by omega), List.getElem?_set, if_pos rfl,
          if_pos (by omega)]
        simp [hsrc]
      · by_cases hr1 : m + 1 + 1 ≤ j ∧ j < m + 1 + 1 + n
        · rw [if_pos hr1, if_pos (by omega), List.getElem?_set, if_pos rfl, if_pos (by omega)]
          simp [hsrc]
        · rw [if_neg hr1, if_neg (by omega), List.getElem?_set, if_neg (by omega)]

theorem merge_cells (above line : EditorLine) (hva : above.valid) (hvl : line.valid) (k : Nat)
    (hk : above.count + line.count + 1 ≤ above.capacity + k) :
    ∃ tail, memcpy (above.data ++ List.replicate k 0) above.count line.data 0 line.count
        = some (above.content ++ (line.content ++
            (above.data ++ List.replicate k 0).drop (above.count + line.count).toNat)) ∧
      setAt (above.content ++ (line.content ++
            (above.data ++ List.replicate k 0).drop (above.count + line.count).toNat))
          (above.count + line.count) 0
        = some (above.content ++ (line.content ++ 0 :: tail)) ∧
      ((above.content ++ (line.content ++ 0 :: tail)).length : Int) = above.capacity + k := by
  obtain ⟨a, resta, ha, halen, hadata, hacap⟩ := above.valid_split hva
  obtain ⟨b, restb, hb, hblen, hbdata, hbcap⟩ := line.valid_split hvl
  have hDlen : (above.data ++ List.replicate k 0).length = a + resta.length + k := by
    rw [hadata]; simp only [List.length_append, List.length_replicate, halen]
  have hab : (above.count + line.count).toNat = a + b := by omega
  obtain ⟨t0, tail, ht⟩ : ∃ t0 tail,
      (above.data ++ List.replicate k 0).drop (a + b) = t0 :: tail := by
    have : 0 < ((above.data ++ List.replicate k 0).drop (a + b)).length := by
      rw [List.length_drop, hDlen]; omega
    match hq : (above.data ++ List.replicate k 0).drop (a + b), this with
    | t0 :: tail, _ => exact ⟨t0, tail, rfl⟩
  have hlen3 : (above.content ++ (line.content ++ t0 :: tail)).length = a + resta.length + k := by
    have := congrArg List.length ht
    simp only [List.length_drop, hDlen, List.length_cons] at this
    simp only [List.length_append, List.length_cons, halen, hblen]
    omega
  refine ⟨tail, ?_, ?_, ?_⟩
  · rw [hab, ha, hb, show (0 : Int) = ((0 : Nat) : Int) by rfl,
      memcpy_natCast _ _ _ _ _ (by rw [hbdata, List.length_append, hblen]; omega)
        (by rw [hDlen]; omega)]
    have h1 : (above.data ++ List.replicate k 0).take a = above.content := by
      rw [hadata, List.append_assoc, ← halen]; exact List.take_left' rfl
    have h2 : (line.data.drop 0).take b = line.content := by
      rw [List.drop_zero, EditorLine.content, hb]; rfl
    rw [h1, h2]
  · rw [hab, ht, ha, hb, show (a : Int) + (b : Int) = ((a + b : Nat) : Int) by push_cast; rfl,
      setAt_natCast, if_pos (by rw [hlen3]; omega), ← List.append_assoc,
      List.set_append_right _ _ (by simp only [List.length_append, halen, hblen]; omega)]
    simp [halen, hblen]
  · have : (above.content ++ (line.content ++ 0 :: tail)).length = a + resta.length + k := by
      rw [← hlen3]; simp
    rw [this, ← hacap]; push_cast; ring

theorem editorBackspace_merge (maxLines : Nat) (e : Editor) (hv : e.valid maxLines)
    (Y : Nat) (hx : e.offset.x + e.cursor.x ≤ 0) (hy : e.offset.y + e.cursor.y = (Y + 1 : Nat))
    (above line : EditorLine) (ha : e.lines[Y]? = some above)
    (hl : e.lines[Y + 1]? = some line) :
    ∃ e' m, editorBackspace e = some e' ∧ m.valid ∧
      m.content = above.content ++ line.content ∧ m.count = above.count + line.count ∧
      e'.lines.length = e.lines.length ∧
      (∀ j, e'.lines[j]? =
        if j = e.lineCount.toNat - 1 then some emptyLine
        else if Y ≤ j ∧ j < e.lineCount.toNat - 1 then some m
        else e.lines[j]?) ∧
      e'.lineCount = e.lineCount - 1 ∧
      e'.cursor = { x := e.cursor.x + above.count, y := e.cursor.y - 1 } ∧
      e'.offset = e.offset ∧ e'.prompt = e.prompt ∧ e'.promptLength = e.promptLength := by
  obtain ⟨hlen, h1, hmax, hy0, hylt, hlines⟩ := hv
  have hva : above.valid := hlines above (List.getElem?_mem ha)
  have hvl : line.valid := hlines line (List.getElem?_mem hl)
  obtain ⟨k, hens, hk⟩ := editorEnsureLine_spec above (above.count + line.count + 1) hva.2.1
  obtain ⟨tail, hcopy, hset, hmlen⟩ := merge_cells above line hva hvl k hk
  have hxn : ¬ (e.offset.x + e.cursor.x > 0) := by omega
  have hyn : ¬ (e.offset.y + e.cursor.y = 0) := by omega
  have hne : ¬ (((Y + 1 : Nat) : Int) = 0) := by omega
  have hYcast : ((Y + 1 : Nat) : Int) - 1 = (Y : Int) := by push_cast; ring
  obtain ⟨lc, hlc⟩ : ∃ lc : Nat, e.lineCount = (lc + 1 : Nat) :=
    ⟨e.lineCount.toNat - 1, by omega⟩
  have hYlt : Y < e.lines.length := by omega
  have hY1lt : Y + 1 < e.lines.length := by omega
  obtain ⟨m, hm⟩ : ∃ m : EditorLine, m = ⟨above.count + line.count, above.capacity + k,
      above.content ++ (line.content ++ 0 :: tail)⟩ := ⟨_, rfl⟩
  have hY1lt2 : Y + 1 < (e.lines.set Y m).length := by
    rw [List.length_set]; exact hY1lt
  obtain ⟨r, hr, hrlen, hrget⟩ := backspaceShift_spec (lc - (Y + 1)) (Y + 1)
    ((e.lines.set Y m).set (Y + 1) emptyLine)
    (by omega) (by simp only [List.length_set]; omega)
  have hfuel : (e.lineCount - 1 - ((Y + 1 : Nat) : Int)).toNat = lc - (Y + 1) := by omega
  have hlc1 : e.lineCount - 1 = (lc : Int) := by omega
  have hlclt : lc < r.length := by rw [hrlen]; simp only [List.length_set]; omega
  refine ⟨{ e with lines := r.set lc emptyLine, lineCount := e.lineCount - 1,
                   cursor := ⟨e.cursor.x + above.count, e.cursor.y - 1⟩ }, m, ?_, ?_, ?_, ?_, ?_⟩
  · simp only [editorBackspace, hxn, hyn, if_false, hy, hne, getAt_natCast, hl, hYcast, ha,
      Option.bind_eq_bind, Option.some_bind, hens, hcopy, hset, setAt_natCast, hYlt, if_true,
      editorDeinitLine, editorInitLine, hY1lt, ← hm, hY1lt2, List.getElem?_eq_getElem, hfuel,
      hr, hlc1, hlclt]
    rw [show ((lc : Int) - ((Y + 1 : Nat) : Int)).toNat = lc - (Y + 1) by omega, hr]
    simp only [Option.some_bind, hlclt, if_true]
  · rw [hm]
    refine ⟨?_, hmlen, Or.inl ?_⟩
    · show 0 ≤ above.count + line.count
      have := hva.1; have := hvl.1; omega
    · show above.count + line.count < above.capacity + k
      omega
  · obtain ⟨a, _, hac, halen, _, _⟩ := above.valid_split hva
    obtain ⟨b, _, hbc, hblen, _, _⟩ := line.valid_split hvl
    rw [hm, EditorLine.content]
    dsimp only
    rw [show (above.count + line.count).toNat = (above.content ++ line.content).length by
        rw [List.length_append, halen, hblen]; omega,
      ← List.append_assoc]
    exact List.take_left' rfl
  · rw [hm]
  · refine ⟨?_, ?_, hlc1 ▸ rfl, rfl, rfl, rfl, rfl⟩
    · show (r.set lc emptyLine).length = e.lines.length
      rw [List.length_set, hrlen, List.length_set, List.length_set]
    · intro j
      show (r.set lc emptyLine)[j]? = _
      have hlcn : e.lineCount.toNat - 1 = lc := by omega
      rw [hlcn, List.getElem?_set, hrget j]
      by_cases hj : lc = j
      · subst hj
        rw [if_pos rfl, if_pos hlclt, if_pos rfl]
      · rw [if_neg hj, if_neg (show ¬ j = lc from fun h => hj h.symm)]
        by_cases hj2 : Y + 1 ≤ j ∧ j < Y + 1 + (lc - (Y + 1))
        · rw [if_pos hj2, if_pos (by omega), Nat.add_sub_cancel, List.getElem?_set,
            if_neg (by omega), List.getElem?_set, if_pos rfl, if_pos hYlt]
        · rw [if_neg hj2, List.getElem?_set]
          by_cases hj3 : Y + 1 = j
          · omega
          · rw [if_neg hj3, List.getElem?_set]
            by_cases hj4 : Y = j
            · subst hj4
              rw [if_pos rfl, if_pos hYlt, if_pos (by omega)]
            · rw [if_neg hj4, if_neg (by omega)]

/-- Joining two rows that have blocks of their own (the by-value embedding): in a valid editor
whose cursor is at true column 0 of a row `y > 0`, with line `y - 1` holding `A` and line `y`
holding `B`, `editorBackspace` succeeds, leaves line `y - 1` holding `A ++ B`, lowers
`lineCount` by one and puts the cursor on row `y - 1`, `|A|` columns to the right of where it
was, that is at true column `|A|`. -/
theorem editorBackspace_joins_lines (maxLines : Nat) (e : Editor) (hv : e.valid maxLines)
    (hx : e.offset.x + e.cursor.x = 0) (hy : 0 < e.offset.y + e.cursor.y)
    (lineA lineB : EditorLine)
    (hA : getAt e.lines (e.offset.y + e.cursor.y - 1) = some lineA)
    (hB : getAt e.lines (e.offset.y + e.cursor.y) = some lineB) :
    ∃ e' m, editorBackspace e = some e' ∧
      getAt e'.lines (e.offset.y + e.cursor.y - 1) = some m ∧
      m.content = lineA.content ++ lineB.content ∧
      e'.lineCount = e.lineCount - 1 ∧
      e'.offset.y + e'.cursor.y = e.offset.y + e.cursor.y - 1 ∧
      e'.cursor.x = e.cursor.x + (lineA.content.length : Int) ∧
      e'.offset.x + e'.cursor.x = (lineA.content.length : Int) := by
  obtain ⟨Y, hY⟩ : ∃ Y : Nat, e.offset.y + e.cursor.y = (Y + 1 : Nat) :=
    ⟨(e.offset.y + e.cursor.y).toNat - 1, by omega⟩
  have hYc : ((Y + 1 : Nat) : Int) - 1 = (Y : Int) := by push_cast; ring
  rw [hY] at hA hB
  rw [hYc, getAt_natCast] at hA
  rw [getAt_natCast] at hB
  obtain ⟨e', m, hrun, hmv, hmc, _, _, hget, hlc, hcur, hoff, _, _⟩ :=
    editorBackspace_merge maxLines e hv Y (by omega) hY lineA lineB hA hB
  have hAlen : (lineA.content.length : Int) = lineA.count := by
    obtain ⟨a, _, hac, halen, _, _⟩ := lineA.valid_split (hv.2.2.2.2.2 lineA (List.getElem?_mem hA))
    rw [halen, hac]
  have hylt := hv.2.2.2.2.1
  refine ⟨e', m, hrun, ?_, hmc, hlc, ?_, ?_, ?_⟩
  · rw [hY, hYc, getAt_natCast, hget Y, if_neg (by omega), if_pos (by omega)]
  · rw [hoff, hcur, hY]; simp only; omega
  · rw [hcur, hAlen]
  · rw [hoff, hcur, hAlen]; simp only; omega

/-- Example of `editorBackspace_joins_lines`: the lines `hello` and `world` with the cursor at
the start of the second one become the single line `helloworld`, with `lineCount = 1`. -/
theorem editorBackspace_joins_lines_witness :
    (Editor.valid 2 helloWorld ∧ helloWorld.offset.x + helloWorld.cursor.x = 0 ∧
      0 < helloWorld.offset.y + helloWorld.cursor.y ∧
      getAt helloWorld.lines (helloWorld.offset.y + helloWorld.cursor.y - 1)
        = some ⟨5, 6, [104, 101, 108, 108, 111, 0]⟩ ∧
      getAt helloWorld.lines (helloWorld.offset.y + helloWorld.cursor.y)
        = some ⟨5, 6, [119, 111, 114, 108, 100, 0]⟩) ∧
    (∃ e' m, editorBackspace helloWorld = some e' ∧
      getAt e'.lines (helloWorld.offset.y + helloWorld.cursor.y - 1) = some m ∧
      m.content = EditorLine.content ⟨5, 6, [104, 101, 108, 108, 111, 0]⟩
        ++ EditorLine.content ⟨5, 6, [119, 111, 114, 108, 100, 0]⟩ ∧
      e'.lineCount = helloWorld.lineCount - 1 ∧
      e'.offset.y + e'.cursor.y = helloWorld.offset.y + helloWorld.cursor.y - 1 ∧
      e'.cursor.x = helloWorld.cursor.x
        + ((EditorLine.content ⟨5, 6, [104, 101, 108, 108, 111, 0]⟩).length : Int) ∧
      e'.offset.x + e'.cursor.x
        = ((EditorLine.content ⟨5, 6, [104, 101, 108, 108, 111, 0]⟩).length : Int)) ∧
    (editorBackspace helloWorld).map
        (fun e' => (e'.lines.map EditorLine.content, e'.lineCount, e'.cursor))
      = some ([[104, 101, 108, 108, 111, 119, 111, 114, 108, 100], []], 1, ⟨5, 0⟩) :=
  ⟨⟨by decide, by decide, by decide, by decide, by decide⟩,
    editorBackspace_joins_lines 2 helloWorld (by decide) (by decide) (by decide) _ _
      (by decide) (by decide),
    by decide⟩

/-- C4 (the code departs from the claim): typing `a`, newline, `b`, newline, `c`, then moving
up and left puts the cursor at the start of the second of three lines.  `editorBackspace`
there joins `a` and `b`, but its shift loop copies slot `i - 1` into slot `i`, so the third
line is not moved up: the editor is left with the lines `ab`, `ab` and the line `c` is lost;
the flushed text changes from `a\nb\nc\n` to `ab\nab\n` instead of `ab\nc\n`. -/
theorem editorBackspace_loses_line_below :
    ∃ e, ((typeKeys 4 (termEditorInit 4 [])
            [(97, 80), (10, 80), (98, 80), (10, 80), (99, 80)]).bind termEditorUp).map
          termEditorLeft = some e ∧
      e.valid 4 ∧ e.offset.x + e.cursor.x = 0 ∧ e.offset.y + e.cursor.y = 1 ∧
      e.lineCount = 3 ∧ e.lines.map EditorLine.content = [[97], [98], [99], []] ∧
      (termEditorFlush e).map Prod.snd = some [97, 10, 98, 10, 99, 10, 0] ∧
      (editorBackspace e).map (fun e' => (e'.lines.map EditorLine.content, e'.lineCount))
        = some ([[97, 98], [97, 98], [], []], 2) ∧
      ((editorBackspace e).bind termEditorFlush).map Prod.snd
        = some [97, 98, 10, 97, 98, 10, 0] ∧
      ((editorBackspace e).bind termEditorFlush).map Prod.snd
        ≠ some [97, 98, 10, 99, 10, 0] :=
  ⟨_, rfl, by decide, by decide, by decide, by decide, by decide, by decide, by decide,
    by decide, by decide⟩

/-! ## Splitting a line with newline -/

theorem newline_new_cells (line : EditorLine) (hv : line.valid) (X : Nat)
    (hX : (X : Int) ≤ line.count) :
    ∃ nl, (if line.count - (X : Int) ≠ 0 then
          (editorEnsureLine emptyLine (line.count - (X : Int) + 1)).bind fun newLine =>
            (memcpy newLine.data 0 line.data (X : Int) (line.count - (X : Int))).bind fun data =>
              (setAt data (line.count - (X : Int)) 0).bind fun data =>
                some { count := line.count - (X : Int), capacity := newLine.capacity,
                       data := data }
        else some emptyLine) = some nl ∧
      nl.valid ∧ nl.content = line.content.drop X ∧ nl.count = line.count - (X : Int) := by
  obtain ⟨n, rest, hn, hlen, hdata, hcap⟩ := line.valid_split hv
  by_cases hrem : line.count - (X : Int) ≠ 0
  · obtain ⟨R, hR⟩ : ∃ R : Nat, line.count - (X : Int) = (R : Int) := ⟨n - X, by omega⟩
    obtain ⟨k, hens, hk⟩ := editorEnsureLine_spec emptyLine (line.count - (X : Int) + 1) rfl
    have hB : (line.data.drop X).take R = line.content.drop X := by
      rw [EditorLine.content, List.drop_take, hn]
      congr 1; omega
    have hBlen : (line.content.drop X).length = R := by
      rw [List.length_drop, hlen]; omega
    have hcopy : memcpy (List.replicate k 0) 0 line.data (X : Int) (R : Int)
        = some (line.content.drop X ++ List.replicate (k - R) 0) := by
      rw [show (0 : Int) = ((0 : Nat) : Int) by rfl,
        memcpy_natCast _ _ _ _ _
          (by rw [hdata, List.length_append, hlen]; omega)
          (by rw [List.length_replicate]; simp only [emptyLine] at hk; omega), hB]
      simp
    have hset : setAt (line.content.drop X ++ List.replicate (k - R) 0) (R : Int) 0
        = some (line.content.drop X ++ List.replicate (k - R) 0) := by
      have hkR : 0 < k - R := by simp only [emptyLine] at hk; omega
      rw [setAt_natCast, if_pos (by rw [List.length_append, hBlen, List.length_replicate]; omega),
        List.set_append_right _ _ (by omega), hBlen, Nat.sub_self]
      obtain ⟨q, hq⟩ : ∃ q, k - R = q + 1 := ⟨k - R - 1, by omega⟩
      rw [hq, List.replicate_succ, List.set_cons_zero]
    refine ⟨⟨R, k, line.content.drop X ++ List.replicate (k - R) 0⟩, ?_, ?_, ?_, ?_⟩
    · rw [if_pos hrem, hens]
      simp only [emptyLine, List.nil_append, zero_add, Option.some_bind, hR, hcopy, hset]
    · refine ⟨by show (0 : Int) ≤ R; omega, ?_, Or.inl ?_⟩
      · show ((line.content.drop X ++ List.replicate (k - R) 0).length : Int) = k
        rw [List.length_append, hBlen, List.length_replicate]
        simp only [emptyLine] at hk; omega
      · show (R : Int) < k
        simp only [emptyLine] at hk; omega
    · rw [EditorLine.content]
      dsimp only
      rw [Int.toNat_ofNat, ← hBlen]
      exact List.take_left' rfl
    · exact hR.symm
  · refine ⟨emptyLine, by rw [if_neg hrem], by decide, ?_, ?_⟩
    · have : line.content.drop X = [] := by
        apply List.drop_eq_nil_of_le; omega
      rw [this]; rfl
    · show (0 : Int) = _
      omega

theorem newline_cur_cells (line : EditorLine) (hv : line.valid) (X : Nat)
    (hX : (X : Int) ≤ line.count) :
    ∃ d, (if line.capacity ≠ 0 then
            if X < line.data.length then some (line.data.set X 0) else none
          else some line.data) = some d ∧
      (⟨X, line.capacity, d⟩ : EditorLine).valid ∧
      (⟨X, line.capacity, d⟩ : EditorLine).content = line.content.take X := by
  obtain ⟨n, rest, hn, hlen, hdata, hcap⟩ := line.valid_split hv
  obtain ⟨h0, hdl, hcc⟩ := hv
  have htake : ∀ d : List Nat, d.take X = line.data.take X →
      (⟨X, line.capacity, d⟩ : EditorLine).content = line.content.take X := by
    intro d hd
    rw [EditorLine.content, EditorLine.content]
    dsimp only
    rw [Int.toNat_ofNat, hd, List.take_take, min_eq_left (by omega)]
  by_cases hc : line.capacity ≠ 0
  · have hXlt : X < line.data.length := by omega
    refine ⟨line.data.set X 0, by rw [if_pos hc, if_pos hXlt], ?_, htake _ ?_⟩
    · refine ⟨by show (0 : Int) ≤ X; omega, ?_, Or.inl ?_⟩
      · show ((line.data.set X 0).length : Int) = line.capacity
        rw [List.length_set]; exact hdl
      · show (X : Int) < line.capacity
        omega
    · apply List.ext_getElem?
      intro i
      rw [List.getElem?_take, List.getElem?_take, List.getElem?_set]
      by_cases hi : i < X
      · rw [if_pos hi, if_pos hi, if_neg (by omega)]
      · rw [if_neg hi, if_neg hi]
  · have hc0 : line.capacity = 0 := by omega
    refine ⟨line.data, by rw [if_neg hc], ?_, htake _ rfl⟩
    refine ⟨by show (0 : Int) ≤ X; omega, hdl, Or.inr ⟨hc0, ?_⟩⟩
    show (X : Int) = 0
    omega

theorem editorNewline_spec (maxLines : Nat) (e : Editor) (hv : e.valid maxLines)
    (hroom : e.lineCount < (maxLines : Int)) (X Y : Nat)
    (hx : e.offset.x + e.cursor.x = X) (hy : e.offset.y + e.cursor.y = Y)
    (line : EditorLine) (hl : e.lines[Y]? = some line) (hxc : (X : Int) ≤ line.count) :
    ∃ e' cur new, editorNewline maxLines e = some e' ∧ cur.valid ∧ new.valid ∧
      cur.content = line.content.take X ∧ new.content = line.content.drop X ∧
      cur.count = (X : Int) ∧ new.count = line.count - X ∧
      e'.lines.length = e.lines.length ∧
      (∀ j, e'.lines[j]? =
        if j = Y then some cur
        else if j = Y + 1 then some new
        else if Y + 1 < j ∧ j ≤ e.lineCount.toNat then e.lines[j - 1]?
        else e.lines[j]?) ∧
      e'.lineCount = e.lineCount + 1 ∧
      e'.cursor = { x := 0, y := e.cursor.y + 1 } ∧
      e'.offset = { x := 0, y := e.offset.y } ∧
      e'.prompt = e.prompt ∧ e'.promptLength = e.promptLength ∧ e'.valid maxLines := by
  obtain ⟨hlen, h1, hmax, hy0, hylt, hlines⟩ := hv
  have hvl : line.valid := hlines line (List.getElem?_mem hl)
  obtain ⟨lc, hlc⟩ : ∃ lc : Nat, e.lineCount = (lc : Nat) := ⟨e.lineCount.toNat, by omega⟩
  have hlclt : lc < e.lines.length := by omega
  obtain ⟨r, hr, hrlen, hrget⟩ := newlineShift_spec (lc - Y) lc (e.lines.set lc emptyLine)
    (by omega) (by rw [List.length_set]; omega)
  have hassert : ¬ ¬ ((lc : Int) < (maxLines : Int)) := by omega
  have hfuel : ((lc : Int) - (Y : Int)).toNat = lc - Y := by omega
  have hY1 : Y + 1 < r.length := by rw [hrlen, List.length_set]; omega
  have hcurget : (r.set (Y + 1) emptyLine)[Y]? = some line := by
    rw [List.getElem?_set, if_neg (by omega), hrget Y, if_neg (by omega), List.getElem?_set,
      if_neg (by omega), hl]
  have hnewget : (r.set (Y + 1) emptyLine)[Y + 1]? = some emptyLine := by
    rw [List.getElem?_set, if_pos rfl, if_pos hY1]
  obtain ⟨nl, hnl, hnlv, hnlc, hnlcount⟩ := newline_new_cells line hvl X hxc
  obtain ⟨d, hd, hdv, hdc⟩ := newline_cur_cells line hvl X hxc
  have hY1b : Y + 1 < (r.set (Y + 1) emptyLine).length := by rw [List.length_set]; exact hY1
  have hYb : Y < ((r.set (Y + 1) emptyLine).set (Y + 1) nl).length := by
    simp only [List.length_set]; omega
  refine ⟨{ cursor := ⟨0, e.cursor.y + 1⟩, offset := ⟨0, e.offset.y⟩, prompt := e.prompt,
            promptLength := e.promptLength, lineCount := e.lineCount + 1,
            lines := ((r.set (Y + 1) emptyLine).set (Y + 1) nl).set Y ⟨X, line.capacity, d⟩ },
    ⟨X, line.capacity, d⟩, nl, ?_, hdv, hnlv, hdc, hnlc, rfl, hnlcount, ?_, ?_,
    rfl, rfl, rfl, rfl, rfl, ?_⟩
  · simp only [editorNewline, hx, hy, editorDeinitLine, editorInitLine,
      hlc, hassert, if_false, getAt_natCast, List.getElem?_eq_getElem hlclt, Option.bind_eq_bind,
      Option.some_bind, setAt_natCast, hlclt, if_true, hfuel, hr]
    rw [show ((Y : Int) + 1) = ((Y + 1 : Nat) : Int) by push_cast; rfl]
    simp only [setAt_natCast, hY1, if_true, Option.some_bind, getAt_natCast, hcurget, hnewget,
      hnl, hY1b, hd, hYb]
  · simp only [List.length_set, hrlen]
  · intro j
    show (((r.set (Y + 1) emptyLine).set (Y + 1) nl).set Y ⟨X, line.capacity, d⟩)[j]? = _
    have hlcn : e.lineCount.toNat = lc := by omega
    rw [hlcn, List.getElem?_set]
    by_cases hj : Y = j
    · subst hj
      rw [if_pos rfl, if_pos hYb, if_pos rfl]
    · rw [if_neg hj, if_neg (show ¬ j = Y from fun h => hj h.symm), List.getElem?_set]
      by_cases hj1 : Y + 1 = j
      · subst hj1
        rw [if_pos rfl, if_pos hY1b, if_pos rfl]
      · rw [if_neg hj1, if_neg (show ¬ j = Y + 1 from fun h => hj1 h.symm), List.getElem?_set,
          if_neg hj1, hrget j]
        by_cases hj2 : Y + 1 < j ∧ j ≤ lc
        · rw [if_pos hj2, if_pos (by omega), List.getElem?_set, if_neg (by omega)]
        · rw [if_neg hj2, if_neg (by omega), List.getElem?_set]
          by_cases hj3 : lc = j
          · omega
          · rw [if_neg hj3]
  · have hget : ∀ j : Nat,
        (((r.set (Y + 1) emptyLine).set (Y + 1) nl).set Y ⟨X, line.capacity, d⟩)[j]?
          = some (⟨X, line.capacity, d⟩ : EditorLine) ∨
        (((r.set (Y + 1) emptyLine).set (Y + 1) nl).set Y ⟨X, line.capacity, d⟩)[j]? = some nl ∨
        (∃ i : Nat, (((r.set (Y + 1) emptyLine).set (Y + 1) nl).set Y ⟨X, line.capacity, d⟩)[j]?
          = e.lines[i]?) := by
      intro j
      rw [List.getElem?_set]
      by_cases hj : Y = j
      · subst hj
        rw [if_pos rfl, if_pos hYb]
        exact Or.inl rfl
      · rw [if_neg hj, List.getElem?_set]
        by_cases hj1 : Y + 1 = j
        · subst hj1
          rw [if_pos rfl, if_pos hY1b]
          exact Or.inr (Or.inl rfl)
        · rw [if_neg hj1, List.getElem?_set, if_neg hj1, hrget j]
          refine Or.inr (Or.inr ?_)
          by_cases hj2 : lc - (lc - Y) < j ∧ j ≤ lc
          · rw [if_pos hj2, List.getElem?_set, if_neg (by omega)]
            exact ⟨_, rfl⟩
          · rw [if_neg hj2, List.getElem?_set]
            by_cases hj3 : lc = j
            · rw [if_pos hj3, if_pos (by omega)]
              refine ⟨e.lines.length, ?_⟩
              rw [List.getElem?_eq_none (le_refl _)]
              omega
            · rw [if_neg hj3]
              exact ⟨_, rfl⟩
    refine ⟨?_, ?_, ?_, ?_, ?_, ?_⟩
    · show (((r.set (Y + 1) emptyLine).set (Y + 1) nl).set Y ⟨X, line.capacity, d⟩).length = _
      simp only [List.length_set, hrlen, hlen]
    · show 1 ≤ e.lineCount + 1
      omega
    · show e.lineCount + 1 ≤ (maxLines : Int)
      omega
    · show 0 ≤ e.offset.y + (e.cursor.y + 1)
      omega
    · show e.offset.y + (e.cursor.y + 1) < e.lineCount + 1
      omega
    · intro l hmem
      obtain ⟨j, hj⟩ := List.mem_iff_getElem?.1 hmem
      rcases hget j with h | h | ⟨i, h⟩
      · rw [hj] at h
        cases h
        exact hdv
      · rw [hj] at h
        cases h
        exact hnlv
      · rw [hj] at h
        exact hlines l (List.getElem?_mem h.symm)

/-- Splitting a row when the rows have blocks of their own (the by-value embedding): in a
valid editor with `lineCount < TERM_EDITOR_MAX_LINES` whose cursor is on row `y` at true byte
offset `x ≤ |s|`, where `s` is the content of line `y`, `editorNewline` succeeds; it
leaves line `y` holding `s[0..x)`, makes line `y + 1` hold `s[x..|s|)`, moves every line
formerly at an index `i` with `y < i < lineCount` to index `i + 1` unchanged, leaves the lines
below index `y` unchanged, raises `lineCount` by one, and puts the cursor on row `y + 1`,
column 0, with `offset.x = 0`. -/
theorem editorNewline_splits_line (maxLines : Nat) (e : Editor) (hv : e.valid maxLines)
    (hroom : e.lineCount < (maxLines : Int)) (x : Nat) (hx : e.offset.x + e.cursor.x = x)
    (line : EditorLine) (hl : getAt e.lines (e.offset.y + e.cursor.y) = some line)
    (hxc : x ≤ line.content.length) :
    ∃ e' cur new, editorNewline maxLines e = some e' ∧
      getAt e'.lines (e.offset.y + e.cursor.y) = some cur ∧
      cur.content = line.content.take x ∧
      getAt e'.lines (e.offset.y + e.cursor.y + 1) = some new ∧
      new.content = line.content.drop x ∧
      (∀ i : Int, e.offset.y + e.cursor.y < i → i < e.lineCount →
        getAt e'.lines (i + 1) = getAt e.lines i) ∧
      (∀ i : Int, i < e.offset.y + e.cursor.y → getAt e'.lines i = getAt e.lines i) ∧
      e'.lineCount = e.lineCount + 1 ∧
      e'.offset.y + e'.cursor.y = e.offset.y + e.cursor.y + 1 ∧
      e'.cursor.x = 0 ∧ e'.offset.x = 0 := by
  obtain ⟨Y, hY, hlY⟩ := (getAt_some_iff _ _ _).1 hl
  have hvl : line.valid := hv.2.2.2.2.2 line (List.getElem?_mem hlY)
  obtain ⟨n, _, hn, hlen, _, _⟩ := line.valid_split hvl
  obtain ⟨e', cur, new, hrun, _, _, hcc, hnc, _, _, _, hget, hlc, hcur, hoff, _, _, _⟩ :=
    editorNewline_spec maxLines e hv hroom x Y hx hY line hlY (by omega)
  have h1 := hv.2.1
  refine ⟨e', cur, new, hrun, ?_, hcc, ?_, hnc, ?_, ?_, hlc, ?_, ?_, ?_⟩
  · rw [hY, getAt_natCast, hget Y, if_pos rfl]
  · rw [hY, show ((Y : Int) + 1) = ((Y + 1 : Nat) : Int) by push_cast; rfl, getAt_natCast,
      hget (Y + 1), if_neg (by omega), if_pos rfl]
  · intro i hi1 hi2
    obtain ⟨j, rfl⟩ : ∃ j : Nat, i = j := ⟨i.toNat, by omega⟩
    rw [show ((j : Int) + 1) = ((j + 1 : Nat) : Int) by push_cast; rfl, getAt_natCast,
      getAt_natCast, hget (j + 1), if_neg (by omega), if_neg (by omega), if_pos (by omega),
      Nat.add_sub_cancel]
  · intro i hi
    by_cases h0 : 0 ≤ i
    · obtain ⟨j, rfl⟩ : ∃ j : Nat, i = j := ⟨i.toNat, by omega⟩
      rw [getAt_natCast, getAt_natCast, hget j, if_neg (by omega), if_neg (by omega),
        if_neg (by omega)]
    · simp only [getAt, h0, if_false]
  · rw [hoff, hcur]; simp only; ring
  · rw [hcur]
  · rw [hoff]

/-- Example of `editorNewline_splits_line`: a newline inside `hello` (true offset 2), with the
line `world` below; the lines become `he`, `llo`, `world`. -/
theorem editorNewline_splits_line_witness :
    (Editor.valid 3 helloWorldRoom ∧ helloWorldRoom.lineCount < ((3 : Nat) : Int) ∧
      helloWorldRoom.offset.x + helloWorldRoom.cursor.x = ((2 : Nat) : Int) ∧
      getAt helloWorldRoom.lines (helloWorldRoom.offset.y + helloWorldRoom.cursor.y)
        = some ⟨5, 6, [104, 101, 108, 108, 111, 0]⟩ ∧
      2 ≤ (EditorLine.content ⟨5, 6, [104, 101, 108, 108, 111, 0]⟩).length) ∧
    (editorNewline 3 helloWorldRoom).map
        (fun e' => (e'.lines.map EditorLine.content, e'.lineCount, e'.cursor, e'.offset))
      = some ([[104, 101], [108, 108, 111], [119, 111, 114, 108, 100]], 3, ⟨0, 1⟩, ⟨0, 0⟩) ∧
    ∃ e' cur new, editorNewline 3 helloWorldRoom = some e' ∧
      getAt e'.lines (helloWorldRoom.offset.y + helloWorldRoom.cursor.y) = some cur ∧
      cur.content = (EditorLine.content ⟨5, 6, [104, 101, 108, 108, 111, 0]⟩).take 2 ∧
      getAt e'.lines (helloWorldRoom.offset.y + helloWorldRoom.cursor.y + 1) = some new ∧
      new.content = (EditorLine.content ⟨5, 6, [104, 101, 108, 108, 111, 0]⟩).drop 2 ∧
      (∀ i : Int, helloWorldRoom.offset.y + helloWorldRoom.cursor.y < i →
        i < helloWorldRoom.lineCount →
        getAt e'.lines (i + 1) = getAt helloWorldRoom.lines i) ∧
      (∀ i : Int, i < helloWorldRoom.offset.y + helloWorldRoom.cursor.y →
        getAt e'.lines i = getAt helloWorldRoom.lines i) ∧
      e'.lineCount = helloWorldRoom.lineCount + 1 ∧
      e'.offset.y + e'.cursor.y = helloWorldRoom.offset.y + helloWorldRoom.cursor.y + 1 ∧
      e'.cursor.x = 0 ∧ e'.offset.x = 0 :=
  ⟨⟨by decide, by decide, by decide, by decide, by decide⟩, by decide,
    editorNewline_splits_line 3 helloWorldRoom (by decide) (by decide) 2 (by decide)
      ⟨5, 6, [104, 101, 108, 108, 111, 0]⟩ (by decide) (by decide)⟩

/-- C6: in a valid editor holding a single line `s` (`lineCount = 1`, with room for a second
line) and the cursor at true byte offset `x ≤ |s|`, `editorNewline` followed at once by
`editorBackspace` succeeds and yields again a single line with content `s`, `lineCount = 1`,
and the cursor on row 0 at true byte offset `x`. -/
theorem editorNewline_editorBackspace_roundtrip (maxLines : Nat) (e : Editor)
    (hv : e.valid maxLines) (h1 : e.lineCount = 1) (hmax : 1 < maxLines)
    (x : Nat) (hx : e.offset.x + e.cursor.x = x)
    (line : EditorLine) (hl : getAt e.lines 0 = some line) (hxc : x ≤ line.content.length) :
    ∃ e1 e2 l2, editorNewline maxLines e = some e1 ∧ editorBackspace e1 = some e2 ∧
      e2.lineCount = 1 ∧ getAt e2.lines 0 = some l2 ∧ l2.content = line.content ∧
      e2.offset.y + e2.cursor.y = 0 ∧ e2.cursor.y = e.cursor.y ∧
      e2.offset.x + e2.cursor.x = x := by
  have hy : e.offset.y + e.cursor.y = ((0 : Nat) : Int) := by
    have := hv.2.2.2.1; have := hv.2.2.2.2.1; omega
  have hl0 : e.lines[0]? = some line := by
    rw [show (0 : Int) = ((0 : Nat) : Int) by rfl, getAt_natCast] at hl; exact hl
  have hvl : line.valid := hv.2.2.2.2.2 line (List.getElem?_mem hl0)
  obtain ⟨n, _, hn, hlen, _, _⟩ := line.valid_split hvl
  obtain ⟨e1, cur, new, hrun1, _, _, hcc, hnc, hcount, _, _, hget1, hlc1, hcur1, hoff1, _, _,
      hv1⟩ := editorNewline_spec maxLines e hv (by omega) x 0 hx hy line hl0 (by omega)
  obtain ⟨e2, m, hrun2, _, hmc, _, _, hget2, hlc2, hcur2, hoff2, _, _⟩ :=
    editorBackspace_merge maxLines e1 hv1 0 (by rw [hoff1, hcur1]; simp)
      (by rw [hoff1, hcur1]; simp only; omega) cur new
      (by rw [hget1 0, if_pos rfl]) (by rw [hget1 (0 + 1), if_neg (by omega), if_pos rfl])
  refine ⟨e1, e2, m, hrun1, hrun2, by omega, ?_, ?_, ?_, ?_, ?_⟩
  · rw [show (0 : Int) = ((0 : Nat) : Int) by rfl, getAt_natCast, hget2 0, hlc1, h1,
      if_neg (by decide), if_pos (by decide)]
  · rw [hmc, hcc, hnc, List.take_append_drop]
  · rw [hoff2, hcur2, hoff1, hcur1]; simp only; omega
  · rw [hcur2, hcur1]; simp only; omega
  · rw [hoff2, hcur2, hoff1, hcur1, hcount]; simp only; omega

/-- Witness of C6: newline then backspace at true offset 2 of the single line `hello`. -/
theorem editorNewline_editorBackspace_roundtrip_witness :
    (Editor.valid 2 helloOnly ∧ helloOnly.lineCount = 1 ∧ 1 < 2 ∧
      helloOnly.offset.x + helloOnly.cursor.x = ((2 : Nat) : Int) ∧
      getAt helloOnly.lines 0 = some ⟨5, 6, [104, 101, 108, 108, 111, 0]⟩ ∧
      2 ≤ (EditorLine.content ⟨5, 6, [104, 101, 108, 108, 111, 0]⟩).length) ∧
    ∃ e1 e2 l2, editorNewline 2 helloOnly = some e1 ∧ editorBackspace e1 = some e2 ∧
      e2.lineCount = 1 ∧ getAt e2.lines 0 = some l2 ∧
      l2.content = EditorLine.content ⟨5, 6, [104, 101, 108, 108, 111, 0]⟩ ∧
      e2.offset.y + e2.cursor.y = 0 ∧ e2.cursor.y = helloOnly.cursor.y ∧
      e2.offset.x + e2.cursor.x = ((2 : Nat) : Int) :=
  ⟨⟨by decide, by decide, by decide, by decide, by decide, by decide⟩,
    editorNewline_editorBackspace_roundtrip 2 helloOnly (by decide) (by decide) (by decide) 2
      (by decide) ⟨5, 6, [104, 101, 108, 108, 111, 0]⟩ (by decide) (by decide)⟩

/-! ## History store -/

theorem cstr_split (l : List Nat) (h : 0 ∈ l) :
    ∃ t, l = cstr l ++ 0 :: t ∧ ∀ c ∈ cstr l, c ≠ 0 := by
  induction l with
  | nil => cases h
  | cons a l ih =>
    by_cases ha : a = 0
    · subst ha
      exact ⟨l, by simp [cstr], by simp [cstr]⟩
    · have hl : 0 ∈ l := by
        rcases List.mem_cons.1 h with h | h
        · exact absurd h.symm ha
        · exact h
      obtain ⟨t, ht, hc⟩ := ih hl
      have hcs : cstr (a :: l) = a :: cstr l := by simp [cstr, List.takeWhile_cons, ha]
      refine ⟨t, ?_, ?_⟩
      · rw [hcs, List.cons_append, ← ht]
      · intro c hcm
        rw [hcs] at hcm
        rcases List.mem_cons.1 hcm with h | h
        · rw [h]; exact ha
        · exact hc c h

theorem scanNul_spec (s t : List Nat) (hs : ∀ c ∈ s, c ≠ 0) (fuel : Nat) :
    ∀ i : Nat, i ≤ s.length → s.length - i < fuel →
      scanNul fuel (s ++ 0 :: t) (i : Int) = some (s.length : Int) := by
  induction fuel with
  | zero => intro i _ h; omega
  | succ fuel ih =>
    intro i hi hf
    rcases Nat.lt_or_ge i s.length with hlt | hge
    · have hc : (s ++ 0 :: t)[i]? = some s[i] := by
        rw [List.getElem?_append_left hlt, List.getElem?_eq_getElem hlt]
      have hne : s[i] ≠ 0 := hs _ (List.getElem_mem _)
      simp only [scanNul, getAt_natCast, hc, Option.bind_eq_bind, Option.some_bind, ne_eq, hne,
        not_false_eq_true, if_true]
      rw [show ((i : Int) + 1) = ((i + 1 : Nat) : Int) by push_cast; rfl]
      exact ih (i + 1) (by omega) (by omega)
    · have hie : i = s.length := by omega
      subst hie
      have hc : (s ++ 0 :: t)[s.length]? = some 0 := by
        rw [List.getElem?_append_right (le_refl _)]; simp
      simp only [scanNul, getAt_natCast, hc, Option.bind_eq_bind, Option.some_bind, ne_eq,
        not_true_eq_false, if_false]

theorem strlen_spec (s t : List Nat) (hs : ∀ c ∈ s, c ≠ 0) :
    strlen (s ++ 0 :: t) = some (s.length : Int) := by
  have := scanNul_spec s t hs ((s ++ 0 :: t).length + 1) 0 (by omega)
    (by simp only [List.length_append, List.length_cons]; omega)
  simpa [strlen] using this

theorem stripBack_spec (s t : List Nat) (fuel : Nat) :
    ∀ i : Nat, i ≤ s.length → i ≤ fuel →
      ∃ k : Nat, stripBack fuel (s ++ t) (i : Int) = some (k : Int) ∧ k ≤ i ∧
        (∀ c ∈ (s.take i).drop k, c = 10 ∨ c = 32) ∧
        (∀ c, (s.take k).getLast? = some c → c ≠ 10 ∧ c ≠ 32) := by
  induction fuel with
  | zero =>
    intro i _ hf
    have hi0 : i = 0 := by omega
    subst hi0
    exact ⟨0, by simp [stripBack], le_refl _, by simp, by simp⟩
  | succ fuel ih =>
    intro i hi hf
    rcases Nat.eq_zero_or_pos i with hi0 | hpos
    · subst hi0
      exact ⟨0, by simp [stripBack], le_refl _, by simp, by simp⟩
    · obtain ⟨j, rfl⟩ : ∃ j, i = j + 1 := ⟨i - 1, by omega⟩
      have hjlt : j < s.length := by omega
      have hc : (s ++ t)[j]? = some s[j] := by
        rw [List.getElem?_append_left hjlt, List.getElem?_eq_getElem hjlt]
      have htake : s.take (j + 1) = s.take j ++ [s[j]] := by
        rw [List.take_succ, List.getElem?_eq_getElem hjlt]; rfl
      have hgt : ((j + 1 : Nat) : Int) > 0 := by omega
      have hsub : ((j + 1 : Nat) : Int) - 1 = (j : Int) := by push_cast; ring
      by_cases hws : s[j] ≠ 10 ∧ s[j] ≠ 32
      · refine ⟨j + 1, ?_, le_refl _, ?_, ?_⟩
        · simp only [stripBack]
          rw [if_pos hgt, hsub, getAt_natCast, hc]
          simp only [Option.bind_eq_bind, Option.some_bind]
          rw [if_pos hws]
        · rw [List.drop_of_length_le (by rw [List.length_take]; omega)]
          simp
        · intro c hcl
          rw [htake, List.getLast?_concat] at hcl
          cases hcl
          exact hws
      · obtain ⟨k, hk, hkle, hsuf, hlast⟩ := ih j (by omega) (by omega)
        refine ⟨k, ?_, by omega, ?_, hlast⟩
        · simp only [stripBack]
          rw [if_pos hgt, hsub, getAt_natCast, hc]
          simp only [Option.bind_eq_bind, Option.some_bind]
          rw [if_neg hws, hk]
        · intro c hcm
          rw [htake, List.drop_append_of_le_length (by rw [List.length_take]; omega)] at hcm
          rcases List.mem_append.1 hcm with h | h
          · exact hsuf c h
          · simp only [List.mem_singleton] at h
            subst h
            by_contra hcon
            exact hws ⟨fun h => hcon (Or.inl h), fun h => hcon (Or.inr h)⟩

theorem strip_spec (s : List Nat) (hs : ∀ c ∈ s, c ≠ 0) :
    ∃ k : Nat, k ≤ s.length ∧ strip (s ++ [0]) = some ((s ++ [0]).set k 0) ∧
      (∀ c ∈ s.drop k, c = 10 ∨ c = 32) ∧
      (∀ c, (s.take k).getLast? = some c → c ≠ 10 ∧ c ≠ 32) ∧
      cstr ((s ++ [0]).set k 0) = s.take k := by
  have hscan := scanNul_spec s [] hs ((s ++ [0]).length + 1) 0 (by omega)
    (by simp only [List.length_append, List.length_cons, List.length_nil]; omega)
  obtain ⟨k, hk, hkle, hsuf, hlast⟩ := stripBack_spec s [0] s.length s.length (le_refl _)
    (le_refl _)
  rw [List.take_length] at hsuf
  have hc : (s ++ [0])[s.length]? = some 0 := by
    rw [List.getElem?_append_right (le_refl _)]; simp
  refine ⟨k, hkle, ?_, hsuf, hlast, ?_⟩
  · simp only [strip, Nat.cast_zero] at hscan ⊢
    rw [hscan]
    simp only [Option.bind_eq_bind, Option.some_bind, getAt_natCast, hc, Int.toNat_ofNat]
    rw [if_neg (by simp), hk]
    simp only [Option.some_bind, setAt_natCast]
    rw [if_pos (by rw [List.length_append, List.length_singleton]; omega)]
  · rw [List.set_eq_take_append_cons_drop,
      if_pos (by rw [List.length_append, List.length_singleton]; omega),
      List.take_append_of_le_length hkle]
    exact cstr_append_zero _ _ (fun c hcm => hs c (List.mem_of_mem_take hcm))

theorem recordBlock_cells (s t : List Nat) (hs : ∀ c ∈ s, c ≠ 0) :
    recordBlock (s ++ 0 :: t) = strip (s ++ [0]) := by
  have hlen := strlen_spec s t hs
  have hnat : (1 + (s.length : Int)).toNat = s.length + 1 := by omega
  have hcopy : memcpy (List.replicate (s.length + 1) 0) 0 (s ++ 0 :: t) 0 (s.length : Int)
      = some (s ++ [0]) := by
    rw [show (0 : Int) = ((0 : Nat) : Int) by rfl,
      memcpy_natCast _ _ _ _ _ (by rw [List.length_append]; omega)
        (by rw [List.length_replicate]; omega)]
    have h1 : ((s ++ 0 :: t).drop 0).take s.length = s := by
      rw [List.drop_zero]; exact List.take_left' rfl
    rw [h1]
    simp
  have hset : setAt (s ++ [0]) (s.length : Int) 0 = some (s ++ [0]) := by
    rw [setAt_natCast, if_pos (by rw [List.length_append, List.length_singleton]; omega),
      List.set_append_right _ _ (le_refl _)]
    simp
  simp only [recordBlock, hlen, Option.bind_eq_bind, Option.some_bind, hnat, hcopy, hset]

theorem recordBlock_spec (entry : List Nat) (h0 : 0 ∈ entry) :
    ∃ k : Nat, k ≤ (cstr entry).length ∧
      recordBlock entry = some ((cstr entry ++ [0]).set k 0) ∧
      (∀ c ∈ (cstr entry).drop k, c = 10 ∨ c = 32) ∧
      (∀ c, ((cstr entry).take k).getLast? = some c → c ≠ 10 ∧ c ≠ 32) ∧
      cstr ((cstr entry ++ [0]).set k 0) = (cstr entry).take k := by
  obtain ⟨t, ht, hs⟩ := cstr_split entry h0
  obtain ⟨k, hkle, hstrip, hsuf, hlast, hcstr⟩ := strip_spec (cstr entry) hs
  refine ⟨k, hkle, ?_, hsuf, hlast, hcstr⟩
  rw [← hstrip, ← recordBlock_cells (cstr entry) t hs, ← ht]

theorem termREPLRecord_spec (maxHistory : Nat) (hmax : 1 ≤ maxHistory) (repl : TermREPL)
    (hlen : repl.history.length = maxHistory) (entry block : List Nat)
    (hb : recordBlock entry = some block) :
    termREPLRecord maxHistory repl entry
      = some { historyCount := if repl.historyCount + 1 > (maxHistory : Int)
                                then (maxHistory : Int) else repl.historyCount + 1,
               history := some block :: repl.history.take (maxHistory - 1) } := by
  obtain ⟨h0, H, hH⟩ : ∃ h0 H, repl.history = h0 :: H := by
    match hq : repl.history, hlen with
    | h0 :: H, _ => exact ⟨h0, H, rfl⟩
    | [], h => simp at h; omega
  have hmove : memmove repl.history 1 0 ((maxHistory : Int) - 1)
      = some (h0 :: repl.history.take (maxHistory - 1)) := by
    rw [memmove, show (1 : Int) = ((1 : Nat) : Int) by rfl,
      show (0 : Int) = ((0 : Nat) : Int) by rfl,
      show (maxHistory : Int) - ((1 : Nat) : Int) = ((maxHistory - 1 : Nat) : Int) by omega,
      memcpy_natCast _ _ _ _ _ (by omega) (by omega)]
    rw [List.drop_zero, List.drop_of_length_le (by omega), List.append_nil, hH]
    rfl
  simp only [termREPLRecord, hmove, hb, Option.bind_eq_bind, Option.some_bind]
  rw [show (0 : Int) = ((0 : Nat) : Int) by rfl, setAt_natCast, if_pos (by simp)]
  rfl

theorem take_append_take {α : Type} (A B : List α) (x : α) (m : Nat) :
    (A ++ x :: B.take (m - 1)).take m = (A ++ x :: B).take m := by
  apply List.ext_getElem?
  intro i
  rw [List.getElem?_take, List.getElem?_take]
  by_cases hi : i < m
  · rw [if_pos hi, if_pos hi, List.getElem?_append, List.getElem?_append]
    by_cases hA : i < A.length
    · rw [if_pos hA, if_pos hA]
    · rw [if_neg hA, if_neg hA]
      rcases Nat.eq_zero_or_pos (i - A.length) with h0 | hpos
      · rw [h0, List.getElem?_cons_zero, List.getElem?_cons_zero]
      · obtain ⟨j, hj⟩ : ∃ j, i - A.length = j + 1 := ⟨i - A.length - 1, by omega⟩
        rw [hj, List.getElem?_cons_succ, List.getElem?_cons_succ, List.getElem?_take,
          if_pos (by omega)]
  · rw [if_neg hi, if_neg hi]

theorem recordAll_spec (maxHistory : Nat) (hmax : 1 ≤ maxHistory) (entries : List (List Nat)) :
    ∀ repl : TermREPL, repl.history.length = maxHistory →
      (∀ e ∈ entries, 0 ∈ e) →
      0 ≤ repl.historyCount → repl.historyCount ≤ (maxHistory : Int) →
      recordAll maxHistory repl entries
        = some { historyCount := min (repl.historyCount + entries.length) (maxHistory : Int),
                 history := ((entries.reverse.map recordBlock) ++ repl.history).take
                   maxHistory } := by
  induction entries with
  | nil =>
    intro repl hlen _ h0 hle
    obtain ⟨c, H⟩ := repl
    simp only at hlen h0 hle
    simp only [recordAll, List.reverse_nil, List.map_nil, List.nil_append, List.length_nil,
      Nat.cast_zero, add_zero]
    rw [min_eq_left hle, List.take_of_length_le (by omega)]
  | cons e rest ih =>
    intro repl hlen hent h0 hle
    obtain ⟨k, _, hb, _, _, _⟩ := recordBlock_spec e (hent e (List.mem_cons_self _ _))
    have hrec := termREPLRecord_spec maxHistory hmax repl hlen e _ hb
    simp only [recordAll, hrec, Option.bind_eq_bind, Option.some_bind]
    rw [ih _ (by simp only [List.length_cons, List.length_take]; omega)
      (fun e' he' => hent e' (List.mem_cons_of_mem _ he'))
      (by simp only; split_ifs <;> omega) (by simp only; split_ifs <;> omega)]
    congr 1
    simp only [List.reverse_cons, List.map_append, List.map_cons, List.map_nil, hb,
      List.append_assoc, List.singleton_append, List.length_cons]
    congr 1
    · push_cast
      split_ifs <;> omega
    · exact take_append_take _ _ _ _

/-- C8: after `termREPLInit` and `termREPLRecord` of the entries `e1 … eN` in that order
(each a NUL-terminated string), `historyCount = min(N, TERM_MAX_HISTORY)`, every slot
`i < historyCount` holds the block recorded for `e(N-i)` (the entry without a trailing run of
spaces and newlines), and the slots from `historyCount` on are `NULL`; so for `N > TERM_MAX_HISTORY` exactly the `TERM_MAX_HISTORY`
most recent entries remain, most recent first. -/
theorem termREPLRecord_most_recent_first (maxHistory : Nat) (hmax : 1 ≤ maxHistory)
    (repl0 : TermREPL) (entries : List (List Nat)) (hent : ∀ e ∈ entries, 0 ∈ e) :
    ∃ repl, recordAll maxHistory (termREPLInit maxHistory repl0) entries = some repl ∧
      repl.historyCount = ((min entries.length maxHistory : Nat) : Int) ∧
      repl.history.length = maxHistory ∧
      (∀ i, i < min entries.length maxHistory →
        ∃ e block suffix, entries[entries.length - 1 - i]? = some e ∧
          recordBlock e = some block ∧ repl.history[i]? = some (some block) ∧
          cstr e = cstr block ++ suffix ∧ ∀ c ∈ suffix, c = 32 ∨ c = 10) ∧
      (∀ i, min entries.length maxHistory ≤ i → i < maxHistory →
        repl.history[i]? = some none) := by
  have hrun := recordAll_spec maxHistory hmax entries (termREPLInit maxHistory repl0)
    (by simp [termREPLInit]) hent (le_refl _) (by simp [termREPLInit])
  refine ⟨_, hrun, ?_, ?_, ?_, ?_⟩
  · show min ((0 : Int) + entries.length) (maxHistory : Int) = _
    rw [zero_add]; push_cast; rfl
  · show (((entries.reverse.map recordBlock) ++ List.replicate maxHistory none).take
      maxHistory).length = maxHistory
    simp
  · intro i hi
    have hiN : i < entries.length := lt_of_lt_of_le hi (min_le_left _ _)
    have hiM : i < maxHistory := lt_of_lt_of_le hi (min_le_right _ _)
    have hidx : entries.length - 1 - i < entries.length := by omega
    obtain ⟨k, _, hb, hsuf, _, hcstr⟩ := recordBlock_spec (entries[entries.length - 1 - i])
      (hent _ (List.getElem_mem _))
    refine ⟨entries[entries.length - 1 - i], _, (cstr entries[entries.length - 1 - i]).drop k,
      List.getElem?_eq_getElem hidx, hb, ?_, ?_, fun c hc => (hsuf c hc).symm⟩
    · show (((entries.reverse.map recordBlock) ++ List.replicate maxHistory none).take
        maxHistory)[i]? = _
      rw [List.getElem?_take, if_pos hiM,
        List.getElem?_append_left (by rw [List.length_map, List.length_reverse]; exact hiN),
        List.getElem?_map, List.getElem?_reverse hiN, List.getElem?_eq_getElem hidx]
      simp only [Option.map_some', hb]
    · rw [hcstr, List.take_append_drop]
  · intro i hi hiM
    have hiN : entries.length ≤ i := by
      rcases Nat.le_total entries.length maxHistory with h | h
      · rw [min_eq_left h] at hi; exact hi
      · rw [min_eq_right h] at hi; omega
    show (((entries.reverse.map recordBlock) ++ List.replicate maxHistory none).take
      maxHistory)[i]? = _
    rw [List.getElem?_take, if_pos hiM,
      List.getElem?_append_right (by rw [List.length_map, List.length_reverse]; exact hiN),
      List.getElem?_replicate, if_pos (by omega)]

/-- Witness of C8: three entries recorded into a history of two slots; the two most recent
remain, most recent first. -/
theorem termREPLRecord_most_recent_first_witness :
    (1 ≤ 2 ∧ ∀ e ∈ [[97, 10, 0], [98, 0], [99, 32, 0]], 0 ∈ e) ∧
    recordAll 2 (termREPLInit 2 ⟨0, []⟩) [[97, 10, 0], [98, 0], [99, 32, 0]]
      = some ⟨2, [some [99, 0, 0], some [98, 0]]⟩ ∧
    ∃ repl, recordAll 2 (termREPLInit 2 ⟨0, []⟩) [[97, 10, 0], [98, 0], [99, 32, 0]]
        = some repl ∧
      repl.historyCount
        = ((min [[97, 10, 0], [98, 0], [99, 32, 0]].length 2 : Nat) : Int) ∧
      repl.history.length = 2 ∧
      (∀ i, i < min [[97, 10, 0], [98, 0], [99, 32, 0]].length 2 →
        ∃ e block suffix, [[97, 10, 0], [98, 0], [99, 32, 0]][
            [[97, 10, 0], [98, 0], [99, 32, 0]].length - 1 - i]? = some e ∧
          recordBlock e = some block ∧ repl.history[i]? = some (some block) ∧
          cstr e = cstr block ++ suffix ∧ ∀ c ∈ suffix, c = 32 ∨ c = 10) ∧
      (∀ i, min [[97, 10, 0], [98, 0], [99, 32, 0]].length 2 ≤ i → i < 2 →
        repl.history[i]? = some none) :=
  ⟨⟨by decide, by decide⟩, by decide,
    termREPLRecord_most_recent_first 2 (by decide) ⟨0, []⟩ [[97, 10, 0], [98, 0], [99, 32, 0]]
      (by decide)⟩

/-- C9 as amended: for every NUL-terminated entry, `termREPLRecord` succeeds and the string it
stores at `history[0]` is a prefix of the entry; the removed suffix consists only of spaces
and newlines, and the stored string does not end in a space or a newline. -/
theorem termREPLRecord_strips_spaces_newlines (maxHistory : Nat) (hmax : 1 ≤ maxHistory)
    (repl : TermREPL) (hlen : repl.history.length = maxHistory)
    (entry : List Nat) (h0 : 0 ∈ entry) :
    ∃ repl' block suffix, termREPLRecord maxHistory repl entry = some repl' ∧
      repl'.history[0]? = some (some block) ∧
      cstr entry = cstr block ++ suffix ∧
      (∀ c ∈ suffix, c = 32 ∨ c = 10) ∧
      (∀ c, (cstr block).getLast? = some c → c ≠ 32 ∧ c ≠ 10) := by
  obtain ⟨k, _, hb, hsuf, hlast, hcstr⟩ := recordBlock_spec entry h0
  refine ⟨_, (cstr entry ++ [0]).set k 0, (cstr entry).drop k,
    termREPLRecord_spec maxHistory hmax repl hlen entry _ hb, List.getElem?_cons_zero,
    ?_, ?_, ?_⟩
  · rw [hcstr, List.take_append_drop]
  · intro c hc
    exact (hsuf c hc).symm
  · intro c hc
    rw [hcstr] at hc
    exact ⟨(hlast c hc).2, (hlast c hc).1⟩

/-- Witness of C9 as amended: the entry `ab`, space, newline is stored as `ab`. -/
theorem termREPLRecord_strips_spaces_newlines_witness :
    (1 ≤ 2 ∧ (termREPLInit 2 ⟨0, []⟩).history.length = 2 ∧ 0 ∈ [97, 98, 32, 10, 0]) ∧
    ((termREPLRecord 2 (termREPLInit 2 ⟨0, []⟩) [97, 98, 32, 10, 0]).map
        (fun r => r.history.map (Option.map cstr)) = some [some [97, 98], none]) ∧
    ∃ repl' block suffix,
      termREPLRecord 2 (termREPLInit 2 ⟨0, []⟩) [97, 98, 32, 10, 0] = some repl' ∧
      repl'.history[0]? = some (some block) ∧
      cstr [97, 98, 32, 10, 0] = cstr block ++ suffix ∧
      (∀ c ∈ suffix, c = 32 ∨ c = 10) ∧
      (∀ c, (cstr block).getLast? = some c → c ≠ 32 ∧ c ≠ 10) :=
  ⟨⟨by decide, by decide, by decide⟩, by decide,
    termREPLRecord_strips_spaces_newlines 2 (by decide) (termREPLInit 2 ⟨0, []⟩) (by decide)
      [97, 98, 32, 10, 0] (by decide)⟩

/-- Counterexample to C9 as stated: the entry `a` followed by a tab is stored unchanged, so
the stored string ends in a whitespace character (the tab, byte 9); likewise a trailing
carriage return (byte 13) is kept. -/
theorem termREPLRecord_keeps_trailing_tab :
    (∃ repl block, termREPLRecord 2 (termREPLInit 2 ⟨0, []⟩) [97, 9, 0] = some repl ∧
      repl.history[0]? = some (some block) ∧ cstr block = [97, 9] ∧
      (cstr block).getLast? = some 9) ∧
    (∃ repl block, termREPLRecord 2 (termREPLInit 2 ⟨0, []⟩) [97, 13, 0] = some repl ∧
      repl.history[0]? = some (some block) ∧ cstr block = [97, 13] ∧
      (cstr block).getLast? = some 13) :=
  ⟨⟨_, _, rfl, rfl, by decide, by decide⟩, ⟨_, _, rfl, rfl, by decide, by decide⟩⟩

/-! ## History navigation -/

theorem stringReserve_spec (s : String) (n : Int) (hlen : (s.data.length : Int) = s.capacity) :
    ∃ k : Nat, stringReserve s n
        = some { count := s.count, capacity := s.capacity + k,
                 data := s.data ++ List.replicate k 0 } ∧
      n ≤ s.capacity + k := by
  obtain ⟨cnt, cap, data⟩ := s
  simp only at hlen ⊢
  by_cases h : cap ≥ n
  · exact ⟨0, by simp [stringReserve, h], by omega⟩
  · obtain ⟨c, h1, h2, h3⟩ := growCapacity_spec cap n (by omega)
    refine ⟨(c - cap).toNat, ?_, by omega⟩
    have e1 : c.toNat - data.length = (c - cap).toNat := by omega
    have e2 : data.length ≤ c.toNat := by omega
    have e3 : cap + ((c - cap).toNat : Int) = c := by omega
    simp only [stringReserve, h, if_false, h1, realloc, List.take_of_length_le e2, e1, e3,
      Option.bind_eq_bind, Option.some_bind]

theorem stringSet_spec (s : String) (str : List Nat)
    (hlen : (s.data.length : Int) = s.capacity) (h0 : 0 ∈ str) :
    ∃ s', stringSet s str = some s' ∧ (s'.data.length : Int) = s'.capacity ∧
      s'.count = ((cstr str).length : Int) ∧
      s'.data.take s'.count.toNat = cstr str ∧ s'.count < s'.capacity := by
  obtain ⟨t, ht, hs⟩ := cstr_split str h0
  have hstrlen : strlen str = some ((cstr str).length : Int) := by
    have := strlen_spec (cstr str) t hs
    rw [← ht] at this
    exact this
  obtain ⟨k, hres, hk⟩ := stringReserve_spec s (((cstr str).length : Int) + 1) hlen
  have hDlen : (s.data ++ List.replicate k 0).length = s.data.length + k := by
    rw [List.length_append, List.length_replicate]
  have hsrc : (str.drop 0).take (cstr str).length = cstr str := by
    rw [List.drop_zero]
    generalize cstr str = c at ht
    rw [ht]
    exact List.take_left' rfl
  have hstrlen2 : (cstr str).length ≤ str.length := by
    have := congrArg List.length ht
    rw [List.length_append] at this
    omega
  have hcopy : memcpy (s.data ++ List.replicate k 0) 0 str 0 ((cstr str).length : Int)
      = some (cstr str ++ (s.data ++ List.replicate k 0).drop (cstr str).length) := by
    rw [show (0 : Int) = ((0 : Nat) : Int) by rfl,
      memcpy_natCast _ _ _ _ _ (by omega) (by rw [hDlen]; omega), hsrc]
    simp
  obtain ⟨d0, tail, hd⟩ : ∃ d0 tail,
      (s.data ++ List.replicate k 0).drop (cstr str).length = d0 :: tail := by
    have : 0 < ((s.data ++ List.replicate k 0).drop (cstr str).length).length := by
      rw [List.length_drop, hDlen]; omega
    match hq : (s.data ++ List.replicate k 0).drop (cstr str).length, this with
    | d0 :: tail, _ => exact ⟨d0, tail, rfl⟩
  have htl : (cstr str ++ 0 :: tail).length = s.data.length + k := by
    have := congrArg List.length hd
    rw [List.length_drop, hDlen, List.length_cons] at this
    rw [List.length_append, List.length_cons]
    omega
  have hset : setAt (cstr str ++ d0 :: tail) ((cstr str).length : Int) 0
      = some (cstr str ++ 0 :: tail) := by
    rw [setAt_natCast, if_pos (by rw [List.length_append, List.length_cons]; omega),
      List.set_append_right _ _ (le_refl _), Nat.sub_self, List.set_cons_zero]
  refine ⟨⟨((cstr str).length : Int), s.capacity + k, cstr str ++ 0 :: tail⟩, ?_, ?_, rfl, ?_,
    ?_⟩
  · simp only [stringSet, hstrlen, Option.bind_eq_bind, Option.some_bind, hres, hcopy, hd, hset]
  · show ((cstr str ++ 0 :: tail).length : Int) = s.capacity + k
    rw [htl]; push_cast; omega
  · show (cstr str ++ 0 :: tail).take ((cstr str).length : Int).toNat = cstr str
    rw [Int.toNat_ofNat]
    exact List.take_left' rfl
  · show ((cstr str).length : Int) < s.capacity + k
    omega

theorem replace_spec (line : Line) (str : List Nat)
    (hlen : (line.buffer.data.length : Int) = line.buffer.capacity) (h0 : 0 ∈ str) :
    ∃ line', replace line str = some line' ∧
      (line'.buffer.data.length : Int) = line'.buffer.capacity ∧
      line'.content = cstr str ∧ line'.cursor = ((cstr str).length : Int) ∧
      line'.buffer.count = ((cstr str).length : Int) ∧
      line'.history = line.history ∧ line'.historyIndex = line.historyIndex ∧
      line'.prompt = line.prompt := by
  obtain ⟨b, hb, hbl, hbc, hbt, _⟩ := stringSet_spec line.buffer str hlen h0
  refine ⟨{ line with buffer := b, cursor := b.count }, ?_, hbl, hbt, hbc, hbc, rfl, rfl, rfl⟩
  simp only [replace, hb, Option.bind_eq_bind, Option.some_bind]

theorem replHistoryPrev_spec (key : Int) (line : Line) (j : Nat)
    (hidx : line.historyIndex = (j : Int) - 1) (hj : (j : Int) < line.history.historyCount)
    (blk : List Nat) (hblk : line.history.history[j]? = some (some blk)) (h0 : 0 ∈ blk)
    (hlen : (line.buffer.data.length : Int) = line.buffer.capacity) :
    ∃ line', replHistoryPrev key line = some (line', REPLAction.REPL_DONOTHING) ∧
      (line'.buffer.data.length : Int) = line'.buffer.capacity ∧
      line'.content = cstr blk ∧ line'.cursor = ((cstr blk).length : Int) ∧
      line'.history = line.history ∧ line'.historyIndex = (j : Int) ∧
      line'.prompt = line.prompt := by
  obtain ⟨line', hrep, hl', hc', hcur', _, hh', hi', hp'⟩ :=
    replace_spec { line with historyIndex := line.historyIndex + 1 } blk hlen h0
  refine ⟨line', ?_, hl', hc', hcur', hh', by rw [hi']; simp only; omega, hp'⟩
  have hcond : ¬ (line.historyIndex ≥ line.history.historyCount - 1) := by omega
  have hnext : line.historyIndex + 1 = (j : Int) := by omega
  simp only [replHistoryPrev, hcond, if_false, hnext, getAt_natCast, hblk, Option.bind_eq_bind,
    Option.some_bind]
  rw [hnext] at hrep
  rw [hrep]
  rfl

theorem rounds_replHistoryPrev (key : Int) (H : TermREPL)
    (hH : ∀ i : Nat, (i : Int) < H.historyCount →
      ∃ blk, H.history[i]? = some (some blk) ∧ 0 ∈ blk) (k : Nat) :
    ∀ (line : Line) (j : Nat), line.history = H → line.historyIndex = (j : Int) - 1 →
      ((j + k : Nat) : Int) ≤ H.historyCount →
      (line.buffer.data.length : Int) = line.buffer.capacity →
      ∃ line', rounds replHistoryPrev key k line = some line' ∧
        (line'.buffer.data.length : Int) = line'.buffer.capacity ∧
        line'.history = H ∧ line'.historyIndex = ((j + k : Nat) : Int) - 1 ∧
        line'.prompt = line.prompt ∧
        (1 ≤ k → ∃ blk, H.history[j + k - 1]? = some (some blk) ∧ line'.content = cstr blk ∧
          line'.cursor = ((cstr blk).length : Int)) := by
  induction k with
  | zero =>
    intro line j hh hidx _ hlen
    exact ⟨line, rfl, hlen, hh, by rw [hidx]; rfl, rfl, fun h => absurd h (by omega)⟩
  | succ k ih =>
    intro line j hh hidx hjk hlen
    obtain ⟨blk, hblk, h0⟩ := hH j (by push_cast at hjk; omega)
    obtain ⟨line1, hstep, hl1, hc1, hcur1, hh1, hi1, hp1⟩ := replHistoryPrev_spec key line j
      hidx (by rw [hh]; push_cast at hjk; omega) blk (by rw [hh]; exact hblk) h0 hlen
    obtain ⟨line', hrun, hl', hh', hi', hp', hcont'⟩ := ih line1 (j + 1) (by rw [hh1, hh])
      (by rw [hi1]; push_cast; ring) (by rw [show j + 1 + k = j + (k + 1) by omega]; exact hjk)
      hl1
    refine ⟨line', ?_, hl', hh', ?_, by rw [hp', hp1], ?_⟩
    · simp only [rounds, hstep, Option.bind_eq_bind, Option.some_bind, termREPLSwitch, hrun]
    · rw [hi', show j + 1 + k = j + (k + 1) by omega]
    · intro _
      rcases Nat.eq_zero_or_pos k with hk0 | hkpos
      · subst hk0
        simp only [rounds, Option.some.injEq] at hrun
        subst hrun
        exact ⟨blk, by simpa using hblk, hc1, hcur1⟩
      · obtain ⟨blk', hb', hc''⟩ := hcont' hkpos
        exact ⟨blk', by rw [show j + (k + 1) - 1 = j + 1 + k - 1 by omega]; exact hb', hc''⟩

theorem rounds_replHistoryNext (key : Int) (H : TermREPL)
    (hH : ∀ i : Nat, (i : Int) < H.historyCount →
      ∃ blk, H.history[i]? = some (some blk) ∧ 0 ∈ blk) (m : Nat) :
    ∀ (line : Line), line.history = H → line.historyIndex = (m : Int) →
      (m : Int) < H.historyCount →
      (line.buffer.data.length : Int) = line.buffer.capacity →
      ∃ line', rounds replHistoryNext key (m + 1) line = some line' ∧
        line'.buffer.count = 0 ∧ line'.content = [] ∧ line'.cursor = 0 ∧
        line'.historyIndex = -1 ∧ line'.history = H ∧ line'.prompt = line.prompt := by
  induction m with
  | zero =>
    intro line hh hidx _ hlen
    have hcond : line.historyIndex ≤ 0 := by rw [hidx]; rfl
    by_cases hcap : line.buffer.capacity ≠ 0
    · have hpos : 0 < line.buffer.data.length := by omega
      refine ⟨⟨-1, line.history, line.prompt, 0,
          ⟨0, line.buffer.capacity, line.buffer.data.set 0 0⟩⟩,
        ?_, rfl, rfl, rfl, rfl, hh, rfl⟩
      simp only [rounds, replHistoryNext, hcond, if_true, replFlush, Option.bind_eq_bind,
        Option.some_bind, termREPLSwitch, hcap, ne_eq, not_false_eq_true]
      rw [show (0 : Int) = ((0 : Nat) : Int) by rfl, setAt_natCast, if_pos hpos]
      rfl
    · refine ⟨⟨-1, line.history, line.prompt, 0, ⟨0, line.buffer.capacity, line.buffer.data⟩⟩,
        ?_, rfl, rfl, rfl, rfl, hh, rfl⟩
      simp only [rounds, replHistoryNext, hcond, if_true, replFlush, Option.bind_eq_bind,
        Option.some_bind, termREPLSwitch, hcap, if_false]
  | succ m ih =>
    intro line hh hidx hm hlen
    obtain ⟨blk, hblk, h0⟩ := hH m (by push_cast at hm; omega)
    obtain ⟨line1, hrep, hl1, _, _, _, hh1, hi1, hp1⟩ :=
      replace_spec { line with historyIndex := line.historyIndex - 1 } blk hlen h0
    obtain ⟨line', hrun, hcnt, hcont, hcur, hi', hh', hp'⟩ := ih line1 (by rw [hh1, hh])
      (by rw [hi1, hidx]; push_cast; ring) (by push_cast at hm; omega) hl1
    refine ⟨line', ?_, hcnt, hcont, hcur, hi', hh', by rw [hp', hp1]⟩
    have hcond : ¬ (line.historyIndex ≤ 0) := by rw [hidx]; push_cast; omega
    have hprev : line.historyIndex - 1 = (m : Int) := by rw [hidx]; push_cast; ring
    have hblk' : line.history.history[m]? = some (some blk) := by rw [hh]; exact hblk
    rw [hprev] at hrep
    rw [rounds]
    simp only [replHistoryNext, hcond, if_false, hprev, getAt_natCast, hblk',
      Option.bind_eq_bind, Option.some_bind, hrep, termREPLSwitch, hrun]

/-- C10: from a fresh session (`startREPL`) over a history whose `historyCount` first slots
hold NUL-terminated strings, for every `N` with `1 ≤ N ≤ historyCount`: after the `k`-th round
of `replHistoryPrev` (`1 ≤ k ≤ N`) the buffer holds `history[k-1]` and `historyIndex = k-1`;
and `N` rounds of `replHistoryPrev` followed by `N` rounds of `replHistoryNext`, each round
with the loop's handling of the returned action, end with an empty buffer, cursor 0 and
`historyIndex = -1`. -/
theorem history_prev_next_roundtrip (prompt : List Nat) (H : TermREPL)
    (keyPrev keyNext : Int)
    (hH : ∀ i : Nat, (i : Int) < H.historyCount →
      ∃ blk, H.history[i]? = some (some blk) ∧ 0 ∈ blk)
    (N : Nat) (hN1 : 1 ≤ N) (hN : (N : Int) ≤ H.historyCount) :
    (∀ k, 1 ≤ k → k ≤ N →
      ∃ line blk, rounds replHistoryPrev keyPrev k (startREPL prompt H) = some line ∧
        H.history[k - 1]? = some (some blk) ∧ line.content = cstr blk ∧
        line.historyIndex = (k : Int) - 1) ∧
    ∃ line1 line2, rounds replHistoryPrev keyPrev N (startREPL prompt H) = some line1 ∧
      rounds replHistoryNext keyNext N line1 = some line2 ∧
      line2.content = [] ∧ line2.buffer.count = 0 ∧ line2.cursor = 0 ∧
      line2.historyIndex = -1 := by
  have hstart : ∀ k : Nat, (k : Int) ≤ H.historyCount →
      ∃ line', rounds replHistoryPrev keyPrev k (startREPL prompt H) = some line' ∧
        (line'.buffer.data.length : Int) = line'.buffer.capacity ∧
        line'.history = H ∧ line'.historyIndex = ((0 + k : Nat) : Int) - 1 ∧
        line'.prompt = (startREPL prompt H).prompt ∧
        (1 ≤ k → ∃ blk, H.history[0 + k - 1]? = some (some blk) ∧ line'.content = cstr blk ∧
          line'.cursor = ((cstr blk).length : Int)) := by
    intro k hk
    exact rounds_replHistoryPrev keyPrev H hH k (startREPL prompt H) 0 rfl rfl
      (by rw [Nat.zero_add]; exact hk) rfl
  constructor
  · intro k hk1 hkN
    obtain ⟨line, hrun, _, _, hidx, _, hcont⟩ := hstart k (by omega)
    obtain ⟨blk, hblk, hc, _⟩ := hcont hk1
    rw [Nat.zero_add] at hblk hidx
    exact ⟨line, blk, hrun, hblk, hc, hidx⟩
  · obtain ⟨line1, hrun1, hl1, hh1, hidx1, _, _⟩ := hstart N hN
    obtain ⟨M, rfl⟩ : ∃ M, N = M + 1 := ⟨N - 1, by omega⟩
    obtain ⟨line2, hrun2, hcnt, hcont, hcur, hidx2, _, _⟩ :=
      rounds_replHistoryNext keyNext H hH M line1 hh1
        (by rw [hidx1]; push_cast; ring) (by push_cast at hN; omega) hl1
    exact ⟨line1, line2, hrun1, hrun2, hcont, hcnt, hcur, hidx2⟩

/-- Witness of C10: a history holding `c` (most recent) and `b`, browsed back twice and
forward twice. -/
theorem history_prev_next_roundtrip_witness :
    ((∀ i : Nat, (i : Int) < (⟨2, [some [99, 0, 0], some [98, 0]]⟩ : TermREPL).historyCount →
        ∃ blk, (⟨2, [some [99, 0, 0], some [98, 0]]⟩ : TermREPL).history[i]? = some (some blk) ∧
          0 ∈ blk) ∧
      1 ≤ 2 ∧ ((2 : Nat) : Int) ≤ (⟨2, [some [99, 0, 0], some [98, 0]]⟩ : TermREPL).historyCount) ∧
    ((rounds replHistoryPrev 16 2 (startREPL [] ⟨2, [some [99, 0, 0], some [98, 0]]⟩)).map
        (fun l => (l.content, l.cursor, l.historyIndex)) = some ([98], 1, 1)) ∧
    ((∀ k, 1 ≤ k → k ≤ 2 →
      ∃ line blk, rounds replHistoryPrev 16 k
          (startREPL [] ⟨2, [some [99, 0, 0], some [98, 0]]⟩) = some line ∧
        (⟨2, [some [99, 0, 0], some [98, 0]]⟩ : TermREPL).history[k - 1]? = some (some blk) ∧
        line.content = cstr blk ∧ line.historyIndex = (k : Int) - 1) ∧
    ∃ line1 line2, rounds replHistoryPrev 16 2
        (startREPL [] ⟨2, [some [99, 0, 0], some [98, 0]]⟩) = some line1 ∧
      rounds replHistoryNext 14 2 line1 = some line2 ∧
      line2.content = [] ∧ line2.buffer.count = 0 ∧ line2.cursor = 0 ∧
      line2.historyIndex = -1) :=
  have hH : ∀ i : Nat, (i : Int) < (⟨2, [some [99, 0, 0], some [98, 0]]⟩ : TermREPL).historyCount →
      ∃ blk, (⟨2, [some [99, 0, 0], some [98, 0]]⟩ : TermREPL).history[i]? = some (some blk) ∧
        0 ∈ blk := by
    intro i hi
    have hi2 : i = 0 ∨ i = 1 := by
      have : (i : Int) < 2 := hi
      omega
    rcases hi2 with rfl | rfl
    · exact ⟨[99, 0, 0], rfl, by decide⟩
    · exact ⟨[98, 0], rfl, by decide⟩
  ⟨⟨hH, by decide, by decide⟩, by decide,
    history_prev_next_roundtrip [] ⟨2, [some [99, 0, 0], some [98, 0]]⟩ 16 14 hH 2 (by decide)
      (by decide)⟩

/-! ## REPL display width -/

theorem replShow_byte (c : Nat) :
    replShow (c : Int) = if 0 < c ∧ c < 32 then 2 else 1 := by
  unfold replShow IS_CTL
  by_cases h : 0 < c ∧ c < 32
  · have h1 : (c : Int) ≠ 0 := by omega
    have h2 : (c : Int) < 32 := by omega
    simp [h, h1, h2]
  · rw [if_neg h]
    by_cases h0 : c = 0
    · subst h0; simp
    · have h2 : ¬ ((c : Int) < 32) := by omega
      simp [h2]

theorem replShow_char (c : Nat) (hc : c < 256) :
    replShow (charToInt c) = if (0 < c ∧ c < 32) ∨ 128 ≤ c then 2 else 1 := by
  unfold charToInt
  by_cases h : c < 128
  · rw [if_pos h, replShow_byte]
    by_cases hctl : 0 < c ∧ c < 32
    · rw [if_pos hctl, if_pos (Or.inl hctl)]
    · rw [if_neg hctl, if_neg (by omega)]
  · rw [if_neg h, if_pos (Or.inr (by omega))]
    have h1 : (c : Int) - 256 ≠ 0 := by omega
    have h2 : (c : Int) - 256 < 32 := by omega
    simp [replShow, IS_CTL, h1, h2]

theorem replShowsLoop_spec (s t : List Nat) (hs : ∀ c ∈ s, c ≠ 0) (fuel : Nat) :
    ∀ (i : Nat) (total : Int), i ≤ s.length → s.length - i < fuel →
      replShowsLoop fuel (s ++ 0 :: t) (i : Int) total
        = some (total + ((s.drop i).map (fun (c : Nat) => replShow (charToInt c))).sum) := by
  induction fuel with
  | zero => intro i _ _ h; omega
  | succ fuel ih =>
    intro i total hi hf
    rcases Nat.lt_or_ge i s.length with hlt | hge
    · have hc : (s ++ 0 :: t)[i]? = some s[i] := by
        rw [List.getElem?_append_left hlt, List.getElem?_eq_getElem hlt]
      have hne : s[i] ≠ 0 := hs _ (List.getElem_mem _)
      simp only [replShowsLoop, getAt_natCast, hc, Option.bind_eq_bind, Option.some_bind, ne_eq,
        hne, not_false_eq_true, if_true]
      rw [show ((i : Int) + 1) = ((i + 1 : Nat) : Int) by push_cast; rfl,
        ih (i + 1) _ (by omega) (by omega), List.drop_eq_getElem_cons hlt, List.map_cons,
        List.sum_cons, add_assoc]
    · have hie : i = s.length := by omega
      subst hie
      have hc : (s ++ 0 :: t)[s.length]? = some 0 := by
        rw [List.getElem?_append_right (le_refl _)]; simp
      simp only [replShowsLoop, getAt_natCast, hc, Option.bind_eq_bind, Option.some_bind, ne_eq,
        not_true_eq_false, if_false, List.drop_length, List.map_nil, List.sum_nil, add_zero]

theorem sum_replShow (s : List Nat) (hs : ∀ c ∈ s, c < 256) :
    (s.map (fun (c : Nat) => replShow (charToInt c))).sum
      = (s.length : Int)
        + ((s.filter (fun c => (0 < c ∧ c < 32) ∨ 128 ≤ c)).length : Int) := by
  induction s with
  | nil => simp
  | cons a s ih =>
    rw [List.map_cons, List.sum_cons, ih (fun c hc => hs c (List.mem_cons_of_mem _ hc)),
      replShow_char a (hs a (List.mem_cons_self _ _)), List.length_cons, List.filter_cons]
    by_cases h : (0 < a ∧ a < 32) ∨ 128 ≤ a
    · simp only [h, if_true, decide_True, List.length_cons]
      push_cast; ring
    · simp only [h, if_false, decide_False]
      push_cast; ring

/-- What `replShow` and `replShows` compute: for every byte value `c` in 0..255 passed as an
`int`, `replShow(c)` returns 2 exactly when `0 < c < 0x20` and 1 otherwise; and for every
NUL-terminated string of bytes, `replShows` returns the sum of the widths `replShow` gives its
`char`s, which is the string's length plus the number of its bytes that are control characters
or lie in 128..255. -/
theorem replShows_width (c : Nat) (data : List Nat) (h0 : 0 ∈ data)
    (hb : ∀ b ∈ data, b < 256) :
    (replShow (c : Int) = 2 ↔ 0 < c ∧ c < 32) ∧ (replShow (c : Int) = 1 ↔ ¬ (0 < c ∧ c < 32)) ∧
    replShows data 0
      = some (((cstr data).map (fun (b : Nat) => replShow (charToInt b))).sum) ∧
    replShows data 0
      = some (((cstr data).length : Int)
          + (((cstr data).filter (fun b => (0 < b ∧ b < 32) ∨ 128 ≤ b)).length : Int)) := by
  have hshow := replShow_byte c
  obtain ⟨t, ht, hs⟩ := cstr_split data h0
  have hrun : replShows data 0
      = some (((cstr data).map (fun (b : Nat) => replShow (charToInt b))).sum) := by
    have := replShowsLoop_spec (cstr data) t hs (data.length + 1) 0 0 (Nat.zero_le _)
      (by have := congrArg List.length ht
          rw [List.length_append, List.length_cons] at this
          omega)
    rw [← ht, List.drop_zero, zero_add] at this
    exact this
  have hcb : ∀ b ∈ cstr data, b < 256 := by
    intro b hbm
    apply hb b
    rw [ht]
    exact List.mem_append_left _ hbm
  refine ⟨?_, ?_, hrun, ?_⟩
  · by_cases h : 0 < c ∧ c < 32
    · rw [hshow, if_pos h]; simp [h]
    · rw [hshow, if_neg h]; simp [h]
  · by_cases h : 0 < c ∧ c < 32
    · rw [hshow, if_pos h]; simp [h]
    · rw [hshow, if_neg h]; simp [h]
  · rw [hrun, sum_replShow _ hcb]

/-- C20 (the code departs from the claim): the byte 233 is not a control character, and
`replShow(233)`, as `defaultCMD` calls it with the key, returns 1.  Read back from the buffer as
a plain `char` it is the negative `int` -23, for which `IS_CTL` holds: `replShows` returns 2 for
the string that holds this one byte, not its length 1 plus its 0 control characters, and 3 for
the string `a`, byte 233. -/
theorem replShows_counts_high_byte_twice :
    replShow 233 = 1 ∧ charToInt 233 = -23 ∧ replShow (charToInt 233) = 2 ∧
    replShows [233, 0] 0 = some 2 ∧
    ([233].length : Int) + (([233].filter (fun b => 0 < b ∧ b < 32)).length : Int) = 1 ∧
    replShows [233, 0] 0
      ≠ some (([233].length : Int) + (([233].filter (fun b => 0 < b ∧ b < 32)).length : Int)) ∧
    replShows [97, 233, 0] 0 = some 3 ∧
    replShows [1, 97, 31, 32, 0] 0 = some 6 :=
  ⟨by decide, by decide, by decide, by decide, by decide, by decide, by decide, by decide⟩

/-! ## Line buffer growth -/

theorem growCapacity_doubling (fuel : Nat) : ∀ (capacity count : Int), 0 < capacity →
    count - capacity ≤ fuel →
    ∃ k : Nat, growCapacity fuel capacity count = some (capacity * 2 ^ k) ∧
      count ≤ capacity * 2 ^ k ∧ ∀ j : Nat, j < k → capacity * 2 ^ j < count := by
  induction fuel with
  | zero =>
    intro capacity count hc hf
    have hle : ¬ count > capacity := by simp at hf; omega
    exact ⟨0, by simp [growCapacity, hle], by simp; omega, fun j hj => absurd hj (by omega)⟩
  | succ fuel ih =>
    intro capacity count hc hf
    by_cases h : count > capacity
    · have hne : capacity ≠ 0 := by omega
      obtain ⟨k, h1, h2, h3⟩ := ih (capacity * 2) count (by omega) (by push_cast at hf; omega)
      refine ⟨k + 1, ?_, ?_, ?_⟩
      · simp only [growCapacity, h, if_true, hne, ne_eq, not_false_eq_true, h1]
        rw [pow_succ]; ring_nf
      · rw [pow_succ]; rw [show capacity * (2 ^ k * 2) = capacity * 2 * 2 ^ k by ring]; exact h2
      · intro j hj
        rcases Nat.eq_zero_or_pos j with rfl | hpos
        · simpa using h
        · obtain ⟨i, rfl⟩ : ∃ i, j = i + 1 := ⟨j - 1, by omega⟩
          have := h3 i (by omega)
          rw [pow_succ, show capacity * (2 ^ i * 2) = capacity * 2 * 2 ^ i by ring]
          exact this
    · exact ⟨0, by simp [growCapacity, h], by simp; omega, fun j hj => absurd hj (by omega)⟩

/-- Growth with `capacity` an unbounded integer: for every line with capacity `c ≥ 0` and
every requested size `n ≥ 0`, `editorEnsureLine` returns; the new capacity `c'` satisfies
`c' ≥ n` and `c' ≥ c`; it
is `c` when `c ≥ n`, and otherwise it is the first value `≥ n` of the doubling sequence
`b, 2b, 4b, …` with `b = c`, or `b = 32` when `c = 0`; the line's `count` is unchanged. -/
theorem editorEnsureLine_capacity (line : EditorLine) (n : Int) (hc : 0 ≤ line.capacity)
    (hn : 0 ≤ n) :
    ∃ line', editorEnsureLine line n = some line' ∧ line'.count = line.count ∧
      n ≤ line'.capacity ∧ line.capacity ≤ line'.capacity ∧
      (n ≤ line.capacity → line'.capacity = line.capacity) ∧
      (line.capacity < n →
        ∃ k : Nat, line'.capacity = (if line.capacity = 0 then 32 else line.capacity) * 2 ^ k ∧
          ∀ j : Nat, j < k → (if line.capacity = 0 then 32 else line.capacity) * 2 ^ j < n) := by
  obtain ⟨cnt, cap, data⟩ := line
  simp only at hc ⊢
  by_cases hgt : cap > n
  · exact ⟨⟨cnt, cap, data⟩, by simp [editorEnsureLine, hgt], rfl, by show n ≤ cap; omega,
      le_refl _, fun _ => rfl, fun h => absurd h (by omega)⟩
  · by_cases heq : cap = n
    · subst heq
      have hg : growCapacity cap.toNat cap cap = some cap := by
        cases cap.toNat <;> simp [growCapacity]
      exact ⟨⟨cnt, cap, realloc data cap⟩, by simp [editorEnsureLine, hg], rfl, le_refl _,
        le_refl _, fun _ => rfl, fun h => absurd h (by omega)⟩
    · have hlt : cap < n := by omega
      by_cases h0 : cap = 0
      · subst h0
        obtain ⟨m, hm⟩ : ∃ m : Nat, n.toNat = m + 1 := ⟨n.toNat - 1, by omega⟩
        obtain ⟨k, h1, h2, h3⟩ := growCapacity_doubling m 32 n (by norm_num) (by omega)
        have hg : growCapacity n.toNat 0 n = some (32 * 2 ^ k) := by
          rw [hm]; simp only [growCapacity, hlt, gt_iff_lt, if_true]; simpa using h1
        have hpos : (0 : Int) ≤ 32 * 2 ^ k := by positivity
        refine ⟨⟨cnt, 32 * 2 ^ k, realloc data (32 * 2 ^ k)⟩, ?_, rfl, h2, hpos,
          fun h => absurd h (by omega), fun _ => ⟨k, by simp, by simpa using h3⟩⟩
        simp [editorEnsureLine, hg, hn]
      · have hpos : 0 < cap := by omega
        obtain ⟨k, h1, h2, h3⟩ := growCapacity_doubling n.toNat cap n hpos (by omega)
        have hge : cap ≤ cap * 2 ^ k := by
          have : (1 : Int) ≤ 2 ^ k := one_le_pow₀ (by norm_num)
          nlinarith
        refine ⟨⟨cnt, cap * 2 ^ k, realloc data (cap * 2 ^ k)⟩, ?_, rfl, h2, hge,
          fun h => absurd h (by omega), fun _ => ⟨k, by simp [h0], by simpa [h0] using h3⟩⟩
        simp [editorEnsureLine, hgt, h1]

/-- Example of `editorEnsureLine_capacity`: a line of capacity 32 asked for 100 cells gets 128;
an empty slot asked for 3 cells gets 32. -/
theorem editorEnsureLine_capacity_witness :
    ((0 : Int) ≤ (⟨5, 32, List.replicate 32 0⟩ : EditorLine).capacity ∧ (0 : Int) ≤ 100) ∧
    (editorEnsureLine ⟨5, 32, List.replicate 32 0⟩ 100).map (fun l => (l.count, l.capacity))
      = some (5, 128) ∧
    (editorEnsureLine emptyLine 3).map (fun l => (l.count, l.capacity)) = some (0, 32) ∧
    ∃ line', editorEnsureLine ⟨5, 32, List.replicate 32 0⟩ 100 = some line' ∧
      line'.count = (⟨5, 32, List.replicate 32 0⟩ : EditorLine).count ∧
      100 ≤ line'.capacity ∧
      (⟨5, 32, List.replicate 32 0⟩ : EditorLine).capacity ≤ line'.capacity ∧
      (100 ≤ (⟨5, 32, List.replicate 32 0⟩ : EditorLine).capacity →
        line'.capacity = (⟨5, 32, List.replicate 32 0⟩ : EditorLine).capacity) ∧
      ((⟨5, 32, List.replicate 32 0⟩ : EditorLine).capacity < 100 →
        ∃ k : Nat, line'.capacity
            = (if (⟨5, 32, List.replicate 32 0⟩ : EditorLine).capacity = 0 then 32
               else (⟨5, 32, List.replicate 32 0⟩ : EditorLine).capacity) * 2 ^ k ∧
          ∀ j : Nat, j < k →
            (if (⟨5, 32, List.replicate 32 0⟩ : EditorLine).capacity = 0 then 32
             else (⟨5, 32, List.replicate 32 0⟩ : EditorLine).capacity) * 2 ^ j < 100) :=
  ⟨⟨by decide, by decide⟩, by decide, by decide,
    editorEnsureLine_capacity ⟨5, 32, List.replicate 32 0⟩ 100 (by decide) (by decide)⟩

/-! ## Horizontal viewport -/

theorem scrollDist_multiple (over : Int) (fuel : Nat) :
    ∀ dist : Int, ∃ j : Nat, scrollDist fuel dist over = dist + 20 * j := by
  induction fuel with
  | zero => intro dist; exact ⟨0, by simp [scrollDist]⟩
  | succ fuel ih =>
    intro dist
    by_cases hlt : dist < over
    · obtain ⟨j, hj⟩ := ih (dist + 20)
      refine ⟨j + 1, ?_⟩
      simp only [scrollDist, hlt, if_true, hj]
      push_cast; ring
    · exact ⟨0, by simp [scrollDist, hlt]⟩

theorem scrollDist_least (over : Int) (hover : 0 < over) :
    ∃ k : Nat, 0 < k ∧ scrollDist over.toNat 0 over = 20 * k ∧ over ≤ 20 * k ∧
      20 * ((k : Int) - 1) < over := by
  obtain ⟨k, hk⟩ := scrollDist_multiple over over.toNat 0
  obtain ⟨h1, h2⟩ := scrollDist_ge over over.toNat 0 (by omega)
  have h3 := h2 hover
  rw [hk] at h1 h3
  rw [zero_add] at hk
  exact ⟨k, by omega, hk, by omega, by omega⟩

/-- C15: for every editor state with `offset.x ≥ 0` and every terminal width, `keepInViewX`
leaves the true byte offset `offset.x + cursor.x`, the lines, `lineCount` and the row
unchanged and keeps `offset.x ≥ 0`; and when `cursor.x` exceeds the right bound
`maxX = width - (promptLength + 2)` it scrolls right by `20 * k`, the least positive multiple
of 20 that brings `cursor.x` to at most `maxX`. -/
theorem keepInViewX_scroll (tcols : Int) (e : Editor) (hoff : 0 ≤ e.offset.x) :
    (keepInViewX tcols e).offset.x + (keepInViewX tcols e).cursor.x
      = e.offset.x + e.cursor.x ∧
    (keepInViewX tcols e).lines = e.lines ∧
    (keepInViewX tcols e).lineCount = e.lineCount ∧
    (keepInViewX tcols e).cursor.y = e.cursor.y ∧
    (keepInViewX tcols e).offset.y = e.offset.y ∧
    0 ≤ (keepInViewX tcols e).offset.x ∧
    (e.cursor.x > tcols - (e.promptLength + 2) →
      ∃ k : Nat, 0 < k ∧
        (keepInViewX tcols e).offset.x = e.offset.x + 20 * k ∧
        (keepInViewX tcols e).cursor.x = e.cursor.x - 20 * k ∧
        e.cursor.x - 20 * k ≤ tcols - (e.promptLength + 2) ∧
        tcols - (e.promptLength + 2) < e.cursor.x - 20 * ((k : Int) - 1)) := by
  obtain ⟨f1, f2, f3, f4, f5, _, _⟩ := keepInViewX_fields tcols e
  refine ⟨f5, f1, f2, f3, f4, ?_, ?_⟩
  · unfold keepInViewX
    dsimp only
    split_ifs with h1 h2
    · obtain ⟨h, _⟩ := scrollDist_ge (e.cursor.x - (tcols - (e.promptLength + 2)))
        (e.cursor.x - (tcols - (e.promptLength + 2))).toNat 0 (by omega)
      show 0 ≤ e.offset.x + scrollDist _ 0 _
      omega
    · show 0 ≤ e.offset.x - min (scrollDist _ 0 _) e.offset.x
      have := min_le_right (scrollDist (2 - e.cursor.x).toNat 0 (2 - e.cursor.x)) e.offset.x
      omega
    · exact hoff
  · intro hgt
    obtain ⟨k, hk0, hk, hle, hlt⟩ :=
      scrollDist_least (e.cursor.x - (tcols - (e.promptLength + 2))) (by omega)
    refine ⟨k, hk0, ?_, ?_, by omega, by omega⟩
    · unfold keepInViewX
      dsimp only
      rw [if_pos hgt]
      show e.offset.x + scrollDist _ 0 _ = _
      rw [hk]
    · unfold keepInViewX
      dsimp only
      rw [if_pos hgt]
      show e.cursor.x - scrollDist _ 0 _ = _
      rw [hk]

/-- Witness of C15: a cursor at column 30 on a 20-column terminal is scrolled by 20. -/
theorem keepInViewX_scroll_witness :
    ((0 : Int) ≤ (⟨⟨30, 0⟩, ⟨0, 0⟩, [], 3, 1, [⟨30, 32, List.replicate 32 97⟩]⟩ : Editor).offset.x) ∧
    ((keepInViewX 20 ⟨⟨30, 0⟩, ⟨0, 0⟩, [], 3, 1, [⟨30, 32, List.replicate 32 97⟩]⟩).cursor
        = ⟨10, 0⟩ ∧
      (keepInViewX 20 ⟨⟨30, 0⟩, ⟨0, 0⟩, [], 3, 1, [⟨30, 32, List.replicate 32 97⟩]⟩).offset
        = ⟨20, 0⟩) ∧
    (keepInViewX 20 ⟨⟨30, 0⟩, ⟨0, 0⟩, [], 3, 1, [⟨30, 32, List.replicate 32 97⟩]⟩).lines
      = [⟨30, 32, List.replicate 32 97⟩] :=
  ⟨by decide, by decide,
    (keepInViewX_scroll 20 ⟨⟨30, 0⟩, ⟨0, 0⟩, [], 3, 1, [⟨30, 32, List.replicate 32 97⟩]⟩
      (by decide)).2.1⟩

/-- C14 as amended: when `tcols()` yields the sentinel `-1` the viewport logic uses it as the
width, with no fallback: for every prompt length `n` (so `promptLength = n + 3`) and every
state with `cursor.x ≥ 0` and `offset.x ≥ 0`, `keepInViewX` takes the right bound
`maxX = -1 - (promptLength + 2) < 0` and scrolls right by a positive multiple of 20; the true
byte offset `offset.x + cursor.x` is unchanged, `offset.x ≥ 20` and `cursor.x ≤ maxX < 0`. -/
theorem keepInViewX_sentinel_width (n : Nat) (e : Editor) (hp : e.promptLength = (n : Int) + 3)
    (hcur : 0 ≤ e.cursor.x) (hoff : 0 ≤ e.offset.x) :
    keepInViewX (-1) e = scrollRight e (e.cursor.x - (-1 - (e.promptLength + 2))) ∧
    (keepInViewX (-1) e).offset.x + (keepInViewX (-1) e).cursor.x = e.offset.x + e.cursor.x ∧
    20 ≤ (keepInViewX (-1) e).offset.x ∧
    (keepInViewX (-1) e).cursor.x ≤ -1 - (e.promptLength + 2) ∧
    (keepInViewX (-1) e).cursor.x < 0 := by
  have hgt : e.cursor.x > -1 - (e.promptLength + 2) := by omega
  obtain ⟨h1, _, _, _, _, _, h7⟩ := keepInViewX_scroll (-1) e hoff
  obtain ⟨k, hk0, ho, hc, hle, _⟩ := h7 hgt
  refine ⟨?_, h1, by rw [ho]; omega, by rw [hc]; exact hle, by rw [hc]; omega⟩
  unfold keepInViewX
  dsimp only
  rw [if_pos hgt]

/-- Witness of C14 as amended: a fresh editor with an empty prompt. -/
theorem keepInViewX_sentinel_width_witness :
    ((termEditorInit 1 []).promptLength = ((0 : Nat) : Int) + 3 ∧
      0 ≤ (termEditorInit 1 []).cursor.x ∧ 0 ≤ (termEditorInit 1 []).offset.x) ∧
    (keepInViewX (-1) (termEditorInit 1 [])
        = scrollRight (termEditorInit 1 [])
            ((termEditorInit 1 []).cursor.x - (-1 - ((termEditorInit 1 []).promptLength + 2))) ∧
      (keepInViewX (-1) (termEditorInit 1 [])).offset.x
          + (keepInViewX (-1) (termEditorInit 1 [])).cursor.x
        = (termEditorInit 1 []).offset.x + (termEditorInit 1 []).cursor.x ∧
      20 ≤ (keepInViewX (-1) (termEditorInit 1 [])).offset.x ∧
      (keepInViewX (-1) (termEditorInit 1 [])).cursor.x
        ≤ -1 - ((termEditorInit 1 []).promptLength + 2) ∧
      (keepInViewX (-1) (termEditorInit 1 [])).cursor.x < 0) :=
  ⟨⟨by decide, by decide, by decide⟩,
    keepInViewX_sentinel_width 0 (termEditorInit 1 []) (by decide) (by decide) (by decide)⟩

/-- Counterexample to C14 as stated: in a fresh editor (`cursor.x = 0`, `offset.x = 0`, empty
prompt) on a terminal whose width query yields `-1`, `keepInViewX` scrolls against the bound
`-6` and leaves `cursor.x = -20`. -/
theorem keepInViewX_negative_cursor :
    (termEditorInit 1 []).cursor.x = 0 ∧ (termEditorInit 1 []).offset.x = 0 ∧
    (keepInViewX (-1) (termEditorInit 1 [])).cursor.x = -20 ∧
    ¬ (0 ≤ (keepInViewX (-1) (termEditorInit 1 [])).cursor.x) :=
  ⟨by decide, by decide, by decide, by decide⟩

/-! ## Erasing a byte with backspace -/

theorem erase_cells (s rest : List Nat) (x : Nat) (hx0 : 0 < x) (hx : x ≤ s.length)
    (hrest : 0 < rest.length) :
    ∃ z, memmove (s ++ rest) ((x : Int) - 1) x ((s.length : Int) - x)
        = some (s.take (x - 1) ++ (s.drop x ++ z :: rest)) ∧
      setAt (s.take (x - 1) ++ (s.drop x ++ z :: rest)) ((s.length : Int) - 1) 0
        = some (s.take (x - 1) ++ (s.drop x ++ 0 :: rest)) := by
  obtain ⟨z, tl, hz⟩ : ∃ z tl, (s ++ rest).drop (s.length - 1) = z :: tl := by
    have : 0 < ((s ++ rest).drop (s.length - 1)).length := by
      rw [List.length_drop, List.length_append]; omega
    match hq : (s ++ rest).drop (s.length - 1), this with
    | z :: tl, _ => exact ⟨z, tl, rfl⟩
  have htl : tl = rest := by
    have h1 : ((s ++ rest).drop (s.length - 1)).drop 1 = tl := by rw [hz]; rfl
    rw [List.drop_drop, show s.length - 1 + 1 = s.length by omega, List.drop_left' rfl] at h1
    exact h1.symm
  subst htl
  have ha : (s ++ tl).take (x - 1) = s.take (x - 1) :=
    List.take_append_of_le_length (by omega)
  have hb : ((s ++ tl).drop x).take (s.length - x) = s.drop x := by
    rw [List.drop_append_of_le_length hx]
    exact List.take_left' (by rw [List.length_drop])
  have hlen2 : (s.take (x - 1) ++ s.drop x).length = s.length - 1 := by
    rw [List.length_append, List.length_take, List.length_drop]; omega
  refine ⟨z, ?_, ?_⟩
  · rw [memmove, show (x : Int) - 1 = ((x - 1 : Nat) : Int) by omega,
      show (s.length : Int) - x = ((s.length - x : Nat) : Int) by omega,
      memcpy_natCast _ _ _ _ _ (by rw [List.length_append]; omega)
        (by rw [List.length_append]; omega),
      show x - 1 + (s.length - x) = s.length - 1 by omega, hz, ha, hb]
  · rw [show (s.length : Int) - 1 = ((s.length - 1 : Nat) : Int) by omega, setAt_natCast,
      ← List.append_assoc, ← List.append_assoc,
      if_pos (by rw [List.length_append, hlen2, List.length_cons]; omega),
      List.set_append_right _ _ (by rw [hlen2]), hlen2, Nat.sub_self, List.set_cons_zero]

theorem editorBackspace_erase_spec (e : Editor) (l : EditorLine)
    (hl : getAt e.lines (e.offset.y + e.cursor.y) = some l) (hv : l.valid)
    (x : Nat) (hx : e.offset.x + e.cursor.x = x) (hx0 : 0 < x) (hxc : (x : Int) ≤ l.count) :
    ∃ l', editorBackspace e
        = some { e with lines := e.lines.set (e.offset.y + e.cursor.y).toNat l',
                        cursor := { e.cursor with x := e.cursor.x - 1 } } ∧
      l'.valid ∧ l'.count = l.count - 1 ∧ l'.capacity = l.capacity ∧
      l'.content = l.content.take (x - 1) ++ l.content.drop x := by
  obtain ⟨n, rest, hn, hlen, hdata, hcap⟩ := l.valid_split hv
  have hxn : x ≤ n := by omega
  have hrest : 0 < rest.length := by
    rcases hv.2.2 with h | ⟨_, h⟩
    · have : (n : Int) < ((n + rest.length : Nat) : Int) := by rw [hcap, ← hn]; exact h
      omega
    · omega
  obtain ⟨z, hmove, hset⟩ := erase_cells l.content rest x hx0 (by omega) hrest
  rw [hlen, ← hdata] at hmove
  rw [hlen] at hset
  have hxpos : e.offset.x + e.cursor.x > 0 := by omega
  refine ⟨⟨l.count - 1, l.capacity, l.content.take (x - 1) ++ (l.content.drop x ++ 0 :: rest)⟩,
    ?_, ?_, rfl, rfl, ?_⟩
  · have hxpos' : (x : Int) > 0 := by omega
    simp only [editorBackspace, hl, Option.bind_eq_bind, Option.some_bind, hx, hxpos', if_true,
      hn, hmove, hset, setAt_of_getAt _ _ _ _ hl]
  · refine ⟨by show 0 ≤ l.count - 1; omega, ?_, Or.inl (by show l.count - 1 < l.capacity; omega)⟩
    show ((l.content.take (x - 1) ++ (l.content.drop x ++ 0 :: rest)).length : Int) = l.capacity
    simp only [List.length_append, List.length_take, List.length_drop, List.length_cons, hlen]
    omega
  · rw [EditorLine.content]
    dsimp only
    rw [show (l.count - 1).toNat = (l.content.take (x - 1) ++ l.content.drop x).length by
        simp only [List.length_append, List.length_take, List.length_drop, hlen]; omega,
      ← List.append_assoc]
    exact List.take_left' rfl

/-- Erasing a byte when the rows have blocks of their own (the by-value embedding): in a valid
editor whose current line holds `s` and whose cursor is at true byte offset `x` with
`0 < x ≤ |s|`, `editorBackspace` succeeds; the current line then holds
`s[0..x-1) ++ s[x..|s|)` with length `|s| - 1`, the cursor column is one less, and every other
line, `lineCount`, the row and the scroll offset are unchanged.  When the true offset is 0 on
row 0 it returns the editor unchanged. -/
theorem editorBackspace_erases_byte (maxLines : Nat) (e : Editor) (hv : e.valid maxLines)
    (line : EditorLine) (hl : getAt e.lines (e.offset.y + e.cursor.y) = some line) :
    (∀ x : Nat, e.offset.x + e.cursor.x = x → 0 < x → x ≤ line.content.length →
      ∃ e' l', editorBackspace e = some e' ∧
        getAt e'.lines (e.offset.y + e.cursor.y) = some l' ∧
        l'.content = line.content.take (x - 1) ++ line.content.drop x ∧
        l'.count = (line.content.length : Int) - 1 ∧
        e'.cursor.x = e.cursor.x - 1 ∧ e'.cursor.y = e.cursor.y ∧ e'.offset = e.offset ∧
        e'.lineCount = e.lineCount ∧
        (∀ i : Int, i ≠ e.offset.y + e.cursor.y → getAt e'.lines i = getAt e.lines i)) ∧
    (e.offset.x + e.cursor.x = 0 → e.offset.y + e.cursor.y = 0 → editorBackspace e = some e) := by
  obtain ⟨Y, hY, hlY⟩ := (getAt_some_iff _ _ _).1 hl
  have hvl : line.valid := hv.2.2.2.2.2 line (List.getElem?_mem hlY)
  obtain ⟨n, _, hn, hlen, _, _⟩ := line.valid_split hvl
  have hYlt : Y < e.lines.length := by
    by_contra hc
    rw [List.getElem?_eq_none (by omega)] at hlY
    cases hlY
  constructor
  · intro x hx hx0 hxc
    obtain ⟨l', hrun, _, hcount, _, hcont⟩ := editorBackspace_erase_spec e line hl hvl x hx hx0
      (by omega)
    refine ⟨_, l', hrun, ?_, hcont, by rw [hcount, hlen, hn], rfl, rfl, rfl, rfl, ?_⟩
    · show getAt (e.lines.set (e.offset.y + e.cursor.y).toNat l') _ = _
      rw [hY, getAt_natCast, Int.toNat_ofNat, List.getElem?_set, if_pos rfl, if_pos hYlt]
    · intro i hi
      show getAt (e.lines.set (e.offset.y + e.cursor.y).toNat l') i = _
      by_cases h0 : 0 ≤ i
      · obtain ⟨j, rfl⟩ : ∃ j : Nat, i = j := ⟨i.toNat, by omega⟩
        rw [hY, getAt_natCast, getAt_natCast, Int.toNat_ofNat, List.getElem?_set,
          if_neg (by omega)]
      · simp only [getAt, h0, if_false]
  · intro hx hy
    have h1 : ¬ (e.offset.x + e.cursor.x > 0) := by omega
    simp only [editorBackspace, h1, if_false, hy, if_true]

/-- Example of `editorBackspace_erases_byte`: backspace at true offset 2 of `hello` leaves
`hllo`; backspace at the start of a fresh editor changes nothing. -/
theorem editorBackspace_erases_byte_witness :
    (Editor.valid 2 helloOnly ∧
      getAt helloOnly.lines (helloOnly.offset.y + helloOnly.cursor.y)
        = some ⟨5, 6, [104, 101, 108, 108, 111, 0]⟩) ∧
    (editorBackspace helloOnly).map
        (fun e' => (e'.lines.map EditorLine.content, e'.cursor, e'.lineCount))
      = some ([[104, 108, 108, 111], []], ⟨1, 0⟩, 1) ∧
    editorBackspace (termEditorInit 2 []) = some (termEditorInit 2 []) ∧
    (∃ e' l', editorBackspace helloOnly = some e' ∧
        getAt e'.lines (helloOnly.offset.y + helloOnly.cursor.y) = some l' ∧
        l'.content = (EditorLine.content ⟨5, 6, [104, 101, 108, 108, 111, 0]⟩).take (2 - 1)
          ++ (EditorLine.content ⟨5, 6, [104, 101, 108, 108, 111, 0]⟩).drop 2 ∧
        l'.count = ((EditorLine.content ⟨5, 6, [104, 101, 108, 108, 111, 0]⟩).length : Int) - 1 ∧
        e'.cursor.x = helloOnly.cursor.x - 1 ∧ e'.cursor.y = helloOnly.cursor.y ∧
        e'.offset = helloOnly.offset ∧ e'.lineCount = helloOnly.lineCount ∧
        (∀ i : Int, i ≠ helloOnly.offset.y + helloOnly.cursor.y →
          getAt e'.lines i = getAt helloOnly.lines i)) :=
  ⟨⟨by decide, by decide⟩, by decide, by decide,
    (editorBackspace_erases_byte 2 helloOnly (by decide) ⟨5, 6, [104, 101, 108, 108, 111, 0]⟩
      (by decide)).1 2 (by decide) (by decide) (by decide)⟩

/-! ## Insert then erase, and vertical moves -/

theorem editorInsert_editorBackspace_restores (e : Editor) (c : Nat) (l : EditorLine)
    (hl : getAt e.lines (e.offset.y + e.cursor.y) = some l) (hv : l.valid)
    (x : Nat) (hx : e.offset.x + e.cursor.x = x) (hxc : (x : Int) ≤ l.count)
    (hskip : e.cursor.x + 1 ≠ l.count ∨ (x : Int) = l.count) :
    ∃ e1 e2 l2, editorInsert e c = some e1 ∧ editorBackspace e1 = some e2 ∧
      getAt e2.lines (e.offset.y + e.cursor.y) = some l2 ∧ l2.content = l.content ∧
      l2.count = l.count ∧ e2.cursor = e.cursor ∧ e2.offset = e.offset ∧
      e2.lineCount = e.lineCount := by
  obtain ⟨Y, hY, hlY⟩ := (getAt_some_iff _ _ _).1 hl
  have hYlt : Y < e.lines.length := by
    by_contra hc
    rw [List.getElem?_eq_none (by omega)] at hlY
    cases hlY
  obtain ⟨n, _, hn, hlen, _, _⟩ := l.valid_split hv
  obtain ⟨l1, hins, hv1, hc1, hcont1⟩ := editorInsert_spec e c l hl hv x hx hxc hskip
  have hl1 : getAt (e.lines.set (e.offset.y + e.cursor.y).toNat l1) (e.offset.y + e.cursor.y)
      = some l1 := by
    rw [hY, getAt_natCast, Int.toNat_ofNat, List.getElem?_set, if_pos rfl, if_pos hYlt]
  obtain ⟨l2, hbs, _, hc2, _, hcont2⟩ := editorBackspace_erase_spec
    { e with cursor := { e.cursor with x := e.cursor.x + 1 },
             lines := e.lines.set (e.offset.y + e.cursor.y).toNat l1 }
    l1 hl1 hv1 (x + 1) (by show e.offset.x + (e.cursor.x + 1) = _; push_cast; omega)
    (by omega) (by rw [hc1]; push_cast; omega)
  refine ⟨_, _, l2, hins, hbs, ?_, ?_, by rw [hc2, hc1]; ring, ?_, rfl, rfl⟩
  · show getAt ((e.lines.set (e.offset.y + e.cursor.y).toNat l1).set
      (e.offset.y + e.cursor.y).toNat l2) _ = _
    rw [hY, getAt_natCast, Int.toNat_ofNat, List.getElem?_set, if_pos rfl,
      if_pos (by rw [List.length_set]; exact hYlt)]
  · have hxn : x ≤ l.content.length := by omega
    rw [hcont2, hcont1, Nat.add_sub_cancel,
      List.take_append_of_le_length (by rw [List.length_take]; omega),
      List.take_of_length_le (by rw [List.length_take]; omega),
      show x + 1 = (l.content.take x).length + 1 by rw [List.length_take]; omega,
      List.drop_append_eq_append_drop,
      List.drop_of_length_le (by omega)]
    simp
  · show ({ x := e.cursor.x + 1 - 1, y := e.cursor.y } : Coords) = e.cursor
    rw [add_sub_cancel_right]

/-- C13 (the code departs from the claim): after typing `ab` and moving the cursor left once
(line `ab`, true offset 1), `editorInsert` of `X` followed at once by `editorBackspace` leaves
the line holding `a`, `'\0'` instead of `ab`: the insert overwrote `b` without shifting it,
and the erase then removes `X` only.  The length (2) and the cursor (true offset 1) are
restored. -/
theorem editorInsert_editorBackspace_before_last_byte :
    ∃ e, (typeKeys 2 (termEditorInit 2 []) [(97, 80), (98, 80)]).map termEditorLeft = some e ∧
      e.valid 2 ∧ e.offset.x + e.cursor.x = 1 ∧ e.offset.y + e.cursor.y = 0 ∧
      e.lines.map EditorLine.content = [[97, 98], []] ∧
      ((editorInsert e 88).bind editorBackspace).map
          (fun e' => (e'.lines.map EditorLine.content, e'.lines.map (fun l => l.count),
            e'.offset.x + e'.cursor.x))
        = some ([[97, 0], []], [2, 0], 1) ∧
      ((editorInsert e 88).bind editorBackspace).map (fun e' => e'.lines.map EditorLine.content)
        ≠ some [[97, 98], []] :=
  ⟨_, rfl, by decide, by decide, by decide, by decide, by decide, by decide⟩

/-- C12 (the code departs from the claim): on a 20-column terminal, typing `a`, newline and
sixteen `b` scrolls the second line (`offset.x = 20`, `cursor.x = -4`, true offset 16, inside
the line of 16 bytes).  `termEditorUp` compares `cursor.x`, not `offset.x + cursor.x`, with the
length 1 of the line above and does not clamp: the cursor is left on row 0 at true offset 16,
beyond that line's length; the same holds after the `keepInViewX` that follows the key. -/
theorem termEditorUp_ignores_scroll_offset :
    ∃ e, typeKeys 2 (termEditorInit 2 [])
          ([(97, 20), (10, 20)] ++ List.replicate 16 (98, 20)) = some e ∧
      e.valid 2 ∧ e.offset = ⟨20, 0⟩ ∧ e.cursor = ⟨-4, 1⟩ ∧
      e.lines.map (fun l => l.count) = [1, 16] ∧
      (termEditorUp e).map (fun e' => (e'.cursor, e'.offset, e'.offset.x + e'.cursor.x))
        = some (⟨-4, 0⟩, ⟨20, 0⟩, 16) ∧
      (termEditorUpdate 2 20 e [27, 91, 65]).map
          (fun r => (r.1.cursor, r.1.offset, r.1.offset.x + r.1.cursor.x))
        = some (⟨16, 0⟩, ⟨0, 0⟩, 16) ∧
      ¬ ((16 : Int) ≤ 1) :=
  ⟨_, rfl, by decide, by decide, by decide, by decide, by decide, by decide, by decide⟩

/-! ## Line buffer invariant over reachable states -/

theorem valid_set_line (maxLines : Nat) (e : Editor) (hv : e.valid maxLines) (i : Nat)
    (l' : EditorLine) (hl' : l'.valid) (cx : Int) :
    Editor.valid maxLines
      { e with lines := e.lines.set i l', cursor := { e.cursor with x := cx } } := by
  obtain ⟨hlen, h1, hmax, hy0, hylt, hlines⟩ := hv
  refine ⟨by show (e.lines.set i l').length = _; rw [List.length_set]; exact hlen, h1, hmax,
    hy0, hylt, ?_⟩
  intro l hmem
  rcases List.mem_or_eq_of_mem_set hmem with h | h
  · exact hlines l h
  · rw [h]; exact hl'

theorem editorInsert_valid (maxLines : Nat) (e : Editor) (hv : e.valid maxLines) (c : Nat)
    (l : EditorLine) (hl : getAt e.lines (e.offset.y + e.cursor.y) = some l)
    (h0 : 0 ≤ e.offset.x + e.cursor.x) (hxc : e.offset.x + e.cursor.x ≤ l.count) :
    ∃ e', editorInsert e c = some e' ∧ e'.valid maxLines := by
  obtain ⟨Y, hY, hlY⟩ := (getAt_some_iff _ _ _).1 hl
  have hvl : l.valid := hv.2.2.2.2.2 l (List.getElem?_mem hlY)
  obtain ⟨x, hx⟩ : ∃ x : Nat, e.offset.x + e.cursor.x = x :=
    ⟨(e.offset.x + e.cursor.x).toNat, by omega⟩
  by_cases hskip : e.cursor.x + 1 ≠ l.count ∨ (x : Int) = l.count
  · obtain ⟨l', hins, hv', _, _⟩ := editorInsert_spec e c l hl hvl x hx (by omega) hskip
    exact ⟨_, hins, by
      have := valid_set_line maxLines e hv (e.offset.y + e.cursor.y).toNat l' hv'
        (e.cursor.x + 1)
      exact this⟩
  · have hcond : ¬ (e.cursor.x + 1 ≠ l.count) := fun h => hskip (Or.inl h)
    obtain ⟨n, rest, hn, hlen, hdata, hcap⟩ := l.valid_split hvl
    obtain ⟨k, hens, hk⟩ := editorEnsureLine_spec l (l.count + 2) hvl.2.1
    have hDlen : (l.data ++ List.replicate k 0).length = n + rest.length + k := by
      rw [hdata]; simp only [List.length_append, List.length_replicate, hlen]
    have hxlt : x < (l.data ++ List.replicate k 0).length := by omega
    have hnlt : n + 1 < ((l.data ++ List.replicate k 0).set x c).length := by
      rw [List.length_set]; omega
    refine ⟨{ e with cursor := { e.cursor with x := e.cursor.x + 1 },
                     lines := e.lines.set (e.offset.y + e.cursor.y).toNat
                       ⟨l.count + 1, l.capacity + k,
                        ((l.data ++ List.replicate k 0).set x c).set (n + 1) 0⟩ }, ?_, ?_⟩
    · simp only [editorInsert, hl, Option.bind_eq_bind, Option.some_bind, hens, hx]
      rw [if_neg hcond, Option.some_bind,
        show l.count + 1 = ((n + 1 : Nat) : Int) by omega, setAt_natCast, if_pos hxlt,
        Option.some_bind, setAt_natCast, if_pos hnlt, Option.some_bind,
        setAt_of_getAt _ _ _ _ hl]
      rfl
    · have := valid_set_line maxLines e hv (e.offset.y + e.cursor.y).toNat
        ⟨l.count + 1, l.capacity + k, ((l.data ++ List.replicate k 0).set x c).set (n + 1) 0⟩
        ⟨by show 0 ≤ l.count + 1; omega,
         by show ((((l.data ++ List.replicate k 0).set x c).set (n + 1) 0).length : Int)
              = l.capacity + k
            rw [List.length_set, List.length_set, hDlen]; omega,
         Or.inl (by show l.count + 1 < l.capacity + k; omega)⟩
        (e.cursor.x + 1)
      exact this

theorem editorBackspace_valid (maxLines : Nat) (e : Editor) (hv : e.valid maxLines)
    (l : EditorLine) (hl : getAt e.lines (e.offset.y + e.cursor.y) = some l)
    (h0 : 0 ≤ e.offset.x + e.cursor.x) (hxc : e.offset.x + e.cursor.x ≤ l.count) :
    ∃ e', editorBackspace e = some e' ∧ e'.valid maxLines := by
  obtain ⟨Y, hY, hlY⟩ := (getAt_some_iff _ _ _).1 hl
  have hvl : l.valid := hv.2.2.2.2.2 l (List.getElem?_mem hlY)
  obtain ⟨x, hx⟩ : ∃ x : Nat, e.offset.x + e.cursor.x = x :=
    ⟨(e.offset.x + e.cursor.x).toNat, by omega⟩
  rcases Nat.eq_zero_or_pos x with hx0 | hxpos
  · subst hx0
    rcases Nat.eq_zero_or_pos Y with hY0 | hYpos
    · subst hY0
      have h1 : ¬ (e.offset.x + e.cursor.x > 0) := by omega
      exact ⟨e, by simp only [editorBackspace, h1, if_false, hY, Nat.cast_zero, if_true], hv⟩
    · obtain ⟨Z, rfl⟩ : ∃ Z, Y = Z + 1 := ⟨Y - 1, by omega⟩
      have hZlt : Z < e.lines.length := by
        by_contra hc
        rw [List.getElem?_eq_none (by omega)] at hlY
        cases hlY
      obtain ⟨e', m, hrun, hmv, _, _, hlen', hget, hlc, hcur, hoff, _, _⟩ :=
        editorBackspace_merge maxLines e hv Z (by omega) hY e.lines[Z] l
          (List.getElem?_eq_getElem hZlt) hlY
      obtain ⟨hlen, h1, hmax, hy0, hylt, hlines⟩ := hv
      refine ⟨e', hrun, by rw [hlen', hlen], by rw [hlc]; omega, by rw [hlc]; omega,
        by rw [hoff, hcur]; simp only; omega, by rw [hoff, hcur, hlc]; simp only; omega, ?_⟩
      intro l' hmem
      obtain ⟨j, hj⟩ := List.mem_iff_getElem?.1 hmem
      rw [hget j] at hj
      split_ifs at hj
      · cases hj; decide
      · cases hj; exact hmv
      · exact hlines l' (List.getElem?_mem hj)
  · obtain ⟨l', hrun, hv', _, _, _⟩ := editorBackspace_erase_spec e l hl hvl x hx hxpos
      (by omega)
    exact ⟨_, hrun, by
      have := valid_set_line maxLines e hv (e.offset.y + e.cursor.y).toNat l' hv'
        (e.cursor.x - 1)
      exact this⟩

theorem editReachable_valid (maxLines : Nat) (hmax : 1 ≤ maxLines) (prompt : List Nat)
    (e : Editor) (h : EditReachable maxLines prompt e) : e.valid maxLines := by
  induction h with
  | init =>
    refine ⟨by simp [termEditorInit], le_refl _, by show (1 : Int) ≤ maxLines; omega,
      le_refl _, by show (0 : Int) + 0 < 1; omega, ?_⟩
    intro l hl
    rw [List.eq_of_mem_replicate hl]
    decide
  | insert e e' c line _ hl h0 hxc hrun ih =>
    obtain ⟨e'', hrun', hv'⟩ := editorInsert_valid maxLines e ih c line hl h0 hxc
    rw [hrun] at hrun'
    cases hrun'
    exact hv'
  | backspace e e' line _ hl h0 hxc hrun ih =>
    obtain ⟨e'', hrun', hv'⟩ := editorBackspace_valid maxLines e ih line hl h0 hxc
    rw [hrun] at hrun'
    cases hrun'
    exact hv'
  | newline e e' line _ hl h0 hxc hrun ih =>
    obtain ⟨Y, hY, hlY⟩ := (getAt_some_iff _ _ _).1 hl
    obtain ⟨x, hx⟩ : ∃ x : Nat, e.offset.x + e.cursor.x = x :=
      ⟨(e.offset.x + e.cursor.x).toNat, by omega⟩
    have hroom : e.lineCount < (maxLines : Int) := by
      by_contra hc
      simp only [editorNewline, hc, not_false_eq_true, if_true] at hrun
      cases hrun
    obtain ⟨e'', _, _, hrun', _, _, _, _, _, _, _, _, _, _, _, _, _, hv'⟩ :=
      editorNewline_spec maxLines e ih hroom x Y hx hY line hlY (by omega)
    rw [hrun] at hrun'
    cases hrun'
    exact hv'

/-- C18: in every editor state reached from `termEditorInit` by `editorInsert`,
`editorBackspace` and `editorNewline`, each applied with the cursor's true offset inside the
current line, every line satisfies `count ≤ capacity`; moreover its block has `capacity` cells
and `count < capacity` whenever `capacity > 0`, so the terminator index `count` is inside the
block. -/
theorem reachable_lines_count_le_capacity (maxLines : Nat) (hmax : 1 ≤ maxLines)
    (prompt : List Nat) (e : Editor) (h : EditReachable maxLines prompt e) :
    ∀ l ∈ e.lines, l.count ≤ l.capacity ∧ 0 ≤ l.count ∧
      (l.data.length : Int) = l.capacity ∧ (0 < l.capacity → l.count < l.capacity) := by
  intro l hl
  obtain ⟨h0, hlen, hcap⟩ := (editReachable_valid maxLines hmax prompt e h).2.2.2.2.2 l hl
  refine ⟨by omega, h0, hlen, fun hpos => by omega⟩

/-- Witness of C18: the state reached from a fresh two-slot editor by inserting `a`. -/
theorem reachable_lines_count_le_capacity_witness :
    (1 ≤ 2 ∧ EditReachable 2 [] typedA) ∧
    ∀ l ∈ typedA.lines, l.count ≤ l.capacity ∧ 0 ≤ l.count ∧
      (l.data.length : Int) = l.capacity ∧ (0 < l.capacity → l.count < l.capacity) :=
  have hreach : EditReachable 2 [] typedA :=
    EditReachable.insert (termEditorInit 2 []) typedA 97 emptyLine EditReachable.init
      (by decide) (by decide) (by decide) (by decide)
  ⟨⟨by decide, hreach⟩, reachable_lines_count_le_capacity 2 (by decide) [] typedA hreach⟩

/-! ## Row invariant -/

theorem setAt_length {α : Type} (xs ys : List α) (i : Int) (v : α)
    (h : setAt xs i v = some ys) : ys.length = xs.length := by
  unfold setAt at h
  split_ifs at h
  cases h
  rw [List.length_set]

theorem backspaceShift_length (n : Nat) : ∀ (i : Int) (ls r : List EditorLine),
    backspaceShift n i ls = some r → r.length = ls.length := by
  induction n with
  | zero => intro i ls r h; simp only [backspaceShift] at h; cases h; rfl
  | succ n ih =>
    intro i ls r h
    simp only [backspaceShift, Option.bind_eq_bind, Option.bind_eq_some] at h
    obtain ⟨src, _, ls', hset, hrec⟩ := h
    rw [ih _ _ _ hrec, setAt_length _ _ _ _ hset]

theorem newlineShift_length (n : Nat) : ∀ (i : Int) (ls r : List EditorLine),
    newlineShift n i ls = some r → r.length = ls.length := by
  induction n with
  | zero => intro i ls r h; simp only [newlineShift] at h; cases h; rfl
  | succ n ih =>
    intro i ls r h
    simp only [newlineShift, Option.bind_eq_bind, Option.bind_eq_some] at h
    obtain ⟨src, _, ls', hset, hrec⟩ := h
    rw [ih _ _ _ hrec, setAt_length _ _ _ _ hset]

theorem editorInitLine_fields (e e' : Editor) (i : Int) (h : editorInitLine e i = some e') :
    e'.lineCount = e.lineCount ∧ e'.cursor = e.cursor ∧ e'.offset = e.offset ∧
      e'.lines.length = e.lines.length := by
  simp only [editorInitLine, Option.bind_eq_bind, Option.bind_eq_some] at h
  obtain ⟨ls, hls, he⟩ := h
  cases he
  exact ⟨rfl, rfl, rfl, setAt_length _ _ _ _ hls⟩

theorem editorDeinitLine_fields (e e' : Editor) (i : Int) (h : editorDeinitLine e i = some e') :
    e'.lineCount = e.lineCount ∧ e'.cursor = e.cursor ∧ e'.offset = e.offset ∧
      e'.lines.length = e.lines.length := by
  simp only [editorDeinitLine, Option.bind_eq_bind, Option.bind_eq_some] at h
  obtain ⟨_, _, he⟩ := h
  exact editorInitLine_fields e e' i he

theorem editorInsert_fields (e e' : Editor) (c : Nat) (h : editorInsert e c = some e') :
    e'.lineCount = e.lineCount ∧ e'.cursor.y = e.cursor.y ∧ e'.offset = e.offset ∧
      e'.lines.length = e.lines.length := by
  simp only [editorInsert, Option.bind_eq_bind, Option.bind_eq_some] at h
  obtain ⟨line, _, line2, _, data, _, d1, _, d2, _, ls, hls, he⟩ := h
  cases he
  exact ⟨rfl, rfl, rfl, setAt_length _ _ _ _ hls⟩

theorem editorBackspace_fields (e e' : Editor) (h : editorBackspace e = some e') :
    e'.offset = e.offset ∧ e'.lines.length = e.lines.length ∧
    ((e'.lineCount = e.lineCount ∧ e'.cursor.y = e.cursor.y) ∨
      (e.offset.y + e.cursor.y ≠ 0 ∧ e'.lineCount = e.lineCount - 1 ∧
        e'.cursor.y = e.cursor.y - 1)) := by
  by_cases hx : e.offset.x + e.cursor.x > 0
  · simp only [editorBackspace, hx, if_true, Option.bind_eq_bind, Option.bind_eq_some] at h
    obtain ⟨line, _, data, _, d1, _, ls, hls, he⟩ := h
    cases he
    exact ⟨rfl, setAt_length _ _ _ _ hls, Or.inl ⟨rfl, rfl⟩⟩
  by_cases hy : e.offset.y + e.cursor.y = 0
  · simp only [editorBackspace, hx, if_false, hy, if_true] at h
    cases h
    exact ⟨rfl, rfl, Or.inl ⟨rfl, rfl⟩⟩
  · simp only [editorBackspace, hx, hy, if_false, Option.bind_eq_bind, Option.bind_eq_some] at h
    obtain ⟨line, _, above, _, above', _, data, _, d1, _, ls, hls, e1, he1, ls2, hls2, e2, he2,
      he⟩ := h
    cases he
    obtain ⟨f1, f2, f3, f4⟩ := editorDeinitLine_fields _ _ _ he1
    obtain ⟨g1, g2, g3, g4⟩ := editorInitLine_fields _ _ _ he2
    have hlen := setAt_length _ _ _ _ hls
    have hlen2 := backspaceShift_length _ _ _ _ hls2
    refine ⟨?_, ?_, Or.inr ⟨hy, ?_, ?_⟩⟩
    · show e2.offset = e.offset
      rw [g3]; exact f3
    · show e2.lines.length = e.lines.length
      rw [g4]; show ls2.length = _
      rw [hlen2, f4]; exact hlen
    · show e2.lineCount = e.lineCount - 1
      rw [g1]; show e1.lineCount - 1 = _
      rw [f1]
    · show e2.cursor.y - 1 = e.cursor.y - 1
      rw [g2]; show e1.cursor.y - 1 = _
      rw [f2]

theorem editorNewline_fields (maxLines : Nat) (e e' : Editor)
    (h : editorNewline maxLines e = some e') :
    e.lineCount < (maxLines : Int) ∧ e'.offset.y = e.offset.y ∧
      e'.lines.length = e.lines.length ∧ e'.lineCount = e.lineCount + 1 ∧
      e'.cursor.y = e.cursor.y + 1 := by
  by_cases hroom : e.lineCount < (maxLines : Int)
  swap
  · simp only [editorNewline, hroom, not_false_eq_true, if_true] at h
    cases h
  simp only [editorNewline, hroom, not_true_eq_false, if_false, Option.bind_eq_bind,
    Option.bind_eq_some] at h
  obtain ⟨e1, he1, ls, hls, e2, he2, cur, _, new, _, new', _, ls3, hls3, d, _, ls4, hls4, he⟩ := h
  cases he
  obtain ⟨f1, f2, f3, f4⟩ := editorDeinitLine_fields _ _ _ he1
  obtain ⟨g1, g2, g3, g4⟩ := editorInitLine_fields _ _ _ he2
  have hlen := newlineShift_length _ _ _ _ hls
  have hlen3 := setAt_length _ _ _ _ hls3
  have hlen4 := setAt_length _ _ _ _ hls4
  refine ⟨hroom, ?_, ?_, ?_, ?_⟩
  · show e2.offset.y = e.offset.y
    rw [g3]; show e1.offset.y = _
    rw [f3]
  · show ls4.length = e.lines.length
    rw [hlen4, hlen3, g4]; show ls.length = _
    rw [hlen, f4]
  · show e2.lineCount = e.lineCount + 1
    rw [g1]; show e1.lineCount + 1 = _
    rw [f1]
  · show e2.cursor.y = e.cursor.y + 1
    rw [g2]; show e1.cursor.y = _
    rw [f2]
theorem termEditorUp_fields (e e' : Editor) (h : termEditorUp e = some e') :
    e'.offset = e.offset ∧ e'.lines = e.lines ∧ e'.lineCount = e.lineCount ∧
      ((e'.cursor.y = e.cursor.y) ∨ (0 < e.cursor.y ∧ e'.cursor.y = e.cursor.y - 1)) := by
  by_cases hy : e.cursor.y ≤ 0
  · simp only [termEditorUp, hy, if_true] at h
    cases h
    exact ⟨rfl, rfl, rfl, Or.inl rfl⟩
  · simp only [termEditorUp, hy, if_false, Option.bind_eq_bind, Option.bind_eq_some] at h
    obtain ⟨line, _, he⟩ := h
    split_ifs at he <;> cases he <;> exact ⟨rfl, rfl, rfl, Or.inr ⟨by omega, rfl⟩⟩

theorem termEditorDown_fields (e e' : Editor) (h : termEditorDown e = some e') :
    e'.offset = e.offset ∧ e'.lines = e.lines ∧ e'.lineCount = e.lineCount ∧
      ((e'.cursor.y = e.cursor.y) ∨
        (e.cursor.y < e.lineCount - 1 ∧ e'.cursor.y = e.cursor.y + 1)) := by
  by_cases hy : e.cursor.y ≥ e.lineCount - 1
  · simp only [termEditorDown, hy, if_true] at h
    cases h
    exact ⟨rfl, rfl, rfl, Or.inl rfl⟩
  · simp only [termEditorDown, hy, if_false, Option.bind_eq_bind, Option.bind_eq_some] at h
    obtain ⟨line, _, he⟩ := h
    split_ifs at he <;> cases he <;> exact ⟨rfl, rfl, rfl, Or.inr ⟨by omega, rfl⟩⟩

theorem termEditorRight_fields (e e' : Editor) (h : termEditorRight e = some e') :
    e'.offset = e.offset ∧ e'.lines = e.lines ∧ e'.lineCount = e.lineCount ∧
      e'.cursor.y = e.cursor.y := by
  simp only [termEditorRight, Option.bind_eq_bind, Option.bind_eq_some] at h
  obtain ⟨line, _, he⟩ := h
  split_ifs at he <;> cases he <;> exact ⟨rfl, rfl, rfl, rfl⟩

theorem applyAction_rowsOk (maxLines : Nat) (a : KeyAction) (e e' : Editor)
    (hr : e.rowsOk maxLines) (h : applyAction maxLines a e = some e') : e'.rowsOk maxLines := by
  obtain ⟨hlen, h1, hmax, hoy, hy0, hylt⟩ := hr
  cases a with
  | insert c =>
    obtain ⟨f1, f2, f3, f4⟩ := editorInsert_fields e e' c h
    exact ⟨by rw [f4, hlen], by rw [f1]; exact h1, by rw [f1]; exact hmax, by rw [f3]; exact hoy,
      by rw [f2]; exact hy0, by rw [f1, f2]; exact hylt⟩
  | backspace =>
    obtain ⟨f3, f4, hcase⟩ := editorBackspace_fields e e' h
    rcases hcase with ⟨f1, f2⟩ | ⟨hne, f1, f2⟩
    · exact ⟨by rw [f4, hlen], by rw [f1]; exact h1, by rw [f1]; exact hmax,
        by rw [f3]; exact hoy, by rw [f2]; exact hy0, by rw [f1, f2]; exact hylt⟩
    · rw [hoy, zero_add] at hne
      exact ⟨by rw [f4, hlen], by rw [f1]; omega, by rw [f1]; omega, by rw [f3]; exact hoy,
        by rw [f2]; omega, by rw [f1, f2]; omega⟩
  | newline =>
    obtain ⟨hroom, f3, f4, f1, f2⟩ := editorNewline_fields maxLines e e' h
    exact ⟨by rw [f4, hlen], by rw [f1]; omega, by rw [f1]; omega, by rw [f3]; exact hoy,
      by rw [f2]; omega, by rw [f1, f2]; omega⟩
  | up =>
    obtain ⟨f3, f4, f1, hcase⟩ := termEditorUp_fields e e' h
    rcases hcase with f2 | ⟨hpos, f2⟩
    · exact ⟨by rw [f4, hlen], by rw [f1]; exact h1, by rw [f1]; exact hmax,
        by rw [f3]; exact hoy, by rw [f2]; exact hy0, by rw [f1, f2]; exact hylt⟩
    · exact ⟨by rw [f4, hlen], by rw [f1]; exact h1, by rw [f1]; exact hmax,
        by rw [f3]; exact hoy, by rw [f2]; omega, by rw [f1, f2]; omega⟩
  | down =>
    obtain ⟨f3, f4, f1, hcase⟩ := termEditorDown_fields e e' h
    rcases hcase with f2 | ⟨hlt, f2⟩
    · exact ⟨by rw [f4, hlen], by rw [f1]; exact h1, by rw [f1]; exact hmax,
        by rw [f3]; exact hoy, by rw [f2]; exact hy0, by rw [f1, f2]; exact hylt⟩
    · exact ⟨by rw [f4, hlen], by rw [f1]; exact h1, by rw [f1]; exact hmax,
        by rw [f3]; exact hoy, by rw [f2]; omega, by rw [f1, f2]; omega⟩
  | left =>
    simp only [applyAction, Option.some.injEq] at h
    subst h
    unfold termEditorLeft
    split_ifs
    · exact ⟨hlen, h1, hmax, hoy, hy0, hylt⟩
    · exact ⟨hlen, h1, hmax, hoy, hy0, hylt⟩
  | right =>
    obtain ⟨f3, f4, f1, f2⟩ := termEditorRight_fields e e' h
    exact ⟨by rw [f4, hlen], by rw [f1]; exact h1, by rw [f1]; exact hmax,
      by rw [f3]; exact hoy, by rw [f2]; exact hy0, by rw [f1, f2]; exact hylt⟩
  | keepInView tcols =>
    simp only [applyAction, Option.some.injEq] at h
    subst h
    obtain ⟨g1, g2, g3, g4, _, _, _⟩ := keepInViewX_fields tcols e
    exact ⟨by rw [g1, hlen], by rw [g2]; exact h1, by rw [g2]; exact hmax,
      by rw [g4]; exact hoy, by rw [g3]; exact hy0, by rw [g2, g3]; exact hylt⟩

theorem getAt_isSome {α : Type} (xs : List α) (i : Int) (h0 : 0 ≤ i) (h1 : i < xs.length) :
    (getAt xs i).isSome := by
  obtain ⟨j, rfl⟩ : ∃ j : Nat, i = j := ⟨i.toNat, by omega⟩
  rw [getAt_natCast, List.getElem?_eq_getElem (by omega)]
  rfl

/-- C19: the row invariant (`maxLines` slots, `1 ≤ lineCount ≤ TERM_EDITOR_MAX_LINES`,
`offset.y = 0`, `0 ≤ cursor.y < lineCount`) holds after `termEditorInit` and every key action
(`editorInsert`, `editorBackspace`, `editorNewline`, `termEditorUp/Down/Left/Right`,
`keepInViewX`) that returns preserves it; `editorNewline` returns only if
`lineCount < TERM_EDITOR_MAX_LINES`.  Under the invariant the line indices the actions use
(the current row, the row above when there is one, and for a newline with room the rows
`lineCount` and `row + 1`) are inside the array, and the arrow actions return; on a
well-formed editor with the cursor inside its line the editing actions return too. -/
theorem row_invariant (maxLines : Nat) (hmax : 1 ≤ maxLines) (prompt : List Nat) :
    (termEditorInit maxLines prompt).rowsOk maxLines ∧
    (∀ (a : KeyAction) (e e' : Editor), e.rowsOk maxLines →
      applyAction maxLines a e = some e' → e'.rowsOk maxLines) ∧
    (∀ e e' : Editor, editorNewline maxLines e = some e' → e.lineCount < (maxLines : Int)) ∧
    (∀ e : Editor, e.rowsOk maxLines →
      (getAt e.lines (e.offset.y + e.cursor.y)).isSome ∧
      (0 < e.offset.y + e.cursor.y → (getAt e.lines (e.offset.y + e.cursor.y - 1)).isSome) ∧
      (e.lineCount < (maxLines : Int) →
        (getAt e.lines e.lineCount).isSome ∧
        (getAt e.lines (e.offset.y + e.cursor.y + 1)).isSome) ∧
      (termEditorUp e).isSome ∧ (termEditorDown e).isSome ∧ (termEditorRight e).isSome) ∧
    (∀ (e : Editor) (c : Nat) (line : EditorLine), e.valid maxLines →
      getAt e.lines (e.offset.y + e.cursor.y) = some line →
      0 ≤ e.offset.x + e.cursor.x → e.offset.x + e.cursor.x ≤ line.count →
      (editorInsert e c).isSome ∧ (editorBackspace e).isSome ∧
      (e.lineCount < (maxLines : Int) → (editorNewline maxLines e).isSome)) := by
  refine ⟨?_, fun a e e' hr h => applyAction_rowsOk maxLines a e e' hr h,
    fun e e' h => (editorNewline_fields maxLines e e' h).1, ?_, ?_⟩
  rotate_left 2
  · intro e c line hv hl h0 hxc
    obtain ⟨e1, h1, _⟩ := editorInsert_valid maxLines e hv c line hl h0 hxc
    obtain ⟨e2, h2, _⟩ := editorBackspace_valid maxLines e hv line hl h0 hxc
    refine ⟨by rw [h1]; rfl, by rw [h2]; rfl, fun hroom => ?_⟩
    obtain ⟨Y, hY, hlY⟩ := (getAt_some_iff _ _ _).1 hl
    obtain ⟨e3, _, _, h3, _⟩ := editorNewline_spec maxLines e hv hroom
      (e.offset.x + e.cursor.x).toNat Y (by omega) hY line hlY (by omega)
    rw [h3]; rfl
  · exact ⟨by simp [termEditorInit], le_refl _, by show (1 : Int) ≤ maxLines; omega, rfl,
      le_refl _, by show (0 : Int) < 1; omega⟩
  · intro e ⟨hlen, h1, hmx, hoy, hy0, hylt⟩
    have hrow := getAt_isSome e.lines e.cursor.y hy0 (by omega)
    refine ⟨by rw [hoy, zero_add]; exact hrow,
      fun _ => getAt_isSome _ _ (by omega) (by omega),
      fun hroom => ⟨getAt_isSome _ _ (by omega) (by omega),
        getAt_isSome _ _ (by omega) (by omega)⟩, ?_, ?_, ?_⟩
    · unfold termEditorUp
      by_cases hy : e.cursor.y ≤ 0
      · simp only [hy, if_true]; rfl
      · obtain ⟨l, hl⟩ := Option.isSome_iff_exists.1
          (getAt_isSome e.lines (e.cursor.y - 1) (by omega) (by omega))
        simp only [hy, if_false, hl, Option.bind_eq_bind, Option.some_bind]
        split_ifs <;> rfl
    · unfold termEditorDown
      by_cases hy : e.cursor.y ≥ e.lineCount - 1
      · simp only [hy, if_true]; rfl
      · obtain ⟨l, hl⟩ := Option.isSome_iff_exists.1
          (getAt_isSome e.lines (e.cursor.y + 1) (by omega) (by omega))
        simp only [hy, if_false, hl, Option.bind_eq_bind, Option.some_bind]
        split_ifs <;> rfl
    · obtain ⟨l, hl⟩ := Option.isSome_iff_exists.1 hrow
      simp only [termEditorRight, hl, Option.bind_eq_bind, Option.some_bind]
      split_ifs <;> rfl

/-- Witness of C19: a fresh two-slot editor, and a newline in the editor holding `hello`. -/
theorem row_invariant_witness :
    (1 ≤ 2) ∧ Editor.rowsOk 2 helloOnly ∧
    (applyAction 2 KeyAction.newline helloOnly).map
        (fun e' => (e'.lineCount, e'.cursor, e'.offset))
      = some (2, ⟨0, 1⟩, ⟨0, 0⟩) ∧
    (∀ e', applyAction 2 KeyAction.newline helloOnly = some e' → e'.rowsOk 2) ∧
    (termEditorInit 2 []).rowsOk 2 :=
  ⟨by decide, by decide, by decide,
    fun e' h => (row_invariant 2 (by decide) []).2.1 KeyAction.newline helloOnly e' (by decide) h,
    (row_invariant 2 (by decide) []).1⟩

/-! ## REPL: typing, moving left and submitting (C11) -/

theorem String.buffer_split (s : String) (hv : s.valid) :
    ∃ (n : Nat) (rest : List Nat), s.count = n ∧ (s.data.take s.count.toNat).length = n ∧
      s.data = s.data.take s.count.toNat ++ rest ∧ ((n + rest.length : Nat) : Int) = s.capacity := by
  obtain ⟨h0, hlen, hcap⟩ := hv
  refine ⟨s.count.toNat, s.data.drop s.count.toNat, by omega, ?_, ?_, ?_⟩
  · simp only [List.length_take]; omega
  · simp
  · simp only [List.length_drop]; omega

theorem stringInsert_spec (s : String) (hv : s.valid) (x : Nat) (hxc : (x : Int) ≤ s.count)
    (c : Nat) :
    ∃ s', stringInsert s x c = some s' ∧ s'.valid ∧ s'.count = s.count + 1 ∧
      s'.data.take s'.count.toNat
        = (s.data.take s.count.toNat).take x ++ c :: (s.data.take s.count.toNat).drop x ∧
      s'.data[s'.count.toNat]? = some 0 := by
  obtain ⟨n, rest, hn, hlen, hdata, hcap⟩ := s.buffer_split hv
  obtain ⟨k, hres, hk⟩ := stringReserve_spec s (s.count + 2) hv.2.1
  generalize hcont : s.data.take s.count.toNat = content at hlen hdata ⊢
  have hxn : x ≤ n := by omega
  obtain ⟨t0, t1, tail, htail⟩ := two_cells (rest ++ List.replicate k 0)
    (by simp only [List.length_append, List.length_replicate]; omega)
  have hD : s.data ++ List.replicate k 0
      = content.take x ++ (content.drop x ++ t0 :: t1 :: tail) := by
    rw [hdata, List.append_assoc, htail, ← List.append_assoc, List.take_append_drop]
  have hpre : (content.take x).length = x := by simp [hlen, hxn]
  have hpost : (content.drop x).length = n - x := by simp [hlen]
  have key := insert_cells (content.take x) (content.drop x) tail c t0 t1
  rw [hpre, hpost, ← hD] at key
  have hxn1 : x + (n - x) + 1 = n + 1 := by omega
  rw [hxn1] at key
  have hDlen : (s.data ++ List.replicate k 0).length = n + rest.length + k := by
    rw [hdata]; simp only [List.length_append, List.length_replicate, hlen]
  have hmove : memmove (s.data ++ List.replicate k 0) ((x : Int) + 1) x (s.count - x)
      = some ((s.data ++ List.replicate k 0).take (x + 1) ++
          (((s.data ++ List.replicate k 0).drop x).take (n - x) ++
            (s.data ++ List.replicate k 0).drop (x + 1 + (n - x)))) := by
    rw [memmove, show ((x : Int) + 1) = ((x + 1 : Nat) : Int) by push_cast; rfl,
      show s.count - (x : Int) = ((n - x : Nat) : Int) by omega]
    exact memcpy_natCast _ _ _ _ _ (by omega) (by omega)
  have hMlen : ((s.data ++ List.replicate k 0).take (x + 1) ++
          (((s.data ++ List.replicate k 0).drop x).take (n - x) ++
            (s.data ++ List.replicate k 0).drop (x + 1 + (n - x)))).length
      = n + rest.length + k := by
    simp only [List.length_append, List.length_take, List.length_drop, hDlen]; omega
  have hlen2 := congrArg List.length key
  simp only [List.length_set, hMlen] at hlen2
  have hcond : ¬ ((x : Int) < 0 ∨ (x : Int) > s.count) := by omega
  refine ⟨{ count := s.count + 1, capacity := s.capacity + k,
            data := content.take x ++ c :: (content.drop x ++ 0 :: tail) }, ?_, ?_, rfl, ?_, ?_⟩
  · simp only [stringInsert, hcond, if_false, hres, Option.bind_eq_bind, Option.some_bind]
    rw [hmove, Option.some_bind, setAt_natCast, if_pos (by omega), Option.some_bind,
      show s.count + 1 = ((n + 1 : Nat) : Int) by omega, setAt_natCast,
      if_pos (by rw [List.length_set]; omega), Option.some_bind, key]
  · refine ⟨?_, ?_, Or.inl ?_⟩
    · show 0 ≤ s.count + 1
      omega
    · show ((content.take x ++ c :: (content.drop x ++ 0 :: tail)).length : Int)
        = s.capacity + k
      rw [← hlen2]; omega
    · show s.count + 1 < s.capacity + k
      omega
  · show (content.take x ++ c :: (content.drop x ++ 0 :: tail)).take (s.count + 1).toNat = _
    rw [show (s.count + 1).toNat = (content.take x ++ c :: content.drop x).length by
          simp only [List.length_append, List.length_cons, hpre, hpost]; omega,
      show content.take x ++ c :: (content.drop x ++ 0 :: tail)
          = (content.take x ++ c :: content.drop x) ++ 0 :: tail by simp,
      List.take_left' rfl]
  · show (content.take x ++ c :: (content.drop x ++ 0 :: tail))[(s.count + 1).toNat]? = some 0
    rw [show (s.count + 1).toNat = (content.take x ++ c :: content.drop x).length by
          simp only [List.length_append, List.length_cons, hpre, hpost]; omega,
      show content.take x ++ c :: (content.drop x ++ 0 :: tail)
          = (content.take x ++ c :: content.drop x) ++ 0 :: tail by simp,
      List.getElem?_append_right (le_refl _)]
    simp

theorem replShowsLoop_isSome (data : List Nat) (j : Nat) (hj : data[j]? = some 0) :
    ∀ (fuel i : Nat) (total : Int), i ≤ j → j - i < fuel →
      (replShowsLoop fuel data (i : Int) total).isSome := by
  intro fuel
  induction fuel with
  | zero => intro i _ _ h; omega
  | succ fuel ih =>
    intro i total hi hf
    have hjlt : j < data.length := by
      by_contra hc
      rw [List.getElem?_eq_none (by omega)] at hj
      cases hj
    have hc : data[i]? = some data[i] := List.getElem?_eq_getElem (by omega)
    simp only [replShowsLoop, getAt_natCast, hc, Option.bind_eq_bind, Option.some_bind]
    by_cases h0 : data[i] = 0
    · simp [h0]
    · have hij : i ≠ j := by
        rintro rfl
        rw [hc] at hj
        exact h0 (Option.some.inj hj)
      simp only [ne_eq, h0, not_false_eq_true, if_true]
      have := ih (i + 1) (total + replShow (charToInt data[i])) (by omega) (by omega)
      rw [show ((i + 1 : Nat) : Int) = (i : Int) + 1 by push_cast; rfl] at this
      exact this

theorem replShows_isSome (data : List Nat) (i j : Nat) (hij : i ≤ j) (hj : data[j]? = some 0) :
    (replShows data (i : Int)).isSome := by
  have hjlt : j < data.length := by
    by_contra hc
    rw [List.getElem?_eq_none (by omega)] at hj
    cases hj
  exact replShowsLoop_isSome data j hj (data.length + 1) i 0 hij (by omega)

theorem findCommandIn_default (key : Int) :
    ∀ table : List (Int × (Int → Line → Option (Line × REPLAction))),
      (∀ p ∈ table, p.1 ≠ key) → findCommandIn table key = defaultCMD := by
  intro table
  induction table with
  | nil => intro _; rfl
  | cons p rest ih =>
    intro h
    obtain ⟨k, f⟩ := p
    have hk : k ≠ key := h (k, f) (List.mem_cons_self _ _)
    simp only [findCommandIn, hk, if_false]
    exact ih (fun q hq => h q (List.mem_cons_of_mem _ hq))

/-- C11: in a session whose buffer is well formed and whose cursor `c` satisfies
`0 ≤ c ≤ count`, (1) a key that no entry of the `dispatch` table has is given `defaultCMD` by
`findCommand`, and `defaultCMD` returns `REPL_DONOTHING` with the buffer content turned into
`s[0..c) ++ [key & 0xff] ++ s[c..)`, the cursor into `c + 1` and the rest of the session
unchanged; (2) `replLeft` with `c ≠ 0` only decrements the cursor; (3) the key `CTL('m')` is
given `replReturn`, and with it the loop of `termREPL` ends at once, returning the block that
holds the buffer content, then `'\n'`, then the terminator. -/
theorem repl_insert_left_return (keys : KeyCodes) (line : Line) (c : Nat) (key : Int)
    (hv : line.buffer.valid) (hc : line.cursor = c) (hcn : (c : Int) ≤ line.buffer.count) :
    ((∀ p ∈ dispatch keys, p.1 ≠ key) → findCommand keys key = defaultCMD) ∧
    (∃ line', defaultCMD key line = some (line', REPLAction.REPL_DONOTHING) ∧
      line'.content = line.content.take c ++ (key % 256).toNat :: line.content.drop c ∧
      line'.buffer.count = line.buffer.count + 1 ∧ line'.buffer.valid ∧
      line'.cursor = (c : Int) + 1 ∧ line'.history = line.history ∧
      line'.historyIndex = line.historyIndex ∧ line'.prompt = line.prompt) ∧
    (c ≠ 0 → replLeft key line
      = some ({ line with cursor := (c : Int) - 1 }, REPLAction.REPL_DONOTHING)) ∧
    findCommand keys 13 = replReturn ∧
    (∀ input : List Int, ∃ line' result,
      termREPLLoop keys line (13 :: input) = some (line', some result) ∧
      result.take (line.buffer.count.toNat + 1) = line.content ++ [10] ∧
      result[line.buffer.count.toNat + 1]? = some 0 ∧
      ((∀ b ∈ line.content, b ≠ 0) → cstr result = line.content ++ [10])) := by
  have hret : findCommand keys 13 = replReturn := by
    simp [findCommand, dispatch, findCommandIn]
  refine ⟨fun h => findCommandIn_default key _ h, ?_, ?_, hret, ?_⟩
  · obtain ⟨s', hins, hv', hcnt, hcont, hterm⟩ :=
      stringInsert_spec line.buffer hv c hcn (key % 256).toNat
    refine ⟨{ line with buffer := s', cursor := line.cursor + 1 }, ?_, ?_, hcnt, hv',
      by show line.cursor + 1 = (c : Int) + 1; rw [hc], rfl, rfl, rfl⟩
    · simp only [defaultCMD, hc, hins, Option.bind_eq_bind, Option.some_bind]
      by_cases hend : (c : Int) + 1 = s'.count
      · rw [if_pos hend]
      · rw [if_neg hend]
        have hsome := replShows_isSome s'.data (c + 1) s'.count.toNat (by omega) hterm
        obtain ⟨v, hv⟩ := Option.isSome_iff_exists.1 hsome
        rw [show ((c + 1 : Nat) : Int) = (c : Int) + 1 by push_cast; rfl] at hv
        rw [hv]
        rfl
    · exact hcont
  · intro hc0
    have hpos : ¬ ((c : Int) = 0) := by omega
    obtain ⟨h0, hlen, hcap⟩ := hv
    have hget := getAt_isSome line.buffer.data ((c : Int) - 1) (by omega) (by omega)
    obtain ⟨v, hv⟩ := Option.isSome_iff_exists.1 hget
    simp only [replLeft, hc, hpos, if_false, hv, Option.bind_eq_bind, Option.some_bind]
  · intro input
    obtain ⟨n, hn⟩ : ∃ n : Nat, line.buffer.count = n := ⟨line.buffer.count.toNat, by
      have := hv.1
      omega⟩
    obtain ⟨s', hins, hv', hcnt, hcont, hterm⟩ :=
      stringInsert_spec line.buffer hv n (by omega) 10
    have hcl : (line.buffer.data.take line.buffer.count.toNat).length = n := by
      obtain ⟨h0, hlen, hcap⟩ := hv
      simp only [List.length_take]
      omega
    rw [← hcl, List.take_length, List.drop_length] at hcont
    have hidx : s'.count.toNat = line.buffer.count.toNat + 1 := by omega
    rw [hidx] at hcont hterm
    refine ⟨{ line with buffer := stringInit }, s'.data, ?_, hcont, hterm, ?_⟩
    · simp only [termREPLLoop, hret, replReturn, stringAppend, hn, hins, Option.bind_eq_bind,
        Option.some_bind, termREPLSwitch, stringTake]
    · intro hne
      have hsplit : s'.data = (line.content ++ [10]) ++ 0 :: s'.data.drop
          (line.buffer.count.toNat + 1 + 1) := by
        have h1 : s'.data.drop (line.buffer.count.toNat + 1)
            = 0 :: s'.data.drop (line.buffer.count.toNat + 1 + 1) := by
          have hlt : line.buffer.count.toNat + 1 < s'.data.length := by
            by_contra hge
            rw [List.getElem?_eq_none (by omega)] at hterm
            cases hterm
          rw [List.drop_eq_getElem_cons hlt]
          rw [List.getElem?_eq_getElem hlt] at hterm
          rw [Option.some.inj hterm]
        have h2 := List.take_append_drop (line.buffer.count.toNat + 1) s'.data
        rw [hcont, h1] at h2
        exact h2.symm
      rw [hsplit]
      apply cstr_append_zero
      intro b hb
      rcases List.mem_append.1 hb with hb | hb
      · exact hne b hb
      · rw [List.mem_singleton.1 hb]
        decide

theorem termREPLLoop_next (keys : KeyCodes) (line line' : Line) (key : Int) (input : List Int)
    (h : findCommand keys key key line = some (line', REPLAction.REPL_DONOTHING)) :
    termREPLLoop keys line (key :: input) = termREPLLoop keys line' input := by
  simp only [termREPLLoop, h, Option.bind_eq_bind, Option.some_bind, termREPLSwitch]

theorem termREPLLoop_submit (keys : KeyCodes) (line line' : Line) (key : Int)
    (input : List Int)
    (h : findCommand keys key key line = some (line', REPLAction.REPL_SUBMIT)) :
    termREPLLoop keys line (key :: input)
      = some ({ line' with buffer := stringInit }, some line'.buffer.data) := by
  simp only [termREPLLoop, h, Option.bind_eq_bind, Option.some_bind, termREPLSwitch, stringTake]

/-- The scenario of the REPL: with the prompt `repl`, the keys `a`, `b`, `c`, left arrow
twice, `X` and Enter make `termREPL` return the C string `aXbc` followed by a newline. -/
theorem termREPL_abc_left_left_X_return :
    (termREPL sampleKeys ⟨0, [none, none]⟩ [114, 101, 112, 108]
        [97, 98, 99, 260, 260, 88, 13]).map (Option.map cstr)
      = some (some [97, 88, 98, 99, 10]) := by
  have h1 : findCommand sampleKeys 97 97 (startREPL [114, 101, 112, 108] ⟨0, [none, none]⟩)
      = some (typedSession 1 [97], REPLAction.REPL_DONOTHING) := by decide
  have h2 : findCommand sampleKeys 98 98 (typedSession 1 [97])
      = some (typedSession 2 [97, 98], REPLAction.REPL_DONOTHING) := by decide
  have h3 : findCommand sampleKeys 99 99 (typedSession 2 [97, 98])
      = some (typedSession 3 [97, 98, 99], REPLAction.REPL_DONOTHING) := by decide
  have h4 : findCommand sampleKeys 260 260 (typedSession 3 [97, 98, 99])
      = some (typedSession 2 [97, 98, 99], REPLAction.REPL_DONOTHING) := by decide
  have h5 : findCommand sampleKeys 260 260 (typedSession 2 [97, 98, 99])
      = some (typedSession 1 [97, 98, 99], REPLAction.REPL_DONOTHING) := by decide
  have h6 : findCommand sampleKeys 88 88 (typedSession 1 [97, 98, 99])
      = some (typedSession 2 [97, 88, 98, 99], REPLAction.REPL_DONOTHING) := by decide
  have h7 : findCommand sampleKeys 13 13 (typedSession 2 [97, 88, 98, 99])
      = some ({ typedSession 2 [97, 88, 98, 99] with
                buffer := ⟨5, 32, [97, 88, 98, 99, 10] ++ List.replicate 27 0⟩ },
              REPLAction.REPL_SUBMIT) := by decide
  rw [termREPL, termREPLLoop_next _ _ _ _ _ h1, termREPLLoop_next _ _ _ _ _ h2,
    termREPLLoop_next _ _ _ _ _ h3, termREPLLoop_next _ _ _ _ _ h4,
    termREPLLoop_next _ _ _ _ _ h5, termREPLLoop_next _ _ _ _ _ h6,
    termREPLLoop_submit _ _ _ _ _ h7]
  decide

/-- Witness of C11: the session with `abc` in the buffer and the cursor at 1 takes the key `X`
at offset 1; and with the prompt `repl`, the keys `a`, `b`, `c`, left arrow twice, `X` and
Enter make `termREPL` return `aXbc` followed by a newline. -/
theorem repl_insert_left_return_witness :
    ((typedSession 1 [97, 98, 99]).buffer.valid ∧
      (typedSession 1 [97, 98, 99]).cursor = ((1 : Nat) : Int) ∧
      ((1 : Nat) : Int) ≤ (typedSession 1 [97, 98, 99]).buffer.count) ∧
    (termREPL sampleKeys ⟨0, [none, none]⟩ [114, 101, 112, 108]
        [97, 98, 99, 260, 260, 88, 13]).map (Option.map cstr)
      = some (some [97, 88, 98, 99, 10]) ∧
    (defaultCMD 88 (typedSession 1 [97, 98, 99])).map (fun r => (r.1.content, r.1.cursor, r.2))
      = some ([97, 88, 98, 99], 2, REPLAction.REPL_DONOTHING) ∧
    (∃ line', defaultCMD 88 (typedSession 1 [97, 98, 99])
        = some (line', REPLAction.REPL_DONOTHING) ∧
      line'.content = (typedSession 1 [97, 98, 99]).content.take 1
        ++ ((88 : Int) % 256).toNat :: (typedSession 1 [97, 98, 99]).content.drop 1 ∧
      line'.buffer.count = (typedSession 1 [97, 98, 99]).buffer.count + 1 ∧
      line'.buffer.valid ∧ line'.cursor = ((1 : Nat) : Int) + 1 ∧
      line'.history = (typedSession 1 [97, 98, 99]).history ∧
      line'.historyIndex = (typedSession 1 [97, 98, 99]).historyIndex ∧
      line'.prompt = (typedSession 1 [97, 98, 99]).prompt) ∧
    replLeft 260 (typedSession 1 [97, 98, 99])
      = some (typedSession 0 [97, 98, 99], REPLAction.REPL_DONOTHING) ∧
    findCommand sampleKeys 13 = replReturn :=
  ⟨⟨by decide, by decide, by decide⟩, termREPL_abc_left_left_X_return, by decide,
    (repl_insert_left_return sampleKeys (typedSession 1 [97, 98, 99]) 1 88 (by decide)
      (by decide) (by decide)).2.1,
    by decide,
    (repl_insert_left_return sampleKeys (typedSession 1 [97, 98, 99]) 1 88 (by decide)
      (by decide) (by decide)).2.2.2.1⟩

/-! ## REPL history index over reachable session states (C21) -/

theorem TermREPL.valid_slot (maxHistory : Nat) (repl : TermREPL) (hv : repl.valid maxHistory)
    (i : Nat) (hi : (i : Int) < repl.historyCount) :
    ∃ blk, repl.history[i]? = some (some blk) ∧ 0 ∈ blk := by
  have h := hv.2.2.2 i (List.mem_range.2 (by omega))
  match hs : repl.history[i]? with
  | some (some blk) =>
    rw [hs] at h
    exact ⟨blk, rfl, by simpa [slotRecorded] using h⟩
  | some none => rw [hs] at h; cases h
  | none => rw [hs] at h; cases h

theorem memcpy_length {α : Type} (dst src r : List α) (d s n : Int)
    (h : memcpy dst d src s n = some r) : r.length = dst.length := by
  unfold memcpy at h
  split_ifs at h with h0 h1
  · cases h; rfl
  · cases h
    obtain ⟨hn, hd, hs, hsrc, hdst⟩ := h1
    simp only [List.length_append, List.length_take, List.length_drop]
    omega

theorem stringErase_spec (s : String) (hv : s.valid) (x : Nat) (hx : (x : Int) + 1 ≤ s.count) :
    ∃ s', stringErase s x 1 = some s' ∧ s'.valid ∧ s'.count = s.count - 1 ∧
      s'.data[(s.count - 1).toNat]? = some 0 := by
  obtain ⟨h0, hlen, hcap⟩ := hv
  have hcap' : s.count < s.capacity := by omega
  obtain ⟨n, hn⟩ : ∃ n : Nat, s.count = n := ⟨s.count.toNat, by omega⟩
  have hmove : memmove s.data (x : Int) ((x : Int) + 1) (s.count - ((x : Int) + 1))
      = some (s.data.take x ++ ((s.data.drop (x + 1)).take (n - (x + 1)) ++
          s.data.drop (x + (n - (x + 1))))) := by
    rw [memmove, show ((x : Int) + 1) = ((x + 1 : Nat) : Int) by push_cast; rfl,
      show s.count - ((x + 1 : Nat) : Int) = ((n - (x + 1) : Nat) : Int) by omega]
    exact memcpy_natCast _ _ _ _ _ (by omega) (by omega)
  have hMlen : (s.data.take x ++ ((s.data.drop (x + 1)).take (n - (x + 1)) ++
          s.data.drop (x + (n - (x + 1))))).length = s.data.length := by
    simp only [List.length_append, List.length_take, List.length_drop]; omega
  have hcond : ¬ ((x : Int) < 0 ∨ (1 : Int) < 0 ∨ (x : Int) + 1 > s.count) := by omega
  have hcapne : s.capacity ≠ 0 := by omega
  refine ⟨{ s with count := s.count - 1,
                   data := (s.data.take x ++ ((s.data.drop (x + 1)).take (n - (x + 1)) ++
                     s.data.drop (x + (n - (x + 1))))).set (n - 1) 0 }, ?_, ?_, rfl, ?_⟩
  · simp only [stringErase, hcond, if_false, hmove, Option.bind_eq_bind, Option.some_bind,
      hcapne, ne_eq, not_false_eq_true, if_true]
    rw [show s.count - 1 = ((n - 1 : Nat) : Int) by omega, setAt_natCast,
      if_pos (by rw [hMlen]; omega)]
    rfl
  · refine ⟨by show 0 ≤ s.count - 1; omega, ?_, Or.inl (by show s.count - 1 < s.capacity; omega)⟩
    show (((s.data.take x ++ ((s.data.drop (x + 1)).take (n - (x + 1)) ++
      s.data.drop (x + (n - (x + 1))))).set (n - 1) 0).length : Int) = s.capacity
    rw [List.length_set, hMlen]
    exact hlen
  · show ((s.data.take x ++ ((s.data.drop (x + 1)).take (n - (x + 1)) ++
      s.data.drop (x + (n - (x + 1))))).set (n - 1) 0)[(s.count - 1).toNat]? = some 0
    rw [show (s.count - 1).toNat = n - 1 by omega, List.getElem?_set, if_pos rfl,
      if_pos (by rw [hMlen]; omega)]

theorem replLeft_valid (maxHistory : Nat) (key : Int) (line : Line)
    (hv : line.valid maxHistory) :
    ∃ line', replLeft key line = some (line', REPLAction.REPL_DONOTHING) ∧
      line'.valid maxHistory ∧ line'.history = line.history ∧ line'.buffer = line.buffer ∧
      line'.cursor = (if line.cursor = 0 then 0 else line.cursor - 1) := by
  obtain ⟨hh, hb, hc0, hcn, hi0, hi1⟩ := hv
  by_cases hc : line.cursor = 0
  · exact ⟨line, by simp only [replLeft, hc, if_true], ⟨hh, hb, hc0, hcn, hi0, hi1⟩, rfl, rfl,
      by rw [if_pos hc, hc]⟩
  · obtain ⟨hb0, hlen, hcap⟩ := hb
    have hget := getAt_isSome line.buffer.data (line.cursor - 1) (by omega) (by omega)
    obtain ⟨v, hv⟩ := Option.isSome_iff_exists.1 hget
    refine ⟨{ line with cursor := line.cursor - 1 }, ?_,
      ⟨hh, ⟨hb0, hlen, hcap⟩, by show 0 ≤ line.cursor - 1; omega,
        by show line.cursor - 1 ≤ line.buffer.count; omega, hi0, hi1⟩, rfl, rfl,
      by rw [if_neg hc]⟩
    simp only [replLeft, hc, if_false, hv, Option.bind_eq_bind, Option.some_bind]

theorem replRight_valid (maxHistory : Nat) (key : Int) (line : Line)
    (hv : line.valid maxHistory) :
    ∃ line', replRight key line = some (line', REPLAction.REPL_DONOTHING) ∧
      line'.valid maxHistory ∧ line'.history = line.history := by
  obtain ⟨hh, hb, hc0, hcn, hi0, hi1⟩ := hv
  by_cases hc : line.cursor ≥ line.buffer.count
  · exact ⟨line, by simp only [replRight, hc, if_true], ⟨hh, hb, hc0, hcn, hi0, hi1⟩, rfl⟩
  · obtain ⟨hb0, hlen, hcap⟩ := hb
    have hget := getAt_isSome line.buffer.data line.cursor hc0 (by omega)
    obtain ⟨v, hv⟩ := Option.isSome_iff_exists.1 hget
    refine ⟨{ line with cursor := line.cursor + 1 }, ?_,
      ⟨hh, ⟨hb0, hlen, hcap⟩, by show 0 ≤ line.cursor + 1; omega,
        by show line.cursor + 1 ≤ line.buffer.count; omega, hi0, hi1⟩, rfl⟩
    simp only [replRight, hc, if_false, hv, Option.bind_eq_bind, Option.some_bind]

theorem lineCap_some (line : Line) (c j : Nat) (hc : line.cursor = c) (hcj : c ≤ j)
    (hj : line.buffer.data[j]? = some 0) : lineCap line = some line := by
  obtain ⟨v, hv⟩ := Option.isSome_iff_exists.1 (replShows_isSome line.buffer.data c j hcj hj)
  simp only [lineCap, hc, hv, Option.bind_eq_bind, Option.some_bind]

theorem replDelete_valid (maxHistory : Nat) (key : Int) (line : Line)
    (hv : line.valid maxHistory) :
    ∃ line', replDelete key line = some (line', REPLAction.REPL_DONOTHING) ∧
      line'.valid maxHistory ∧ line'.history = line.history := by
  obtain ⟨hh, hb, hc0, hcn, hi0, hi1⟩ := hv
  by_cases hc : line.cursor ≥ line.buffer.count
  · exact ⟨line, by simp only [replDelete, hc, if_true], ⟨hh, hb, hc0, hcn, hi0, hi1⟩, rfl⟩
  · obtain ⟨x, hx⟩ : ∃ x : Nat, line.cursor = x := ⟨line.cursor.toNat, by omega⟩
    obtain ⟨s', hs', hv', hcnt, hterm⟩ := stringErase_spec line.buffer hb x (by omega)
    have hcap := lineCap_some { line with buffer := s' } x (line.buffer.count - 1).toNat hx
      (by omega) hterm
    have hc' : ¬ ((x : Int) ≥ line.buffer.count) := by omega
    refine ⟨{ line with buffer := s' }, ?_,
      ⟨hh, hv', hc0, by show line.cursor ≤ s'.count; omega, hi0, hi1⟩, rfl⟩
    rw [hx] at hcap
    simp only [replDelete, hx, hc', if_false, hs', Option.bind_eq_bind, Option.some_bind, hcap]

theorem replBackspace_valid (maxHistory : Nat) (key : Int) (line : Line)
    (hv : line.valid maxHistory) :
    ∃ line', replBackspace key line = some (line', REPLAction.REPL_DONOTHING) ∧
      line'.valid maxHistory ∧ line'.history = line.history := by
  by_cases hc : line.cursor = 0
  · exact ⟨line, by simp only [replBackspace, hc, if_true], hv, rfl⟩
  · obtain ⟨line1, hleft, hv1, hh1, hb1, hc1⟩ := replLeft_valid maxHistory 0 line hv
    rw [if_neg hc] at hc1
    obtain ⟨hh, hb, hc0, hcn, hi0, hi1⟩ := hv1
    obtain ⟨hH, hB, hC0, hCn, hI0, hI1⟩ := hv
    obtain ⟨x, hx⟩ : ∃ x : Nat, line1.cursor = x := ⟨line1.cursor.toNat, by omega⟩
    have hroom : (x : Int) + 1 ≤ line1.buffer.count := by rw [← hx, hc1, hb1]; omega
    obtain ⟨s', hs', hv', hcnt, hterm⟩ := stringErase_spec line1.buffer hb x hroom
    have hcap := lineCap_some { line1 with buffer := s' } x (line1.buffer.count - 1).toNat hx
      (by omega) hterm
    refine ⟨{ line1 with buffer := s' }, ?_,
      ⟨hh, hv', hc0, by show line1.cursor ≤ s'.count; omega, hi0, hi1⟩, hh1⟩
    rw [hx] at hcap
    simp only [replBackspace, hc, if_false, hleft, hx, hs', Option.bind_eq_bind,
      Option.some_bind, hcap]

theorem defaultCMD_valid (maxHistory : Nat) (key : Int) (line : Line)
    (hv : line.valid maxHistory) :
    ∃ line', defaultCMD key line = some (line', REPLAction.REPL_DONOTHING) ∧
      line'.valid maxHistory ∧ line'.history = line.history := by
  obtain ⟨hh, hb, hc0, hcn, hi0, hi1⟩ := hv
  obtain ⟨c, hc⟩ : ∃ c : Nat, line.cursor = c := ⟨line.cursor.toNat, by omega⟩
  obtain ⟨s', hins, hv', hcnt, _, hterm⟩ :=
    stringInsert_spec line.buffer hb c (by omega) (key % 256).toNat
  refine ⟨{ line with buffer := s', cursor := line.cursor + 1 }, ?_,
    ⟨hh, hv', by show 0 ≤ line.cursor + 1; omega, by show line.cursor + 1 ≤ s'.count; omega,
      hi0, hi1⟩, rfl⟩
  simp only [defaultCMD, hc, hins, Option.bind_eq_bind, Option.some_bind]
  by_cases hend : (c : Int) + 1 = s'.count
  · rw [if_pos hend]
  · rw [if_neg hend]
    have hsome := replShows_isSome s'.data (c + 1) s'.count.toNat (by omega) hterm
    obtain ⟨v, hv⟩ := Option.isSome_iff_exists.1 hsome
    rw [show ((c + 1 : Nat) : Int) = (c : Int) + 1 by push_cast; rfl] at hv
    rw [hv]
    rfl

theorem replReturn_valid (maxHistory : Nat) (key : Int) (line : Line)
    (hv : line.valid maxHistory) :
    ∃ line', replReturn key line = some (line', REPLAction.REPL_SUBMIT) ∧
      line'.valid maxHistory ∧ line'.history = line.history := by
  obtain ⟨hh, hb, hc0, hcn, hi0, hi1⟩ := hv
  obtain ⟨n, hn⟩ : ∃ n : Nat, line.buffer.count = n := ⟨line.buffer.count.toNat, by
    have := hb.1
    omega⟩
  obtain ⟨s', hins, hv', hcnt, _, _⟩ := stringInsert_spec line.buffer hb n (by omega) 10
  refine ⟨{ line with buffer := s' }, ?_,
    ⟨hh, hv', hc0, by show line.cursor ≤ s'.count; omega, hi0, hi1⟩, rfl⟩
  simp only [replReturn, stringAppend, hn, hins, Option.bind_eq_bind, Option.some_bind]

theorem replace_valid (line : Line) (str : List Nat)
    (hlen : (line.buffer.data.length : Int) = line.buffer.capacity) (h0 : 0 ∈ str) :
    ∃ line', replace line str = some line' ∧ line'.buffer.valid ∧
      line'.cursor = line'.buffer.count ∧ line'.content = cstr str ∧
      line'.history = line.history ∧ line'.historyIndex = line.historyIndex := by
  obtain ⟨b, hb, hbl, hbc, hbt, hlt⟩ := stringSet_spec line.buffer str hlen h0
  refine ⟨{ line with buffer := b, cursor := b.count }, ?_, ⟨by rw [hbc]; omega, hbl, Or.inl hlt⟩,
    rfl, hbt, rfl, rfl⟩
  simp only [replace, hb, Option.bind_eq_bind, Option.some_bind]

theorem replHistoryPrev_valid (maxHistory : Nat) (key : Int) (line : Line)
    (hv : line.valid maxHistory) :
    ∃ line', replHistoryPrev key line = some (line', REPLAction.REPL_DONOTHING) ∧
      line'.valid maxHistory ∧ line'.history = line.history ∧
      (line.historyIndex ≥ line.history.historyCount - 1 → line' = line) ∧
      (line.historyIndex < line.history.historyCount - 1 →
        line'.historyIndex = line.historyIndex + 1 ∧
        ∃ blk, getAt line.history.history (line.historyIndex + 1) = some (some blk) ∧
          line'.content = cstr blk) := by
  obtain ⟨hh, hb, hc0, hcn, hi0, hi1⟩ := hv
  by_cases hc : line.historyIndex ≥ line.history.historyCount - 1
  · exact ⟨line, by simp only [replHistoryPrev, hc, if_true], ⟨hh, hb, hc0, hcn, hi0, hi1⟩, rfl,
      fun _ => rfl, fun h => absurd h (by omega)⟩
  · obtain ⟨j, hj⟩ : ∃ j : Nat, line.historyIndex + 1 = j :=
      ⟨(line.historyIndex + 1).toNat, by omega⟩
    obtain ⟨blk, hblk, h0⟩ := TermREPL.valid_slot maxHistory line.history hh j (by omega)
    obtain ⟨line', hrep, hbv, hcur, hcont, hhist, hidx⟩ :=
      replace_valid { line with historyIndex := line.historyIndex + 1 } blk hb.2.1 h0
    have hget : getAt line.history.history (line.historyIndex + 1) = some (some blk) := by
      rw [hj, getAt_natCast]; exact hblk
    refine ⟨line', ?_, ⟨by rw [hhist]; exact hh, hbv, by rw [hcur]; exact hbv.1,
      by rw [hcur], by rw [hidx]; show -1 ≤ line.historyIndex + 1; omega,
      by rw [hidx, hhist]; show line.historyIndex + 1 ≤ line.history.historyCount - 1; omega⟩,
      hhist, fun h => absurd h hc, fun _ => ⟨hidx, blk, hget, hcont⟩⟩
    simp only [replHistoryPrev, hc, if_false, hget, Option.bind_eq_bind, Option.some_bind, hrep]

theorem replHistoryNext_valid (maxHistory : Nat) (key : Int) (line : Line)
    (hv : line.valid maxHistory) :
    ∃ line' action, replHistoryNext key line = some (line', action) ∧
      line'.valid maxHistory ∧ line'.history = line.history ∧
      (line.historyIndex ≤ 0 →
        line' = { line with historyIndex := -1 } ∧ action = REPLAction.REPL_CLEAR) ∧
      (0 < line.historyIndex →
        action = REPLAction.REPL_DONOTHING ∧ line'.historyIndex = line.historyIndex - 1 ∧
        ∃ blk, getAt line.history.history (line.historyIndex - 1) = some (some blk) ∧
          line'.content = cstr blk) := by
  obtain ⟨hh, hb, hc0, hcn, hi0, hi1⟩ := hv
  by_cases hc : line.historyIndex ≤ 0
  · refine ⟨{ line with historyIndex := -1 }, REPLAction.REPL_CLEAR,
      by simp only [replHistoryNext, hc, if_true, replFlush],
      ⟨hh, hb, hc0, hcn, le_refl _, ?_⟩, rfl, fun _ => ⟨rfl, rfl⟩, fun h => absurd h (by omega)⟩
    show (-1 : Int) ≤ line.history.historyCount - 1
    have := hh.2.1
    omega
  · obtain ⟨j, hj⟩ : ∃ j : Nat, line.historyIndex - 1 = j :=
      ⟨(line.historyIndex - 1).toNat, by omega⟩
    obtain ⟨blk, hblk, h0⟩ := TermREPL.valid_slot maxHistory line.history hh j (by omega)
    obtain ⟨line', hrep, hbv, hcur, hcont, hhist, hidx⟩ :=
      replace_valid { line with historyIndex := line.historyIndex - 1 } blk hb.2.1 h0
    have hget : getAt line.history.history (line.historyIndex - 1) = some (some blk) := by
      rw [hj, getAt_natCast]; exact hblk
    refine ⟨line', REPLAction.REPL_DONOTHING, ?_, ⟨by rw [hhist]; exact hh, hbv,
      by rw [hcur]; exact hbv.1, by rw [hcur],
      by rw [hidx]; show -1 ≤ line.historyIndex - 1; omega,
      by rw [hidx, hhist]; show line.historyIndex - 1 ≤ line.history.historyCount - 1; omega⟩,
      hhist, fun h => absurd h hc, fun _ => ⟨rfl, hidx, blk, hget, hcont⟩⟩
    simp only [replHistoryNext, hc, if_false, hget, Option.bind_eq_bind, Option.some_bind, hrep]

theorem findCommandIn_mem (c : Int) :
    ∀ table : List (Int × (Int → Line → Option (Line × REPLAction))),
      findCommandIn table c = defaultCMD ∨ ∃ p ∈ table, findCommandIn table c = p.2 := by
  intro table
  induction table with
  | nil => exact Or.inl rfl
  | cons p rest ih =>
    obtain ⟨k, f⟩ := p
    by_cases hk : k = c
    · exact Or.inr ⟨(k, f), List.mem_cons_self _ _, by simp only [findCommandIn, hk, if_true]⟩
    · simp only [findCommandIn, hk, if_false]
      rcases ih with h | ⟨p, hp, h⟩
      · exact Or.inl h
      · exact Or.inr ⟨p, List.mem_cons_of_mem _ hp, h⟩

theorem findCommand_cases (keys : KeyCodes) (c : Int) :
    findCommand keys c = replEnd ∨ findCommand keys c = replFlush ∨
    findCommand keys c = replCancel ∨ findCommand keys c = replBackspace ∨
    findCommand keys c = replReturn ∨ findCommand keys c = replDelete ∨
    findCommand keys c = replLeft ∨ findCommand keys c = replRight ∨
    findCommand keys c = replHistoryPrev ∨ findCommand keys c = replHistoryNext ∨
    findCommand keys c = defaultCMD := by
  rcases findCommandIn_mem c (dispatch keys) with h | ⟨p, hp, h⟩
  · right; right; right; right; right; right; right; right; right; right
    exact h
  · unfold findCommand
    rw [h]
    simp only [dispatch, List.mem_cons, List.mem_singleton, List.not_mem_nil, or_false] at hp
    rcases hp with hp | hp | hp | hp | hp | hp | hp | hp | hp | hp | hp | hp | hp | hp | hp <;>
      rw [hp] <;>
      first
        | exact Or.inl rfl
        | exact Or.inr (Or.inl rfl)
        | exact Or.inr (Or.inr (Or.inl rfl))
        | exact Or.inr (Or.inr (Or.inr (Or.inl rfl)))
        | exact Or.inr (Or.inr (Or.inr (Or.inr (Or.inl rfl))))
        | exact Or.inr (Or.inr (Or.inr (Or.inr (Or.inr (Or.inl rfl)))))
        | exact Or.inr (Or.inr (Or.inr (Or.inr (Or.inr (Or.inr (Or.inl rfl))))))
        | exact Or.inr (Or.inr (Or.inr (Or.inr (Or.inr (Or.inr (Or.inr (Or.inl rfl)))))))
        | exact Or.inr (Or.inr (Or.inr (Or.inr (Or.inr (Or.inr (Or.inr (Or.inr (Or.inl rfl))))))))
        | exact Or.inr (Or.inr (Or.inr (Or.inr (Or.inr (Or.inr (Or.inr (Or.inr (Or.inr
            (Or.inl rfl)))))))))

theorem findCommand_valid (maxHistory : Nat) (keys : KeyCodes) (c key : Int) (line : Line)
    (hv : line.valid maxHistory) :
    ∃ line' action, findCommand keys c key line = some (line', action) ∧
      line'.valid maxHistory ∧ line'.history = line.history := by
  rcases findCommand_cases keys c with h | h | h | h | h | h | h | h | h | h | h <;> rw [h]
  · exact ⟨line, _, rfl, hv, rfl⟩
  · exact ⟨line, _, rfl, hv, rfl⟩
  · exact ⟨line, _, rfl, hv, rfl⟩
  · obtain ⟨l, h1, h2, h3⟩ := replBackspace_valid maxHistory key line hv
    exact ⟨l, _, h1, h2, h3⟩
  · obtain ⟨l, h1, h2, h3⟩ := replReturn_valid maxHistory key line hv
    exact ⟨l, _, h1, h2, h3⟩
  · obtain ⟨l, h1, h2, h3⟩ := replDelete_valid maxHistory key line hv
    exact ⟨l, _, h1, h2, h3⟩
  · obtain ⟨l, h1, h2, h3, _⟩ := replLeft_valid maxHistory key line hv
    exact ⟨l, _, h1, h2, h3⟩
  · obtain ⟨l, h1, h2, h3⟩ := replRight_valid maxHistory key line hv
    exact ⟨l, _, h1, h2, h3⟩
  · obtain ⟨l, h1, h2, h3, _⟩ := replHistoryPrev_valid maxHistory key line hv
    exact ⟨l, _, h1, h2, h3⟩
  · obtain ⟨l, a, h1, h2, h3, _⟩ := replHistoryNext_valid maxHistory key line hv
    exact ⟨l, a, h1, h2, h3⟩
  · obtain ⟨l, h1, h2, h3⟩ := defaultCMD_valid maxHistory key line hv
    exact ⟨l, _, h1, h2, h3⟩

theorem termREPLSwitch_valid (maxHistory : Nat) (line : Line) (action : REPLAction)
    (hv : line.valid maxHistory) :
    ∃ round, termREPLSwitch line action = some round ∧
      round.line.history = line.history ∧ round.line.historyIndex = line.historyIndex ∧
      (∀ l, round = Round.next l → l.valid maxHistory) := by
  obtain ⟨hh, hb, hc0, hcn, hi0, hi1⟩ := hv
  cases action with
  | REPL_SUBMIT => exact ⟨_, rfl, rfl, rfl, fun l h => by cases h⟩
  | REPL_DONE => exact ⟨_, rfl, rfl, rfl, fun l h => by cases h⟩
  | REPL_DONOTHING =>
    exact ⟨_, rfl, rfl, rfl, fun l h => by cases h; exact ⟨hh, hb, hc0, hcn, hi0, hi1⟩⟩
  | REPL_CLEAR =>
    obtain ⟨hb0, hlen, hcap⟩ := hb
    by_cases hz : line.buffer.capacity = 0
    · refine ⟨Round.next { line with cursor := 0, buffer := { line.buffer with count := 0 } },
        by simp [termREPLSwitch, hz], rfl, rfl, fun l h => ?_⟩
      cases h
      exact ⟨hh, ⟨le_refl _, hlen, Or.inr ⟨hz, rfl⟩⟩, le_refl _, le_refl _, hi0, hi1⟩
    · have hpos : 0 < line.buffer.data.length := by omega
      refine ⟨Round.next { line with cursor := 0, buffer :=
          { line.buffer with count := 0, data := line.buffer.data.set 0 0 } }, ?_, rfl, rfl,
        fun l h => ?_⟩
      · have hset : setAt line.buffer.data 0 0 = some (line.buffer.data.set 0 0) := by
          simp [setAt, hpos]
        simp only [termREPLSwitch, ne_eq, hz, not_false_eq_true, if_true, hset,
          Option.bind_eq_bind, Option.some_bind]
      · cases h
        refine ⟨hh, ⟨le_refl _, ?_, Or.inl ?_⟩, le_refl _, le_refl _, hi0, hi1⟩
        · show ((line.buffer.data.set 0 0).length : Int) = line.buffer.capacity
          rw [List.length_set]; exact hlen
        · show (0 : Int) < line.buffer.capacity
          omega

theorem termREPLRound_valid (maxHistory : Nat) (keys : KeyCodes) (key : Int) (line : Line)
    (hv : line.valid maxHistory) :
    ∃ round, termREPLRound keys key line = some round ∧
      round.line.history = line.history ∧
      -1 ≤ round.line.historyIndex ∧
      round.line.historyIndex ≤ line.history.historyCount - 1 ∧
      (∀ l, round = Round.next l → l.valid maxHistory) := by
  obtain ⟨line1, action, hcmd, hv1, hh1⟩ := findCommand_valid maxHistory keys key key line hv
  obtain ⟨round, hsw, hh2, hi2, hnext⟩ := termREPLSwitch_valid maxHistory line1 action hv1
  refine ⟨round, ?_, by rw [hh2, hh1], by rw [hi2]; exact hv1.2.2.2.2.1,
    by rw [hi2, ← hh1]; exact hv1.2.2.2.2.2, hnext⟩
  simp only [termREPLRound, hcmd, Option.bind_eq_bind, Option.some_bind, hsw]

theorem replReachable_valid (keys : KeyCodes) (maxHistory : Nat) (prompt : List Nat)
    (history : TermREPL) (hh : history.valid maxHistory) (line : Line)
    (hr : REPLReachable keys prompt history line) :
    line.valid maxHistory ∧ line.history = history := by
  induction hr with
  | start =>
    refine ⟨⟨hh, (by decide : stringInit.valid), le_refl _, le_refl _, le_refl _, ?_⟩, rfl⟩
    show (-1 : Int) ≤ history.historyCount - 1
    have := hh.2.1
    omega
  | round line line' key _ hstep ih =>
    obtain ⟨round, hround, hhist, _, _, hnext⟩ :=
      termREPLRound_valid maxHistory keys key line ih.1
    rw [hstep] at hround
    cases hround
    exact ⟨hnext line' rfl, by rw [← ih.2]; exact hhist⟩

theorem termREPLInit_valid (maxHistory : Nat) (repl : TermREPL) :
    (termREPLInit maxHistory repl).valid maxHistory := by
  refine ⟨by simp [termREPLInit], le_refl _, by show (0 : Int) ≤ maxHistory; omega, ?_⟩
  intro i hi
  simp [termREPLInit] at hi

theorem termREPLRecord_valid (maxHistory : Nat) (hmax : 1 ≤ maxHistory) (repl : TermREPL)
    (hv : repl.valid maxHistory) (entry : List Nat) (h0 : 0 ∈ entry) :
    ∃ repl', termREPLRecord maxHistory repl entry = some repl' ∧ repl'.valid maxHistory := by
  obtain ⟨hlen, hc0, hcm, hslots⟩ := hv
  obtain ⟨k, hk, hb, _, _, _⟩ := recordBlock_spec entry h0
  have hrec := termREPLRecord_spec maxHistory hmax repl hlen entry _ hb
  refine ⟨_, hrec, ?_, ?_, ?_, ?_⟩
  · show (some ((cstr entry ++ [0]).set k 0) :: repl.history.take (maxHistory - 1)).length
      = maxHistory
    rw [List.length_cons, List.length_take]
    omega
  · show (0 : Int) ≤ if repl.historyCount + 1 > (maxHistory : Int) then (maxHistory : Int)
      else repl.historyCount + 1
    split_ifs <;> omega
  · show (if repl.historyCount + 1 > (maxHistory : Int) then (maxHistory : Int)
      else repl.historyCount + 1) ≤ (maxHistory : Int)
    split_ifs <;> omega
  · intro i hi
    have hi' : (i : Int) < (if repl.historyCount + 1 > (maxHistory : Int) then (maxHistory : Int)
        else repl.historyCount + 1) := by
      have hm : i < (if repl.historyCount + 1 > (maxHistory : Int) then (maxHistory : Int)
          else repl.historyCount + 1).toNat := List.mem_range.1 hi
      have h2 : (0 : Int) ≤ if repl.historyCount + 1 > (maxHistory : Int) then (maxHistory : Int)
          else repl.historyCount + 1 := by split_ifs <;> omega
      omega
    show slotRecorded
      (some ((cstr entry ++ [0]).set k 0) :: repl.history.take (maxHistory - 1))[i]? = true
    rcases Nat.eq_zero_or_pos i with hi0 | hipos
    · subst hi0
      simp only [List.getElem?_cons_zero, slotRecorded, decide_eq_true_eq]
      have hklt : k < (cstr entry ++ [0]).length := by
        rw [List.length_append, List.length_singleton]; omega
      exact (List.mem_iff_getElem?).2 ⟨k, by
        rw [List.getElem?_set, if_pos rfl, if_pos hklt]⟩
    · obtain ⟨j, rfl⟩ : ∃ j, i = j + 1 := ⟨i - 1, by omega⟩
      have hj : (j : Int) < repl.historyCount ∧ j < maxHistory - 1 := by
        split_ifs at hi' <;> push_cast at hi' <;> omega
      rw [List.getElem?_cons_succ, List.getElem?_take_of_lt hj.2]
      exact hslots j (List.mem_range.2 (by omega))

/-- C21: for a history as `termREPLInit` and `termREPLRecord` leave it, every session state at
the head of the loop of `termREPL`, reached from `startREPL` by any sequence of keys, still
refers to that history and has `-1 ≤ historyIndex ≤ historyCount - 1` (so `historyIndex = -1`
when the history is empty).  In such a state `replHistoryPrev` and `replHistoryNext` return,
for every key: `replHistoryPrev` reads the history only when `historyIndex < historyCount - 1`,
at the index `historyIndex + 1`, and `replHistoryNext` only when `0 < historyIndex`, at the
index `historyIndex - 1`; both indices are in `[0, historyCount)` and the slot read holds a
recorded block, whose string becomes the buffer content.  Every round of the loop returns and
leaves the history index in the same range. -/
theorem repl_history_index_in_range (keys : KeyCodes) (maxHistory : Nat) (prompt : List Nat)
    (history : TermREPL) (hh : history.valid maxHistory) (line : Line)
    (hr : REPLReachable keys prompt history line) :
    line.history = history ∧
    (-1 ≤ line.historyIndex ∧ line.historyIndex ≤ history.historyCount - 1) ∧
    (history.historyCount = 0 → line.historyIndex = -1) ∧
    (∀ key : Int,
      (∃ line', replHistoryPrev key line = some (line', REPLAction.REPL_DONOTHING) ∧
        (line.historyIndex ≥ history.historyCount - 1 → line' = line) ∧
        (line.historyIndex < history.historyCount - 1 →
          0 ≤ line.historyIndex + 1 ∧ line.historyIndex + 1 < history.historyCount ∧
          line'.historyIndex = line.historyIndex + 1 ∧
          ∃ blk, getAt history.history (line.historyIndex + 1) = some (some blk) ∧
            line'.content = cstr blk)) ∧
      (∃ line' action, replHistoryNext key line = some (line', action) ∧
        (line.historyIndex ≤ 0 →
          line' = { line with historyIndex := -1 } ∧ action = REPLAction.REPL_CLEAR) ∧
        (0 < line.historyIndex →
          0 ≤ line.historyIndex - 1 ∧ line.historyIndex - 1 < history.historyCount ∧
          line'.historyIndex = line.historyIndex - 1 ∧
          ∃ blk, getAt history.history (line.historyIndex - 1) = some (some blk) ∧
            line'.content = cstr blk)) ∧
      (∃ round, termREPLRound keys key line = some round ∧ round.line.history = history ∧
        -1 ≤ round.line.historyIndex ∧
        round.line.historyIndex ≤ history.historyCount - 1)) := by
  obtain ⟨hv, hhist⟩ := replReachable_valid keys maxHistory prompt history hh line hr
  have hi0 := hv.2.2.2.2.1
  have hi1 := hv.2.2.2.2.2
  rw [hhist] at hi1
  refine ⟨hhist, ⟨hi0, hi1⟩, fun h => by omega, fun key => ⟨?_, ?_, ?_⟩⟩
  · obtain ⟨line', hrun, _, _, hsame, hread⟩ := replHistoryPrev_valid maxHistory key line hv
    rw [hhist] at hsame hread
    refine ⟨line', hrun, hsame, fun h => ?_⟩
    obtain ⟨hidx, blk, hget, hcont⟩ := hread h
    exact ⟨by omega, by omega, hidx, blk, hget, hcont⟩
  · obtain ⟨line', action, hrun, _, _, hsame, hread⟩ :=
      replHistoryNext_valid maxHistory key line hv
    rw [hhist] at hread
    refine ⟨line', action, hrun, hsame, fun h => ?_⟩
    obtain ⟨_, hidx, blk, hget, hcont⟩ := hread h
    exact ⟨by omega, by omega, hidx, blk, hget, hcont⟩
  · obtain ⟨round, hround, hrh, hr0, hr1, _⟩ := termREPLRound_valid maxHistory keys key line hv
    rw [hhist] at hrh hr1
    exact ⟨round, hround, hrh, hr0, hr1⟩

theorem recordAll_valid (maxHistory : Nat) (hmax : 1 ≤ maxHistory) (entries : List (List Nat)) :
    ∀ repl : TermREPL, repl.valid maxHistory → (∀ e ∈ entries, 0 ∈ e) →
      ∃ repl', recordAll maxHistory repl entries = some repl' ∧ repl'.valid maxHistory := by
  induction entries with
  | nil => intro repl hv _; exact ⟨repl, rfl, hv⟩
  | cons e rest ih =>
    intro repl hv hent
    obtain ⟨repl1, hrec, hv1⟩ :=
      termREPLRecord_valid maxHistory hmax repl hv e (hent e (List.mem_cons_self _ _))
    obtain ⟨repl', hall, hv'⟩ := ih repl1 hv1 (fun e' he' => hent e' (List.mem_cons_of_mem _ he'))
    exact ⟨repl', by simp only [recordAll, hrec, Option.bind_eq_bind, Option.some_bind, hall],
      hv'⟩

/-- Witness of C21: the history of two slots in which `ls` was recorded, and the session
reached from `startREPL` by the up arrow (history index 0); a further up arrow leaves the
index at `historyCount - 1 = 0`, the down arrow sets it back to `-1`. -/
theorem repl_history_index_in_range_witness :
    (lsHistory.valid 2 ∧ REPLReachable sampleKeys [114, 101, 112, 108] lsHistory lsRecalled) ∧
    termREPLRecord 2 (termREPLInit 2 ⟨0, []⟩) [108, 115, 10, 0] = some lsHistory ∧
    termREPLRound sampleKeys 259 (startREPL [114, 101, 112, 108] lsHistory)
      = some (Round.next lsRecalled) ∧
    termREPLRound sampleKeys 259 lsRecalled = some (Round.next lsRecalled) ∧
    (termREPLRound sampleKeys 258 lsRecalled).map (fun r => r.line.historyIndex)
      = some (-1) ∧
    (-1 ≤ lsRecalled.historyIndex ∧ lsRecalled.historyIndex ≤ lsHistory.historyCount - 1) :=
  have hreach : REPLReachable sampleKeys [114, 101, 112, 108] lsHistory lsRecalled :=
    REPLReachable.round _ lsRecalled 259 REPLReachable.start (by decide)
  ⟨⟨by decide, hreach⟩, by decide, by decide, by decide, by decide,
    (repl_history_index_in_range sampleKeys 2 [114, 101, 112, 108] lsHistory (by decide)
      lsRecalled hreach).2.1⟩

/-! ## Rows that share a heap block -/

/-- C16 (the code departs from the claim): after the keys `a`, newline, `b`,
newline, `c`, up, left, backspace the shift loop of `editorBackspace` has copied the pointer
`data` of row 0 into row 1, so both rows show `ab` out of one heap block.  A further backspace
on row 0 at true offset 1 erases `a` in that block: row 0 shows `b`, and row 1, which the claim
says is not changed, shows `b`, `'\0'` instead of `ab`. -/
theorem editorBackspace_changes_row_sharing_block :
    ∃ e, Mem.typeInput 3 80 (Mem.termEditorInit 3 []) joinSecondLine = some e ∧
      e.lineCount = 2 ∧ e.cursor = ⟨1, 0⟩ ∧ e.offset = ⟨0, 0⟩ ∧
      e.lines.map (fun l => l.data) = [some 0, some 0, none] ∧
      e.rows = [some [97, 98], some [97, 98], some []] ∧
      (Mem.editorBackspace e).map (fun e' => (e'.rows, e'.lineCount, e'.cursor))
        = some ([some [98], some [98, 0], some []], 2, ⟨0, 0⟩) ∧
      (Mem.typeInput 3 80 (Mem.termEditorInit 3 []) (joinSecondLine ++ [127])).map
          (fun e' => e'.rows)
        = some [some [98], some [98, 0], some []] ∧
      (Mem.editorBackspace e).map (fun e' => e'.rows[1]?) ≠ some e.rows[1]? :=
  ⟨_, rfl, by decide, by decide, by decide, by decide, by decide, by decide, by decide,
    by decide⟩

/-- C5 (the code departs from the claim): in the state the keys `a`,
newline, `b`, newline, `c`, up, left, backspace leave (rows 0 and 1 show `ab` out of one heap
block, cursor on row 0 at true offset 1, two of three lines in use), `editorNewline` moves row
1 to index 2 and then writes the terminator of the cut row 0 into the shared block: the moved
row shows `a`, `'\0'` instead of `ab`. -/
theorem editorNewline_cuts_row_sharing_block :
    ∃ e, Mem.typeInput 3 80 (Mem.termEditorInit 3 []) joinSecondLine = some e ∧
      e.lineCount = 2 ∧ e.cursor = ⟨1, 0⟩ ∧ e.offset = ⟨0, 0⟩ ∧
      e.lines.map (fun l => l.data) = [some 0, some 0, none] ∧
      e.rows = [some [97, 98], some [97, 98], some []] ∧
      (Mem.editorNewline 3 e).map (fun e' => (e'.rows, e'.lineCount, e'.cursor))
        = some ([some [97], some [98], some [97, 0]], 3, ⟨0, 1⟩) ∧
      (Mem.typeInput 3 80 (Mem.termEditorInit 3 []) (joinSecondLine ++ [10])).map
          (fun e' => e'.rows)
        = some [some [97], some [98], some [97, 0]] ∧
      (Mem.editorNewline 3 e).map (fun e' => e'.rows[2]?) ≠ some e.rows[1]? :=
  ⟨_, rfl, by decide, by decide, by decide, by decide, by decide, by decide, by decide,
    by decide⟩

/-- C3 (the code departs from the claim): after the keys `a`, newline, `b`,
newline, `c`, up, left, backspace, down, left the cursor is at true column 0 of row 1, and rows
0 and 1 both show `ab` out of one heap block.  `editorBackspace` appends the bytes of row 1 to
row 0 in that block and then frees the block as the block of row 1: row 0 is left with
`count = 4` and a pointer to a freed block, not holding `abab`.  In the scenario of the claim,
`hello` and `world` typed into a fresh editor, the rows have blocks of their own and the join
gives `helloworld`. -/
theorem editorBackspace_frees_joined_row :
    ∃ e, Mem.typeInput 3 80 (Mem.termEditorInit 3 [])
          (joinSecondLine ++ [27, 91, 66, 27, 91, 68]) = some e ∧
      e.lineCount = 2 ∧ e.cursor = ⟨0, 1⟩ ∧ e.offset = ⟨0, 0⟩ ∧
      e.lines.map (fun l => l.data) = [some 0, some 0, none] ∧
      e.rows = [some [97, 98], some [97, 98], some []] ∧
      (Mem.editorBackspace e).map (fun e' => (e'.lines[0]?, e'.heap[0]?, e'.lineCount, e'.cursor))
        = some (some ⟨4, 32, some 0⟩, some none, 1, ⟨2, 0⟩) ∧
      (Mem.editorBackspace e).map (fun e' => e'.rows[0]?) = some (some none) ∧
      (Mem.editorBackspace e).map (fun e' => e'.rows[0]?)
        ≠ some (some (some ([97, 98] ++ [97, 98]))) ∧
      (Mem.typeInput 2 80 (Mem.termEditorInit 2 [])
          [104, 101, 108, 108, 111, 10, 119, 111, 114, 108, 100,
            27, 91, 68, 27, 91, 68, 27, 91, 68, 27, 91, 68, 27, 91, 68, 127]).map
          (fun e' => (e'.rows, e'.lineCount, e'.cursor))
        = some ([some [104, 101, 108, 108, 111, 119, 111, 114, 108, 100], some []], 1,
            ⟨5, 0⟩) :=
  ⟨_, rfl, by decide, by decide, by decide, by decide, by decide, by decide, by decide,
    by decide, by decide⟩

/-! ## Line buffer growth in 32-bit arithmetic -/

theorem wrapInt_of_lt (x : Int) (h0 : 0 ≤ x) (h1 : x < 2147483648) : wrapInt x = x := by
  unfold wrapInt
  omega

theorem growCapacity_int32_eq (n : Int) (hn : n ≤ 1073741824) :
    ∀ (fuel : Nat) (c : Int), 0 ≤ c →
      Int32.growCapacity fuel c n = growCapacity fuel c n := by
  intro fuel
  induction fuel with
  | zero => intro c _; rfl
  | succ fuel ih =>
    intro c hc
    by_cases hgt : n > c
    · simp only [Int32.growCapacity, growCapacity, hgt, if_true]
      by_cases h0 : c = 0
      · subst h0
        simp only [ne_eq, not_true_eq_false, if_false]
        exact ih 32 (by norm_num)
      · simp only [ne_eq, h0, not_false_eq_true, if_true]
        rw [wrapInt_of_lt (c * 2) (by omega) (by omega)]
        exact ih (c * 2) (by omega)
    · simp only [Int32.growCapacity, growCapacity, hgt, if_false]

theorem editorEnsureLine_int32_eq (line : EditorLine) (n : Int) (hc : 0 ≤ line.capacity)
    (hn : n ≤ 1073741824) : Int32.editorEnsureLine line n = editorEnsureLine line n := by
  unfold Int32.editorEnsureLine editorEnsureLine
  rw [growCapacity_int32_eq n hn n.toNat line.capacity hc]

theorem growCapacity_cycle :
    ∀ (fuel : Nat) (c : Int), c ∈ capacityCycle → Int32.growCapacity fuel c 1073741825 = none := by
  have hstep : ∀ c ∈ capacityCycle,
      (1073741825 : Int) > c ∧ (if c ≠ 0 then wrapInt (c * 2) else 32) ∈ capacityCycle := by
    decide
  intro fuel
  induction fuel with
  | zero =>
    intro c hc
    simp only [Int32.growCapacity, (hstep c hc).1, if_true]
  | succ fuel ih =>
    intro c hc
    simp only [Int32.growCapacity, (hstep c hc).1, if_true]
    exact ih _ (hstep c hc).2

/-- C17 as amended: for every line with capacity `c ≥ 0` and every requested size `n` with
`0 ≤ n ≤ 2^30`, `editorEnsureLine`, computing in 32-bit `int` arithmetic, returns; `count` is
unchanged and the new capacity `c'` satisfies `c' ≥ n` and `c' ≥ c`, with `c' = c` when
`c ≥ n`, and otherwise `c' = c₀ * 2^k` for the first `k` with `c₀ * 2^k ≥ n`, where `c₀` is `c`,
or 32 when `c = 0`. -/
theorem editorEnsureLine_capacity_int32 (line : EditorLine) (n : Int)
    (hc : 0 ≤ line.capacity) (hn : 0 ≤ n) (hmax : n ≤ 1073741824) :
    ∃ line', Int32.editorEnsureLine line n = some line' ∧ line'.count = line.count ∧
      n ≤ line'.capacity ∧ line.capacity ≤ line'.capacity ∧
      (n ≤ line.capacity → line'.capacity = line.capacity) ∧
      (line.capacity < n →
        ∃ k : Nat, line'.capacity = (if line.capacity = 0 then 32 else line.capacity) * 2 ^ k ∧
          ∀ j : Nat, j < k → (if line.capacity = 0 then 32 else line.capacity) * 2 ^ j < n) := by
  rw [editorEnsureLine_int32_eq line n hc hmax]
  exact editorEnsureLine_capacity line n hc hn

/-- Witness of C17 as amended: a line of capacity 32 asked for 100 cells gets 128; an empty
slot asked for 3 cells gets 32, and asked for `2^30` cells gets `2^30`. -/
theorem editorEnsureLine_capacity_int32_witness :
    ((0 : Int) ≤ (⟨5, 32, List.replicate 32 0⟩ : EditorLine).capacity ∧ (0 : Int) ≤ 100 ∧
      (100 : Int) ≤ 1073741824) ∧
    (Int32.editorEnsureLine ⟨5, 32, List.replicate 32 0⟩ 100).map
        (fun l => (l.count, l.capacity)) = some (5, 128) ∧
    (Int32.editorEnsureLine emptyLine 3).map (fun l => (l.count, l.capacity)) = some (0, 32) ∧
    Int32.growCapacity 27 0 1073741824 = some 1073741824 ∧
    ∃ line', Int32.editorEnsureLine ⟨5, 32, List.replicate 32 0⟩ 100 = some line' ∧
      line'.count = (⟨5, 32, List.replicate 32 0⟩ : EditorLine).count ∧
      100 ≤ line'.capacity ∧
      (⟨5, 32, List.replicate 32 0⟩ : EditorLine).capacity ≤ line'.capacity ∧
      (100 ≤ (⟨5, 32, List.replicate 32 0⟩ : EditorLine).capacity →
        line'.capacity = (⟨5, 32, List.replicate 32 0⟩ : EditorLine).capacity) ∧
      ((⟨5, 32, List.replicate 32 0⟩ : EditorLine).capacity < 100 →
        ∃ k : Nat, line'.capacity
            = (if (⟨5, 32, List.replicate 32 0⟩ : EditorLine).capacity = 0 then 32
               else (⟨5, 32, List.replicate 32 0⟩ : EditorLine).capacity) * 2 ^ k ∧
          ∀ j : Nat, j < k →
            (if (⟨5, 32, List.replicate 32 0⟩ : EditorLine).capacity = 0 then 32
             else (⟨5, 32, List.replicate 32 0⟩ : EditorLine).capacity) * 2 ^ j < 100) :=
  ⟨⟨by decide, by decide, by decide⟩, by decide, by decide, by decide,
    editorEnsureLine_capacity_int32 ⟨5, 32, List.replicate 32 0⟩ 100 (by decide) (by decide)
      (by decide)⟩

/-- Counterexample to C17 as stated: an empty slot (capacity 0) asked for `2^30 + 1` cells.
The capacity runs through 32, 64, …, `2^30`; the next product `2^30 * 2` does not fit a 32-bit
`int` and wraps to `-2^31`, whose double wraps to 0, and the loop starts over: after no number
of rounds has it ended, so `editorEnsureLine` does not return a capacity. -/
theorem editorEnsureLine_overflow_never_returns :
    (0 : Int) ≤ emptyLine.capacity ∧ (0 : Int) ≤ 1073741825 ∧
    wrapInt (1073741824 * 2) = -2147483648 ∧ wrapInt (-2147483648 * 2) = 0 ∧
    (∀ fuel : Nat, Int32.growCapacity fuel 0 1073741825 = none) ∧
    Int32.editorEnsureLine emptyLine 1073741825 = none ∧
    ¬ ∃ line', Int32.editorEnsureLine emptyLine 1073741825 = some line' ∧
      (1073741825 : Int) ≤ line'.capacity :=
  have hloop : ∀ fuel : Nat, Int32.growCapacity fuel 0 1073741825 = none :=
    fun fuel => growCapacity_cycle fuel 0 (by decide)
  have hnone : Int32.editorEnsureLine emptyLine 1073741825 = none := by
    have h0 : ¬ (emptyLine.capacity > (1073741825 : Int)) := by decide
    simp only [Int32.editorEnsureLine, h0, if_false]
    rw [show emptyLine.capacity = 0 from rfl, hloop]
    rfl
  ⟨by decide, by decide, by decide, by decide, hloop, hnone,
    fun ⟨line', h, _⟩ => by rw [hnone] at h; cases h⟩

end TermUtils
